import Mathlib

/-!
Verification of the maze core of `webmcp-maze`: grid model (`MazeBoard`),
recursive-backtracker carving, item/blocker placement (`ItemPlacer`) with its
augmented-state solvability search, and the runtime query surface (`Player`,
pickup/drop tool handlers).

The TypeScript sources are embedded shallowly:
* numbers that are used as grid coordinates are `Int` (they are produced by
  integer arithmetic only);
* a JS `Map` keyed by the string `"row,col"` (or `"row,col:direction"`) is
  represented as an association list keyed directly by `Position`
  (resp. `Position × Direction`); the string encoding is injective on integer
  coordinates, so lookups agree, and `Map.set` / `Map.delete` / `values()`
  are modelled by `jsSet` / `jsDelete` / the list itself (JS `Map.set`
  overwrites in place and otherwise appends, preserving insertion order);
* `Math.random()`-driven choices are threaded through an explicit oracle
  (`RNG`): `Math.floor(Math.random() * n)` becomes an arbitrary oracle value
  reduced mod `n`, so theorems quantify over every possible random sequence;
* the unbounded `while` loops (BFS queues, the carver's explicit stack) are
  given explicit fuel that exceeds the loop's own termination measure; where a
  claim depends on the loop running to completion this adequacy is proved.
-/

/-- Cardinal directions (`Direction` enum); `Object.values(Direction)`
enumerates them in declaration order north, south, east, west. -/
inductive Direction where
  | north
  | south
  | east
  | west
deriving DecidableEq, Repr

/-- The list produced by `Object.values(Direction)`. -/
def allDirections : List Direction :=
  [Direction.north, Direction.south, Direction.east, Direction.west]

/-- A row/column coordinate in the maze grid (`Position`). -/
structure Position where
  row : Int
  col : Int
deriving DecidableEq, Repr

/-- Componentwise addition used when applying a direction offset. -/
def Position.add (p q : Position) : Position :=
  ⟨p.row + q.row, p.col + q.col⟩

/-- `DIRECTION_OFFSETS`: row/col delta of each direction. -/
def DIRECTION_OFFSETS : Direction → Position
  | Direction.north => ⟨-1, 0⟩
  | Direction.south => ⟨1, 0⟩
  | Direction.east => ⟨0, 1⟩
  | Direction.west => ⟨0, -1⟩

/-- `OPPOSITE_DIRECTION`: maps each direction to its opposite. -/
def OPPOSITE_DIRECTION : Direction → Direction
  | Direction.north => Direction.south
  | Direction.south => Direction.north
  | Direction.east => Direction.west
  | Direction.west => Direction.east

/-- `CollectibleType` enum. -/
inductive CollectibleType where
  | keyRed
  | keyBlue
  | keyGreen
  | dynamite
deriving DecidableEq, Repr

/-- `BlockerType` enum. -/
inductive BlockerType where
  | doorRed
  | doorBlue
  | doorGreen
  | rock
deriving DecidableEq, Repr

/-- `ItemColor` enum. -/
inductive ItemColor where
  | red
  | blue
  | green
deriving DecidableEq, Repr

/-- `collectibleColor`: color of a collectible, `none` for dynamite. -/
def collectibleColor : CollectibleType → Option ItemColor
  | CollectibleType.keyRed => some ItemColor.red
  | CollectibleType.keyBlue => some ItemColor.blue
  | CollectibleType.keyGreen => some ItemColor.green
  | CollectibleType.dynamite => none

/-- `blockerColor`: color of a blocker, `none` for rock. -/
def blockerColor : BlockerType → Option ItemColor
  | BlockerType.doorRed => some ItemColor.red
  | BlockerType.doorBlue => some ItemColor.blue
  | BlockerType.doorGreen => some ItemColor.green
  | BlockerType.rock => none

/-- `canUnlock`: whether a collectible clears a blocker. -/
def canUnlock (item : CollectibleType) (blocker : BlockerType) : Bool :=
  if item = CollectibleType.dynamite ∧ blocker = BlockerType.rock then true
  else
    match collectibleColor item, blockerColor blocker with
    | some a, some b => decide (a = b)
    | _, _ => false

/-- A collectible resting on a cell. -/
structure Collectible where
  type : CollectibleType
  position : Position
deriving DecidableEq, Repr

/-- A blocker registered on a directed passage. -/
structure Blocker where
  type : BlockerType
  position : Position
  direction : Direction
deriving DecidableEq, Repr

/-! ### JS `Map` as an association list

`jsGet`, `jsSet`, `jsDelete` model `Map.get`, `Map.set`, `Map.delete` for a
map whose string keys are in bijection with the Lean key type. -/

/-- `Map.get`. -/
def jsGet {K V : Type} [DecidableEq K] (m : List (K × V)) (k : K) : Option V :=
  (m.find? (fun e => decide (e.1 = k))).map Prod.snd

/-- `Map.set`: overwrite in place when the key is present, else append. -/
def jsSet {K V : Type} [DecidableEq K] (m : List (K × V)) (k : K) (v : V) :
    List (K × V) :=
  if m.any (fun e => decide (e.1 = k)) then
    m.map (fun e => if e.1 = k then (k, v) else e)
  else m ++ [(k, v)]

/-- `Map.delete`. -/
def jsDelete {K V : Type} [DecidableEq K] (m : List (K × V)) (k : K) :
    List (K × V) :=
  m.filter (fun e => !decide (e.1 = k))

/-- Keys are pairwise distinct (always true for a JS `Map`). -/
def keysNodup {K V : Type} (m : List (K × V)) : Prop :=
  (m.map Prod.fst).Nodup

theorem jsGet_nil {K V : Type} [DecidableEq K] (k : K) :
    jsGet ([] : List (K × V)) k = none := rfl

theorem jsGet_cons {K V : Type} [DecidableEq K] (e : K × V) (m : List (K × V))
    (k : K) :
    jsGet (e :: m) k = if e.1 = k then some e.2 else jsGet m k := by
  by_cases h : e.1 = k <;> simp [jsGet, List.find?, h]

theorem jsGet_eq_none_iff {K V : Type} [DecidableEq K] (m : List (K × V))
    (k : K) : jsGet m k = none ↔ ∀ e ∈ m, e.1 ≠ k := by
  induction m with
  | nil => simp [jsGet]
  | cons e m ih =>
    rw [jsGet_cons]
    by_cases h : e.1 = k <;> simp [h, ih]

theorem jsGet_append {K V : Type} [DecidableEq K] (m₁ m₂ : List (K × V))
    (k : K) :
    jsGet (m₁ ++ m₂) k = (jsGet m₁ k).orElse (fun _ => jsGet m₂ k) := by
  induction m₁ with
  | nil => simp [jsGet]
  | cons e m ih =>
    rw [List.cons_append, jsGet_cons, jsGet_cons]
    by_cases h : e.1 = k <;> simp [h, ih]

theorem jsGet_ne_none_of_any {K V : Type} [DecidableEq K] (m : List (K × V))
    (k : K) (h : jsGet m k = none) :
    (m.any fun e => decide (e.1 = k)) = false := by
  rw [jsGet_eq_none_iff] at h
  simp only [List.any_eq_false, decide_eq_true_eq]
  exact h

theorem jsAny_of_get_some {K V : Type} [DecidableEq K] (m : List (K × V))
    (k : K) (w : V) (h : jsGet m k = some w) :
    (m.any fun e => decide (e.1 = k)) = true := by
  by_contra hc
  have hnone : jsGet m k = none := by
    rw [jsGet_eq_none_iff]
    intro e he hk
    exact hc (by
      simp only [List.any_eq_true]
      exact ⟨e, he, by simp [hk]⟩)
  rw [hnone] at h
  exact Option.noConfusion h

theorem jsGet_map_set_self {K V : Type} [DecidableEq K] (m : List (K × V))
    (k : K) (v : V) (hmem : (m.any fun e => decide (e.1 = k)) = true) :
    jsGet (m.map (fun e => if e.1 = k then (k, v) else e)) k = some v := by
  induction m with
  | nil => simp at hmem
  | cons e m ih =>
    simp only [List.map_cons, jsGet_cons]
    by_cases he : e.1 = k
    · simp [he]
    · simp only [he, if_false]
      simp only [List.any_cons, he, decide_False, Bool.false_or] at hmem
      exact ih hmem

theorem jsGet_map_set_other {K V : Type} [DecidableEq K] (m : List (K × V))
    (k q : K) (v : V) (h : q ≠ k) :
    jsGet (m.map (fun e => if e.1 = k then (k, v) else e)) q = jsGet m q := by
  induction m with
  | nil => rfl
  | cons e m ih =>
    simp only [List.map_cons, jsGet_cons]
    by_cases he : e.1 = k
    · have h1 : ¬ k = q := fun hk => h hk.symm
      have h2 : ¬ e.1 = q := by rw [he]; exact h1
      simp [he, h1, h2, ih]
    · rw [if_neg he]
      by_cases hq : e.1 = q
      · simp [hq]
      · simp [hq, ih]

theorem jsGet_set_self {K V : Type} [DecidableEq K] (m : List (K × V))
    (k : K) (v : V) : jsGet (jsSet m k v) k = some v := by
  unfold jsSet
  by_cases hmem : (m.any fun e => decide (e.1 = k)) = true
  · rw [if_pos hmem]
    exact jsGet_map_set_self m k v hmem
  · rw [if_neg hmem]
    rw [jsGet_append]
    have hnone : jsGet m k = none := by
      rw [jsGet_eq_none_iff]
      intro e he hk
      exact hmem (by
        simp only [List.any_eq_true]
        exact ⟨e, he, by simp [hk]⟩)
    simp [hnone, jsGet_cons]

theorem jsGet_set_other {K V : Type} [DecidableEq K] (m : List (K × V))
    (k q : K) (v : V) (h : q ≠ k) : jsGet (jsSet m k v) q = jsGet m q := by
  unfold jsSet
  by_cases hmem : (m.any fun e => decide (e.1 = k)) = true
  · rw [if_pos hmem]
    exact jsGet_map_set_other m k q v h
  · rw [if_neg hmem]
    rw [jsGet_append]
    rcases hg : jsGet m q with _ | v'
    · have h1 : ¬ k = q := fun hk => h hk.symm
      simp [jsGet_cons, h1, jsGet]
    · simp

theorem jsSet_of_get_none {K V : Type} [DecidableEq K] (m : List (K × V))
    (k : K) (v : V) (h : jsGet m k = none) : jsSet m k v = m ++ [(k, v)] := by
  unfold jsSet
  rw [jsGet_ne_none_of_any m k h]
  simp

theorem jsSet_length_of_get_some {K V : Type} [DecidableEq K]
    (m : List (K × V)) (k : K) (v w : V) (h : jsGet m k = some w) :
    (jsSet m k v).length = m.length := by
  unfold jsSet
  rw [if_pos (jsAny_of_get_some m k w h)]
  simp

theorem jsSet_length_of_get_none {K V : Type} [DecidableEq K]
    (m : List (K × V)) (k : K) (v : V) (h : jsGet m k = none) :
    (jsSet m k v).length = m.length + 1 := by
  rw [jsSet_of_get_none m k v h]
  simp

theorem jsGet_delete_self {K V : Type} [DecidableEq K] (m : List (K × V))
    (k : K) : jsGet (jsDelete m k) k = none := by
  rw [jsGet_eq_none_iff]
  intro e he
  unfold jsDelete at he
  rcases List.mem_filter.mp he with ⟨_, hk⟩
  simpa using hk

theorem jsGet_delete_other {K V : Type} [DecidableEq K] (m : List (K × V))
    (k q : K) (h : q ≠ k) : jsGet (jsDelete m k) q = jsGet m q := by
  induction m with
  | nil => rfl
  | cons e m ih =>
    unfold jsDelete
    by_cases he : e.1 = k
    · rw [List.filter_cons_of_neg (by simpa using he), jsGet_cons]
      have : ¬ e.1 = q := by rw [he]; exact fun hk => h hk.symm
      simp only [this, if_false]
      exact ih
    · rw [List.filter_cons_of_pos (by simpa using he), jsGet_cons, jsGet_cons]
      by_cases hq : e.1 = q
      · simp [hq]
      · simp only [hq, if_false]
        exact ih

theorem keysNodup_set {K V : Type} [DecidableEq K] (m : List (K × V))
    (k : K) (v : V) (h : keysNodup m) : keysNodup (jsSet m k v) := by
  unfold jsSet
  by_cases hany : (m.any fun e => decide (e.1 = k)) = true
  · rw [if_pos hany]
    unfold keysNodup at h ⊢
    have heq : (m.map (fun e => if e.1 = k then (k, v) else e)).map Prod.fst
        = m.map Prod.fst := by
      rw [List.map_map]
      apply List.map_congr_left
      intro e _
      by_cases he : e.1 = k <;> simp [he]
    rw [heq]
    exact h
  · rw [if_neg hany]
    unfold keysNodup at h ⊢
    rw [List.map_append]
    simp only [List.map_cons, List.map_nil]
    rw [List.nodup_append]
    refine ⟨h, List.nodup_singleton _, ?_⟩
    intro a ha
    simp only [List.mem_singleton]
    intro hak
    subst hak
    rcases List.mem_map.mp ha with ⟨e, he, hk⟩
    exact hany (by
      simp only [List.any_eq_true]
      exact ⟨e, he, by simp [hk]⟩)

theorem keysNodup_delete {K V : Type} [DecidableEq K] (m : List (K × V))
    (k : K) (h : keysNodup m) : keysNodup (jsDelete m k) := by
  unfold keysNodup at h ⊢
  unfold jsDelete
  exact h.sublist (List.Sublist.map Prod.fst (List.filter_sublist m))

/-! ### The maze board (`MazeBoard`) -/

/-- The maze board. `walls p d = true` means the wall is intact; only
in-bounds positions carry meaningful flags (`hasWall` fails closed). -/
structure MazeBoard where
  rows : Int
  cols : Int
  walls : Position → Direction → Bool
  collectibles : List (Position × CollectibleType)
  blockers : List ((Position × Direction) × BlockerType)

/-- The constructor `new MazeBoard(rows, cols)`: all walls intact, both
registries empty. -/
def MazeBoard.create (rows cols : Int) : MazeBoard :=
  ⟨rows, cols, fun _ _ => true, [], []⟩

/-- The exit cell (bottom-right), fixed at construction. -/
def MazeBoard.exit (b : MazeBoard) : Position :=
  ⟨b.rows - 1, b.cols - 1⟩

/-- `inBounds(pos)`. -/
def MazeBoard.inBounds (b : MazeBoard) (p : Position) : Bool :=
  decide (0 ≤ p.row) && decide (p.row < b.rows) &&
    decide (0 ≤ p.col) && decide (p.col < b.cols)

/-- `neighbor(pos, dir)`: adjacent position, `none` if out of bounds. -/
def MazeBoard.neighbor (b : MazeBoard) (p : Position) (d : Direction) :
    Option Position :=
  let next := p.add (DIRECTION_OFFSETS d)
  if b.inBounds next then some next else none

/-- `hasWall(pos, dir)`: the flag of the cell, `true` (walled) out of
bounds — `getCell` yields `undefined` exactly off the grid. -/
def MazeBoard.hasWall (b : MazeBoard) (p : Position) (d : Direction) : Bool :=
  if b.inBounds p then b.walls p d else true

/-- `removeWall(pos, dir)`: clears the flag on `pos` toward `dir` and on the
neighbor toward the opposite direction; no-op when either cell is missing. -/
def MazeBoard.removeWall (b : MazeBoard) (p : Position) (d : Direction) :
    MazeBoard :=
  if b.inBounds p = false then b
  else
    match b.neighbor p d with
    | none => b
    | some n =>
      { b with
        walls := fun q e =>
          if q = n ∧ e = OPPOSITE_DIRECTION d then false
          else if q = p ∧ e = d then false
          else b.walls q e }

/-- `isExit(pos)`. -/
def MazeBoard.isExit (b : MazeBoard) (p : Position) : Bool :=
  decide (p.row = b.exit.row) && decide (p.col = b.exit.col)

/-- `getCollectible(pos)`. -/
def MazeBoard.getCollectible (b : MazeBoard) (p : Position) :
    Option CollectibleType :=
  jsGet b.collectibles p

/-- `addCollectible(collectible)`. -/
def MazeBoard.addCollectible (b : MazeBoard) (c : Collectible) : MazeBoard :=
  { b with collectibles := jsSet b.collectibles c.position c.type }

/-- `removeCollectible(pos)`: returns the removed item and the new board. -/
def MazeBoard.removeCollectible (b : MazeBoard) (p : Position) :
    Option CollectibleType × MazeBoard :=
  (jsGet b.collectibles p,
    { b with collectibles := jsDelete b.collectibles p })

/-- `getBlocker(pos, dir)`. -/
def MazeBoard.getBlocker (b : MazeBoard) (p : Position) (d : Direction) :
    Option BlockerType :=
  jsGet b.blockers (p, d)

/-- `addBlocker(blocker)`. -/
def MazeBoard.addBlocker (b : MazeBoard) (blk : Blocker) : MazeBoard :=
  { b with blockers := jsSet b.blockers (blk.position, blk.direction) blk.type }

/-- `removeBlocker(pos, dir)`. -/
def MazeBoard.removeBlocker (b : MazeBoard) (p : Position) (d : Direction) :
    Option BlockerType × MazeBoard :=
  (jsGet b.blockers (p, d), { b with blockers := jsDelete b.blockers (p, d) })

/-- `isBlocked(pos, dir)`: wall intact or a blocker on the passage. -/
def MazeBoard.isBlocked (b : MazeBoard) (p : Position) (d : Direction) : Bool :=
  b.hasWall p d || (b.getBlocker p d).isSome

/-- `openDirections(pos)`: directions that are not blocked (`isBlocked`
consults both walls and blockers); `[]` off the grid. -/
def MazeBoard.openDirections (b : MazeBoard) (p : Position) : List Direction :=
  if b.inBounds p = false then []
  else allDirections.filter (fun d => !b.isBlocked p d)

/-! ### The player (`Player`, current version bundled with the MCP tools) -/

/-- Player state: position, move counter, single-slot inventory. -/
structure Player where
  position : Position
  moveCount : Nat
  inventory : Option CollectibleType
deriving DecidableEq, Repr

/-- `Player.move(dir, board)`: rejected when `isBlocked` or the destination is
out of bounds; otherwise steps and increments the counter. -/
def Player.move (pl : Player) (d : Direction) (b : MazeBoard) : Bool × Player :=
  if b.isBlocked pl.position d then (false, pl)
  else
    let next := pl.position.add (DIRECTION_OFFSETS d)
    if b.inBounds next = false then (false, pl)
    else (true, { pl with position := next, moveCount := pl.moveCount + 1 })

/-- `Player.pickup(item)`: fails when the inventory is occupied. -/
def Player.pickup (pl : Player) (item : CollectibleType) : Bool × Player :=
  if pl.inventory.isSome then (false, pl)
  else (true, { pl with inventory := some item })

/-- `Player.drop()`: empties the inventory, returning the held item. -/
def Player.drop (pl : Player) : Option CollectibleType × Player :=
  (pl.inventory, { pl with inventory := none })

/-- The `pickup` tool handler: requires a collectible on the current cell and
an empty inventory; then moves the collectible into the inventory. -/
def pickupExec (b : MazeBoard) (pl : Player) : Bool × MazeBoard × Player :=
  match b.getCollectible pl.position with
  | none => (false, b, pl)
  | some t =>
    if pl.inventory.isSome then (false, b, pl)
    else (true, (b.removeCollectible pl.position).2, (pl.pickup t).2)

/-- The `drop` tool handler: requires a held item and an empty current cell;
then places the held item on the cell. -/
def dropExec (b : MazeBoard) (pl : Player) : Bool × MazeBoard × Player :=
  match pl.inventory with
  | none => (false, b, pl)
  | some item =>
    if (b.getCollectible pl.position).isSome then (false, b, pl)
    else (true, b.addCollectible ⟨item, pl.position⟩, pl.drop.2)

/-! ### Basic board lemmas -/

theorem mem_allDirections (d : Direction) : d ∈ allDirections := by
  cases d <;> simp [allDirections]

theorem neighbor_inBounds {b : MazeBoard} {p n : Position} {d : Direction}
    (h : b.neighbor p d = some n) : b.inBounds n = true := by
  unfold MazeBoard.neighbor at h
  by_cases hin : b.inBounds (p.add (DIRECTION_OFFSETS d)) = true
  · simp only [hin, if_true] at h
    cases h
    exact hin
  · simp only [Bool.not_eq_true] at hin
    simp [hin] at h

theorem neighbor_eq_add {b : MazeBoard} {p n : Position} {d : Direction}
    (h : b.neighbor p d = some n) : n = p.add (DIRECTION_OFFSETS d) := by
  unfold MazeBoard.neighbor at h
  by_cases hin : b.inBounds (p.add (DIRECTION_OFFSETS d)) = true
  · simp only [hin, if_true] at h
    cases h
    rfl
  · simp only [Bool.not_eq_true] at hin
    simp [hin] at h

theorem add_offset_ne (p : Position) (d : Direction) :
    p.add (DIRECTION_OFFSETS d) ≠ p := by
  intro hcontra
  have hrow := congrArg Position.row hcontra
  have hcol := congrArg Position.col hcontra
  cases d <;> simp [Position.add, DIRECTION_OFFSETS] at hrow hcol

theorem neighbor_ne {b : MazeBoard} {p n : Position} {d : Direction}
    (h : b.neighbor p d = some n) : n ≠ p := by
  rw [neighbor_eq_add h]
  exact add_offset_ne p d

theorem inBounds_update (b : MazeBoard) (w : Position → Direction → Bool)
    (p : Position) : ({ b with walls := w } : MazeBoard).inBounds p =
      b.inBounds p := rfl

theorem hasWall_update (b : MazeBoard) (w : Position → Direction → Bool)
    (p : Position) (d : Direction) :
    ({ b with walls := w } : MazeBoard).hasWall p d =
      if b.inBounds p then w p d else true := rfl

/-- Claim C6 (amended): on an in-bounds cell with an in-bounds neighbor,
`removeWall` clears exactly the two matching flags and nothing else; when
the source cell is out of bounds or the neighbor does not exist, the board
is returned entirely unchanged.  (The original claim fails for an
out-of-bounds source cell, see the counterexample.) -/
theorem removeWall_symmetric_frame :
    (∀ (b : MazeBoard) (a : Position) (d : Direction) (n : Position),
      b.inBounds a = true → b.neighbor a d = some n →
        (b.removeWall a d).hasWall a d = false ∧
        (b.removeWall a d).hasWall n (OPPOSITE_DIRECTION d) = false ∧
        ∀ (p : Position) (e : Direction), ¬(p = a ∧ e = d) →
          ¬(p = n ∧ e = OPPOSITE_DIRECTION d) →
          (b.removeWall a d).hasWall p e = b.hasWall p e) ∧
    (∀ (b : MazeBoard) (a : Position) (d : Direction),
      b.inBounds a = false ∨ b.neighbor a d = none →
        b.removeWall a d = b) := by
  constructor
  · intro b a d n hin hnb
    have hb : b.removeWall a d =
        { b with
          walls := fun q e =>
            if q = n ∧ e = OPPOSITE_DIRECTION d then false
            else if q = a ∧ e = d then false
            else b.walls q e } := by
      unfold MazeBoard.removeWall
      rw [hnb]
      simp [hin]
    have hinN := neighbor_inBounds hnb
    have hne := neighbor_ne hnb
    refine ⟨?_, ?_, ?_⟩
    · rw [hb, hasWall_update, if_pos hin]
      have h1 : ¬(a = n ∧ d = OPPOSITE_DIRECTION d) := by
        intro hcontra
        exact hne hcontra.1.symm
      rw [if_neg h1, if_pos ⟨rfl, rfl⟩]
    · rw [hb, hasWall_update, if_pos hinN]
      rw [if_pos ⟨rfl, rfl⟩]
    · intro p e hp hn
      rw [hb, hasWall_update]
      unfold MazeBoard.hasWall
      rw [if_neg hn, if_neg hp]
  · intro b a d hcase
    unfold MazeBoard.removeWall
    by_cases hin : b.inBounds a = true
    · rcases hcase with hoob | hnone
      · rw [hin] at hoob
        exact absurd hoob (by simp)
      · simp only [hin]
        rw [hnone]
        simp
    · simp only [Bool.not_eq_true] at hin
      simp [hin]

/-- Claim C6, counterexample to the original statement: on a 1×1 board the
out-of-bounds position (-1,0) has the in-bounds neighbor (0,0) toward south,
yet `removeWall` leaves `hasWall((-1,0), south)` true (the source cell does
not exist, so the call is a no-op and the flag fails closed). -/
theorem removeWall_oob_counterexample :
    ((MazeBoard.create 1 1).neighbor ⟨-1, 0⟩ Direction.south).isSome = true ∧
    ((MazeBoard.create 1 1).removeWall ⟨-1, 0⟩ Direction.south).hasWall
      ⟨-1, 0⟩ Direction.south = true := by
  constructor
  · rfl
  · rfl

/-- Claim C6 witness. -/
theorem removeWall_symmetric_frame_witness :
    ((MazeBoard.create 2 2).removeWall ⟨0, 0⟩ Direction.east).hasWall
      ⟨0, 0⟩ Direction.east = false ∧
    ((MazeBoard.create 2 2).removeWall ⟨0, 0⟩ Direction.east).hasWall
      ⟨0, 1⟩ Direction.west = false ∧
    ((MazeBoard.create 2 2).removeWall ⟨0, 0⟩ Direction.east).hasWall
      ⟨0, 0⟩ Direction.south = true ∧
    (MazeBoard.create 0 0).removeWall ⟨0, 0⟩ Direction.east =
      MazeBoard.create 0 0 ∧
    (MazeBoard.create 1 1).removeWall ⟨-1, 0⟩ Direction.south =
      MazeBoard.create 1 1 := by
  have h := removeWall_symmetric_frame
  have h1 := h.1 (MazeBoard.create 2 2) ⟨0, 0⟩ Direction.east ⟨0, 1⟩
    (by decide) (by decide)
  refine ⟨h1.1, h1.2.1, ?_, ?_, ?_⟩
  · rw [h1.2.2 ⟨0, 0⟩ Direction.south (by decide) (by decide)]
    decide
  · exact h.2 (MazeBoard.create 0 0) ⟨0, 0⟩ Direction.east
      (Or.inl (by decide))
  · exact h.2 (MazeBoard.create 1 1) ⟨-1, 0⟩ Direction.south
      (Or.inl (by decide))

theorem isSome_false_eq_none {α : Type} {o : Option α}
    (h : o.isSome = false) : o = none := by
  cases o
  · rfl
  · simp at h

theorem bor_eq_false {a c : Bool} (h : (a || c) = false) :
    a = false ∧ c = false := by
  cases a <;> cases c <;> simp_all

/-- Claim C4: `Player.move(dir, board)` succeeds exactly when the passage has
no wall and no blocker and the destination is in bounds; success moves the
player one cell and increments the move counter, failure changes nothing. -/
theorem player_move_spec (b : MazeBoard) (pl : Player) (d : Direction) :
    ((pl.move d b).1 = true ↔
      (b.hasWall pl.position d = false ∧ b.getBlocker pl.position d = none ∧
        b.inBounds (pl.position.add (DIRECTION_OFFSETS d)) = true)) ∧
    ((pl.move d b).1 = true →
      (pl.move d b).2.position = pl.position.add (DIRECTION_OFFSETS d) ∧
      (pl.move d b).2.moveCount = pl.moveCount + 1) ∧
    ((pl.move d b).1 = false → (pl.move d b).2 = pl) := by
  unfold Player.move
  by_cases hblk : b.isBlocked pl.position d = true
  · rw [hblk]
    have : ¬(b.hasWall pl.position d = false ∧
        b.getBlocker pl.position d = none ∧
        b.inBounds (pl.position.add (DIRECTION_OFFSETS d)) = true) := by
      intro ⟨hw, hg, _⟩
      unfold MazeBoard.isBlocked at hblk
      rw [hw, hg] at hblk
      simp at hblk
    simp [this]
  · rw [Bool.not_eq_true] at hblk
    rw [hblk]
    unfold MazeBoard.isBlocked at hblk
    rcases bor_eq_false hblk with ⟨hw, hg⟩
    have hg' := isSome_false_eq_none hg
    by_cases hin : b.inBounds (pl.position.add (DIRECTION_OFFSETS d)) = true
    · simp [hin, hw, hg']
    · rw [Bool.not_eq_true] at hin
      simp [hin, hw, hg']

/-- Claim C4 witness: the 3×3 example from the specification — with only the
wall between (1,1) and (1,2) removed, moving east from (1,1) succeeds and
moving north fails without changing the player. -/
theorem player_move_spec_witness :
    ((Player.move ⟨⟨1, 1⟩, 0, none⟩ Direction.east
        ((MazeBoard.create 3 3).removeWall ⟨1, 1⟩ Direction.east)).2.position =
      (⟨1, 2⟩ : Position)) ∧
    ((Player.move ⟨⟨1, 1⟩, 0, none⟩ Direction.east
        ((MazeBoard.create 3 3).removeWall ⟨1, 1⟩ Direction.east)).2.moveCount =
      1) ∧
    ((Player.move ⟨⟨1, 1⟩, 0, none⟩ Direction.north
        ((MazeBoard.create 3 3).removeWall ⟨1, 1⟩ Direction.east)).2 =
      ⟨⟨1, 1⟩, 0, none⟩) := by
  have h1 := (player_move_spec
    ((MazeBoard.create 3 3).removeWall ⟨1, 1⟩ Direction.east)
    ⟨⟨1, 1⟩, 0, none⟩ Direction.east).2.1 (by decide)
  have h2 := (player_move_spec
    ((MazeBoard.create 3 3).removeWall ⟨1, 1⟩ Direction.east)
    ⟨⟨1, 1⟩, 0, none⟩ Direction.north).2.2 (by decide)
  exact ⟨by rw [h1.1]; rfl, h1.2, h2⟩

/-- Claim C5 (amended): `openDirections(pos)` returns exactly the directions
with no wall AND no blocker — it consults `isBlocked`, so it does depend on
the registered blockers.  (The original "ignores blockers" claim is refuted
by the counterexample below.) -/
theorem openDirections_blocker_aware (b : MazeBoard) (p : Position)
    (d : Direction) :
    d ∈ b.openDirections p ↔
      (b.hasWall p d = false ∧ b.getBlocker p d = none) := by
  unfold MazeBoard.openDirections
  by_cases hin : b.inBounds p = true
  · rw [if_neg (by simp [hin])]
    rw [List.mem_filter]
    constructor
    · intro ⟨_, hblk⟩
      have hblk2 : b.isBlocked p d = false := by
        rcases hb2 : b.isBlocked p d
        · rfl
        · rw [hb2] at hblk
          simp at hblk
      unfold MazeBoard.isBlocked at hblk2
      rcases bor_eq_false hblk2 with ⟨hw, hg⟩
      exact ⟨hw, isSome_false_eq_none hg⟩
    · intro ⟨hw, hg⟩
      refine ⟨mem_allDirections d, ?_⟩
      unfold MazeBoard.isBlocked
      rw [hw, hg]
      simp
  · rw [Bool.not_eq_true] at hin
    rw [if_pos hin]
    constructor
    · intro hmem
      exact absurd hmem (List.not_mem_nil d)
    · intro ⟨hw, _⟩
      unfold MazeBoard.hasWall at hw
      rw [hin] at hw
      simp at hw

/-- Claim C5, counterexample to the original statement: on a 1×2 board with
the east wall of (0,0) removed and a rock registered on that passage, east
has no wall yet `openDirections((0,0))` is empty — the result is not
independent of the blocker registry. -/
theorem openDirections_ignores_blockers_false :
    (((MazeBoard.create 1 2).removeWall ⟨0, 0⟩ Direction.east).addBlocker
        ⟨BlockerType.rock, ⟨0, 0⟩, Direction.east⟩).hasWall
      ⟨0, 0⟩ Direction.east = false ∧
    (((MazeBoard.create 1 2).removeWall ⟨0, 0⟩ Direction.east).addBlocker
        ⟨BlockerType.rock, ⟨0, 0⟩, Direction.east⟩).openDirections
      ⟨0, 0⟩ = [] := by
  constructor
  · rfl
  · rfl

/-- Claim C5 witness. -/
theorem openDirections_blocker_aware_witness :
    Direction.east ∈
      ((MazeBoard.create 1 2).removeWall ⟨0, 0⟩ Direction.east).openDirections
        ⟨0, 0⟩ := by
  exact (openDirections_blocker_aware
    ((MazeBoard.create 1 2).removeWall ⟨0, 0⟩ Direction.east)
    ⟨0, 0⟩ Direction.east).mpr (by constructor <;> rfl)

/-- Claim C9: when the player holds nothing and stands on a collectible,
pickup followed by drop at the same position succeeds and restores exactly
the prior state — same player, and every cell (including the current one)
holds the same collectible as before. -/
theorem pickup_drop_roundtrip (b : MazeBoard) (pl : Player)
    (t : CollectibleType) (hinv : pl.inventory = none)
    (hc : b.getCollectible pl.position = some t) :
    (pickupExec b pl).1 = true ∧
    (dropExec (pickupExec b pl).2.1 (pickupExec b pl).2.2).1 = true ∧
    (dropExec (pickupExec b pl).2.1 (pickupExec b pl).2.2).2.2 = pl ∧
    ∀ q : Position,
      (dropExec (pickupExec b pl).2.1 (pickupExec b pl).2.2).2.1.getCollectible
        q = b.getCollectible q := by
  have hpe : pickupExec b pl =
      (true, { b with collectibles := jsDelete b.collectibles pl.position },
        { pl with inventory := some t }) := by
    unfold pickupExec
    rw [hc]
    simp only [hinv, Option.isSome_none, Bool.false_eq_true, if_false]
    unfold MazeBoard.removeCollectible Player.pickup
    rw [hinv]
    simp
  rw [hpe]
  have hdel : ({ b with collectibles := jsDelete b.collectibles pl.position }
      : MazeBoard).getCollectible pl.position = none := by
    unfold MazeBoard.getCollectible
    exact jsGet_delete_self b.collectibles pl.position
  have hde : dropExec
      { b with collectibles := jsDelete b.collectibles pl.position }
      { pl with inventory := some t } =
      (true,
        ({ b with collectibles := jsDelete b.collectibles pl.position }
          : MazeBoard).addCollectible ⟨t, pl.position⟩,
        { pl with inventory := none }) := by
    unfold dropExec
    simp only
    rw [hdel]
    simp [Player.drop]
  rw [hde]
  refine ⟨rfl, rfl, ?_, ?_⟩
  · cases pl
    simp only at hinv
    simp [hinv]
  · intro q
    unfold MazeBoard.addCollectible MazeBoard.getCollectible
    simp only
    by_cases hq : q = pl.position
    · subst hq
      rw [jsGet_set_self]
      exact (show jsGet b.collectibles pl.position = some t from hc).symm
    · rw [jsGet_set_other _ _ _ _ hq, jsGet_delete_other _ _ _ hq]

/-- Claim C9 witness. -/
theorem pickup_drop_roundtrip_witness :
    ((⟨⟨0, 0⟩, 0, none⟩ : Player)).inventory = none ∧
    ((MazeBoard.create 2 2).addCollectible
      ⟨CollectibleType.keyRed, ⟨0, 0⟩⟩).getCollectible
        (⟨⟨0, 0⟩, 0, none⟩ : Player).position =
      some CollectibleType.keyRed ∧
    (pickupExec
      ((MazeBoard.create 2 2).addCollectible
        ⟨CollectibleType.keyRed, ⟨0, 0⟩⟩) ⟨⟨0, 0⟩, 0, none⟩).1 = true ∧
    (dropExec
        (pickupExec
          ((MazeBoard.create 2 2).addCollectible
            ⟨CollectibleType.keyRed, ⟨0, 0⟩⟩) ⟨⟨0, 0⟩, 0, none⟩).2.1
        (pickupExec
          ((MazeBoard.create 2 2).addCollectible
            ⟨CollectibleType.keyRed, ⟨0, 0⟩⟩) ⟨⟨0, 0⟩, 0, none⟩).2.2).2.1.getCollectible
        ⟨0, 0⟩ =
      ((MazeBoard.create 2 2).addCollectible
        ⟨CollectibleType.keyRed, ⟨0, 0⟩⟩).getCollectible ⟨0, 0⟩ :=
  ⟨rfl, rfl,
    (pickup_drop_roundtrip
      ((MazeBoard.create 2 2).addCollectible
        ⟨CollectibleType.keyRed, ⟨0, 0⟩⟩)
      ⟨⟨0, 0⟩, 0, none⟩ CollectibleType.keyRed rfl rfl).1,
    (pickup_drop_roundtrip
      ((MazeBoard.create 2 2).addCollectible
        ⟨CollectibleType.keyRed, ⟨0, 0⟩⟩)
      ⟨⟨0, 0⟩, 0, none⟩ CollectibleType.keyRed rfl rfl).2.2.2 ⟨0, 0⟩⟩

/-- Claim C10: both registries keep at most one entry per key —
`addCollectible` on an occupied cell silently replaces the existing
collectible (same count, new value, other cells untouched) and `addBlocker`
behaves identically for an occupied directed passage; both preserve
key-uniqueness. -/
theorem registry_overwrite_spec :
    (∀ (b : MazeBoard) (c : Collectible) (w : CollectibleType),
      b.getCollectible c.position = some w →
        (b.addCollectible c).getCollectible c.position = some c.type ∧
        (b.addCollectible c).collectibles.length = b.collectibles.length ∧
        ∀ q : Position, q ≠ c.position →
          (b.addCollectible c).getCollectible q = b.getCollectible q) ∧
    (∀ (b : MazeBoard) (c : Collectible),
      keysNodup b.collectibles → keysNodup (b.addCollectible c).collectibles) ∧
    (∀ (b : MazeBoard) (blk : Blocker) (w : BlockerType),
      b.getBlocker blk.position blk.direction = some w →
        (b.addBlocker blk).getBlocker blk.position blk.direction =
          some blk.type ∧
        (b.addBlocker blk).blockers.length = b.blockers.length ∧
        ∀ (q : Position) (e : Direction), (q, e) ≠ (blk.position, blk.direction) →
          (b.addBlocker blk).getBlocker q e = b.getBlocker q e) ∧
    (∀ (b : MazeBoard) (blk : Blocker),
      keysNodup b.blockers → keysNodup (b.addBlocker blk).blockers) := by
  refine ⟨?_, ?_, ?_, ?_⟩
  · intro b c w h
    unfold MazeBoard.addCollectible MazeBoard.getCollectible at *
    refine ⟨jsGet_set_self _ _ _, jsSet_length_of_get_some _ _ _ _ h, ?_⟩
    intro q hq
    exact jsGet_set_other _ _ _ _ hq
  · intro b c h
    unfold MazeBoard.addCollectible
    exact keysNodup_set _ _ _ h
  · intro b blk w h
    unfold MazeBoard.addBlocker MazeBoard.getBlocker at *
    refine ⟨jsGet_set_self _ _ _, jsSet_length_of_get_some _ _ _ _ h, ?_⟩
    intro q e hq
    exact jsGet_set_other _ _ _ _ hq
  · intro b blk h
    unfold MazeBoard.addBlocker
    exact keysNodup_set _ _ _ h

/-- Claim C10 witness. -/
theorem registry_overwrite_spec_witness :
    (((MazeBoard.create 2 2).addCollectible
        ⟨CollectibleType.keyRed, ⟨0, 1⟩⟩).addCollectible
        ⟨CollectibleType.dynamite, ⟨0, 1⟩⟩).getCollectible ⟨0, 1⟩ =
      some CollectibleType.dynamite ∧
    (((MazeBoard.create 2 2).addCollectible
        ⟨CollectibleType.keyRed, ⟨0, 1⟩⟩).addCollectible
        ⟨CollectibleType.dynamite, ⟨0, 1⟩⟩).collectibles.length = 1 ∧
    (((MazeBoard.create 2 2).addBlocker
        ⟨BlockerType.doorRed, ⟨0, 0⟩, Direction.east⟩).addBlocker
        ⟨BlockerType.rock, ⟨0, 0⟩, Direction.east⟩).blockers.length = 1 := by
  have h1 := (registry_overwrite_spec.1
    ((MazeBoard.create 2 2).addCollectible ⟨CollectibleType.keyRed, ⟨0, 1⟩⟩)
    ⟨CollectibleType.dynamite, ⟨0, 1⟩⟩ CollectibleType.keyRed rfl)
  have h2 := (registry_overwrite_spec.2.2.1
    ((MazeBoard.create 2 2).addBlocker
      ⟨BlockerType.doorRed, ⟨0, 0⟩, Direction.east⟩)
    ⟨BlockerType.rock, ⟨0, 0⟩, Direction.east⟩ BlockerType.doorRed rfl)
  refine ⟨h1.1, ?_, ?_⟩
  · rw [h1.2.1]
    rfl
  · rw [h2.2.1]
    rfl

/-! ### Randomness oracle and Fisher-Yates shuffle -/

/-- Oracle for `Math.random()`: an infinite stream of naturals together with
the index of the next unconsumed value. -/
structure RNG where
  g : Nat → Nat
  i : Nat

/-- `Math.floor(Math.random() * n)`: an arbitrary oracle value reduced
mod `n` (every value in `[0, n)` is realisable, and nothing else is). -/
def rngNat (r : RNG) (n : Nat) : Nat × RNG :=
  (r.g r.i % n, ⟨r.g, r.i + 1⟩)

/-- `[arr[i], arr[j]] = [arr[j], arr[i]]`: swap two list entries
(no-op when an index is out of range, which never happens in the code). -/
def lswap {α : Type} (l : List α) (i j : Nat) : List α :=
  match l.get? i, l.get? j with
  | some x, some y => (l.set i y).set j x
  | _, _ => l

theorem cons_set_perm {α : Type} :
    ∀ (t : List α) (m : Nat) (x y : α), t.get? m = some y →
      List.Perm (y :: t.set m x) (x :: t) := by
  intro t
  induction t with
  | nil =>
    intro m x y h
    simp at h
  | cons b t ih =>
    intro m x y h
    cases m with
    | zero =>
      simp only [List.get?] at h
      cases h
      exact List.Perm.swap x b t
    | succ k =>
      simp only [List.get?] at h
      have h1 : List.Perm (y :: b :: t.set k x) (b :: y :: t.set k x) :=
        List.Perm.swap b y (t.set k x)
      have h2 : List.Perm (b :: y :: t.set k x) (b :: x :: t) :=
        List.Perm.cons b (ih k x y h)
      have h3 : List.Perm (b :: x :: t) (x :: b :: t) := List.Perm.swap x b t
      exact (h1.trans h2).trans h3

theorem set_set_perm {α : Type} :
    ∀ (l : List α) (i j : Nat) (x y : α), l.get? i = some x →
      l.get? j = some y → List.Perm ((l.set i y).set j x) l := by
  intro l
  induction l with
  | nil =>
    intro i j x y hx
    simp at hx
  | cons a t ih =>
    intro i j x y hx hy
    cases i with
    | zero =>
      simp only [List.get?] at hx
      cases hx
      cases j with
      | zero =>
        simp only [List.get?] at hy
        cases hy
        exact List.Perm.refl _
      | succ m =>
        simp only [List.get?] at hy
        exact cons_set_perm t m a y hy
    | succ k =>
      cases j with
      | zero =>
        simp only [List.get?] at hx hy
        cases hy
        exact cons_set_perm t k a x hx
      | succ m =>
        simp only [List.get?] at hx hy
        exact List.Perm.cons a (ih k m x y hx hy)

theorem lswap_perm {α : Type} (l : List α) (i j : Nat) :
    List.Perm (lswap l i j) l := by
  unfold lswap
  rcases hx : l.get? i with _ | x
  · exact List.Perm.refl l
  · rcases hy : l.get? j with _ | y
    · exact List.Perm.refl l
    · exact set_set_perm l i j x y hx hy

/-- The Fisher-Yates loop: iteration with counter `i+1` swaps index `i+1`
with a random index in `[0, i+2)`. -/
def shuffleAux {α : Type} : List α → Nat → RNG → List α × RNG
  | l, 0, r => (l, r)
  | l, i + 1, r =>
    let jr := rngNat r (i + 2)
    shuffleAux (lswap l (i + 1) jr.1) i jr.2

/-- `shuffle(arr)`: in-place Fisher-Yates, modelled functionally. -/
def shuffle {α : Type} (l : List α) (r : RNG) : List α × RNG :=
  shuffleAux l (l.length - 1) r

theorem shuffleAux_perm {α : Type} :
    ∀ (i : Nat) (l : List α) (r : RNG), List.Perm (shuffleAux l i r).1 l := by
  intro i
  induction i with
  | zero => intro l r; exact List.Perm.refl l
  | succ k ih =>
    intro l r
    unfold shuffleAux
    exact List.Perm.trans (ih _ _) (lswap_perm l (k + 1) _)

theorem shuffle_perm {α : Type} (l : List α) (r : RNG) :
    List.Perm (shuffle l r).1 l :=
  shuffleAux_perm (l.length - 1) l r

/-! ### Helper lemmas about `removeWall` -/

theorem removeWall_fields (b : MazeBoard) (p : Position) (d : Direction) :
    (b.removeWall p d).rows = b.rows ∧ (b.removeWall p d).cols = b.cols ∧
    (b.removeWall p d).collectibles = b.collectibles ∧
    (b.removeWall p d).blockers = b.blockers := by
  unfold MazeBoard.removeWall
  split
  · exact ⟨rfl, rfl, rfl, rfl⟩
  · split
    · exact ⟨rfl, rfl, rfl, rfl⟩
    · exact ⟨rfl, rfl, rfl, rfl⟩

theorem removeWall_inBounds (b : MazeBoard) (p : Position) (d : Direction)
    (q : Position) : (b.removeWall p d).inBounds q = b.inBounds q := by
  unfold MazeBoard.inBounds
  rw [(removeWall_fields b p d).1, (removeWall_fields b p d).2.1]

theorem removeWall_eq_update (b : MazeBoard) (p n : Position) (d : Direction)
    (hin : b.inBounds p = true) (hnb : b.neighbor p d = some n) :
    b.removeWall p d =
      { b with
        walls := fun q e =>
          if q = n ∧ e = OPPOSITE_DIRECTION d then false
          else if q = p ∧ e = d then false
          else b.walls q e } := by
  unfold MazeBoard.removeWall
  rw [hnb]
  simp [hin]

theorem removeWall_hasWall_self (b : MazeBoard) (p n : Position)
    (d : Direction) (hin : b.inBounds p = true)
    (hnb : b.neighbor p d = some n) :
    (b.removeWall p d).hasWall p d = false := by
  rw [removeWall_eq_update b p n d hin hnb, hasWall_update, if_pos hin]
  have h1 : ¬(p = n ∧ d = OPPOSITE_DIRECTION d) := fun hc =>
    (neighbor_ne hnb) hc.1.symm
  rw [if_neg h1, if_pos ⟨rfl, rfl⟩]

theorem removeWall_hasWall_mirror (b : MazeBoard) (p n : Position)
    (d : Direction) (hin : b.inBounds p = true)
    (hnb : b.neighbor p d = some n) :
    (b.removeWall p d).hasWall n (OPPOSITE_DIRECTION d) = false := by
  rw [removeWall_eq_update b p n d hin hnb, hasWall_update,
    if_pos (neighbor_inBounds hnb), if_pos ⟨rfl, rfl⟩]

theorem removeWall_hasWall_frame (b : MazeBoard) (p n : Position)
    (d : Direction) (hin : b.inBounds p = true)
    (hnb : b.neighbor p d = some n) (q : Position) (e : Direction)
    (h1 : ¬(q = p ∧ e = d)) (h2 : ¬(q = n ∧ e = OPPOSITE_DIRECTION d)) :
    (b.removeWall p d).hasWall q e = b.hasWall q e := by
  rw [removeWall_eq_update b p n d hin hnb, hasWall_update]
  unfold MazeBoard.hasWall
  rw [if_neg h2, if_neg h1]

theorem removeWall_hasWall_mono (b : MazeBoard) (p : Position) (d : Direction)
    (q : Position) (e : Direction) (h : b.hasWall q e = false) :
    (b.removeWall p d).hasWall q e = false := by
  unfold MazeBoard.removeWall
  split
  · exact h
  · split
    · exact h
    · rw [hasWall_update]
      unfold MazeBoard.hasWall at h
      by_cases hin : b.inBounds q = true
      · rw [if_pos hin]
        rw [if_pos hin] at h
        split
        · rfl
        · split
          · rfl
          · exact h
      · rw [Bool.not_eq_true] at hin
        rw [hin] at h
        simp at h

/-! ### The maze carver (`RecursiveBacktracker.generate`) -/

/-- `unvisitedNeighbors(pos, board, visited)`: in-bounds neighbors not yet
visited, with the direction that reaches them, in direction order. -/
def unvisitedNeighbors (pos : Position) (b : MazeBoard)
    (visited : List Position) : List (Direction × Position) :=
  allDirections.filterMap (fun d =>
    let next := pos.add (DIRECTION_OFFSETS d)
    if b.inBounds next = true ∧ next ∉ visited then some (d, next) else none)

/-- The carver's explicit-stack loop.  One fuel unit per iteration; each
iteration either pops the stack or visits a fresh cell, so
`2*rows*cols + 2` fuel (supplied by `generate`) always runs it to
completion. -/
def carveLoop : Nat → MazeBoard → List Position → List Position → RNG →
    MazeBoard × List Position × RNG
  | 0, b, visited, _, r => (b, visited, r)
  | f + 1, b, visited, stack, r =>
    match stack with
    | [] => (b, visited, r)
    | cur :: rest =>
      let ns := unvisitedNeighbors cur b visited
      if ns.length = 0 then carveLoop f b visited rest r
      else
        let jr := rngNat r ns.length
        let dn := ns.getD jr.1 (Direction.north, cur)
        carveLoop f (b.removeWall cur dn.1) (dn.2 :: visited)
          (dn.2 :: cur :: rest) jr.2

/-- `RecursiveBacktracker.generate(board)`: mark (0,0) visited, push it and
run the loop until the stack empties. -/
def generate (b : MazeBoard) (r : RNG) : MazeBoard × RNG :=
  let res := carveLoop (2 * (b.rows * b.cols).toNat + 2) b
    [⟨0, 0⟩] [⟨0, 0⟩] r
  (res.1, res.2.2)

/-! ### Spec-side notions for the carving claims: the grid as a finset, the
open-passage count, and wall-free reachability -/

/-- The in-bounds cells of a board, as a finset. -/
def gridFinset (b : MazeBoard) : Finset Position :=
  ((Finset.Icc 0 (b.rows - 1)) ×ˢ (Finset.Icc 0 (b.cols - 1))).map
    ⟨fun rc => ⟨rc.1, rc.2⟩, by
      intro a c h
      cases a
      cases c
      simp only [Position.mk.injEq] at h
      simp [Prod.ext_iff]
      exact h⟩

theorem mem_gridFinset (b : MazeBoard) (p : Position) :
    p ∈ gridFinset b ↔ b.inBounds p = true := by
  unfold gridFinset MazeBoard.inBounds
  simp only [Finset.mem_map, Finset.mem_product, Finset.mem_Icc,
    Function.Embedding.coeFn_mk]
  constructor
  · intro ⟨rc, ⟨⟨h1, h2⟩, h3, h4⟩, heq⟩
    cases heq
    simp only [Bool.and_eq_true, decide_eq_true_eq]
    omega
  · intro h
    simp only [Bool.and_eq_true, decide_eq_true_eq] at h
    exact ⟨(p.row, p.col), ⟨⟨by omega, by omega⟩, by omega, by omega⟩, rfl⟩

theorem card_gridFinset (b : MazeBoard) (hR : 1 ≤ b.rows) (hC : 1 ≤ b.cols) :
    (gridFinset b).card = (b.rows * b.cols).toNat := by
  unfold gridFinset
  rw [Finset.card_map, Finset.card_product, Int.card_Icc, Int.card_Icc]
  have h1 : b.rows - 1 + 1 - 0 = b.rows := by ring
  have h2 : b.cols - 1 + 1 - 0 = b.cols := by ring
  rw [h1, h2]
  have hcast : b.rows * b.cols = ((b.rows.toNat * b.cols.toNat : Nat) : Int) := by
    push_cast
    rw [Int.toNat_of_nonneg (by omega), Int.toNat_of_nonneg (by omega)]
  rw [hcast, Int.toNat_natCast]

/-- The open passages of a board, one representative `(cell, south/east)` per
unordered adjacent open pair. -/
def openPassagePairs (b : MazeBoard) : Finset (Position × Direction) :=
  ((gridFinset b) ×ˢ ({Direction.south, Direction.east} : Finset Direction)).filter
    (fun pd => b.hasWall pd.1 pd.2 = false ∧
      b.inBounds (pd.1.add (DIRECTION_OFFSETS pd.2)) = true)

/-- Number of open passages, each adjacent pair counted once. -/
def openPassageCount (b : MazeBoard) : Nat := (openPassagePairs b).card

/-- Wall-free reachability (ignoring blockers) from `s`. -/
inductive Reaches (b : MazeBoard) (s : Position) : Position → Prop
  | refl : Reaches b s s
  | step {p : Position} (d : Direction) : Reaches b s p →
      b.hasWall p d = false → Reaches b s (p.add (DIRECTION_OFFSETS d))

theorem Reaches.mono {b b2 : MazeBoard} {s p : Position}
    (hw : ∀ q e, b.hasWall q e = false → b2.hasWall q e = false)
    (h : Reaches b s p) : Reaches b2 s p := by
  induction h with
  | refl => exact Reaches.refl
  | step d _ hwall ih => exact Reaches.step d ih (hw _ _ hwall)

theorem opp_opp (d : Direction) :
    OPPOSITE_DIRECTION (OPPOSITE_DIRECTION d) = d := by
  cases d <;> rfl

theorem add_off_cancel (p : Position) (d : Direction) :
    (p.add (DIRECTION_OFFSETS d)).add
      (DIRECTION_OFFSETS (OPPOSITE_DIRECTION d)) = p := by
  cases p
  cases d <;> simp [Position.add, DIRECTION_OFFSETS, OPPOSITE_DIRECTION]

theorem gridFinset_congr (b2 b : MazeBoard) (hr : b2.rows = b.rows)
    (hc : b2.cols = b.cols) : gridFinset b2 = gridFinset b := by
  unfold gridFinset
  rw [hr, hc]

theorem inBounds_congr (b2 b : MazeBoard) (hr : b2.rows = b.rows)
    (hc : b2.cols = b.cols) (q : Position) :
    b2.inBounds q = b.inBounds q := by
  unfold MazeBoard.inBounds
  rw [hr, hc]

/-- Opening one closed passage (cleared on both sides, frame everywhere else)
adds exactly its south/east representative to the open-passage finset. -/
theorem openPassagePairs_carve (b : MazeBoard) (a : Position) (eo : Direction)
    (heo : eo = Direction.south ∨ eo = Direction.east)
    (hina : b.inBounds a = true)
    (hinn : b.inBounds (a.add (DIRECTION_OFFSETS eo)) = true)
    (hw : b.hasWall a eo = true)
    (b2 : MazeBoard)
    (hr : b2.rows = b.rows) (hc : b2.cols = b.cols)
    (hwalls : ∀ q e2, b2.hasWall q e2 =
      if q = a ∧ e2 = eo then false
      else if q = a.add (DIRECTION_OFFSETS eo) ∧
          e2 = OPPOSITE_DIRECTION eo then false
      else b.hasWall q e2) :
    openPassagePairs b2 = insert (a, eo) (openPassagePairs b) ∧
      (a, eo) ∉ openPassagePairs b := by
  have hgrid : gridFinset b2 = gridFinset b := gridFinset_congr b2 b hr hc
  have hinb : ∀ q, b2.inBounds q = b.inBounds q := inBounds_congr b2 b hr hc
  constructor
  · apply Finset.ext
    intro pe
    rw [Finset.mem_insert]
    unfold openPassagePairs
    rw [Finset.mem_filter, Finset.mem_filter, hgrid]
    simp only [Finset.mem_product]
    constructor
    · intro ⟨⟨hg, hd⟩, hwall, hbnd⟩
      rw [hwalls] at hwall
      rw [hinb] at hbnd
      by_cases c1 : pe.1 = a ∧ pe.2 = eo
      · left
        obtain ⟨h1, h2⟩ := c1
        exact Prod.ext h1 h2
      · rw [if_neg c1] at hwall
        by_cases c2 : pe.1 = a.add (DIRECTION_OFFSETS eo) ∧
            pe.2 = OPPOSITE_DIRECTION eo
        · exfalso
          simp only [Finset.mem_insert, Finset.mem_singleton] at hd
          rcases heo with h | h <;> rw [h] at c2 <;>
            rcases hd with h2 | h2 <;> rw [h2] at c2 <;>
            simp [OPPOSITE_DIRECTION] at c2
        · rw [if_neg c2] at hwall
          exact Or.inr ⟨⟨hg, hd⟩, hwall, hbnd⟩
    · intro h
      rcases h with heq | ⟨⟨hg, hd⟩, hwall, hbnd⟩
      · subst heq
        refine ⟨⟨(mem_gridFinset b a).mpr hina, ?_⟩, ?_, ?_⟩
        · rcases heo with h | h <;> rw [h] <;>
            simp [Finset.mem_insert, Finset.mem_singleton]
        · rw [hwalls, if_pos ⟨rfl, rfl⟩]
        · rw [hinb]
          exact hinn
      · refine ⟨⟨hg, hd⟩, ?_, by rw [hinb]; exact hbnd⟩
        rw [hwalls]
        by_cases c1 : pe.1 = a ∧ pe.2 = eo
        · rw [if_pos c1]
        · rw [if_neg c1]
          by_cases c2 : pe.1 = a.add (DIRECTION_OFFSETS eo) ∧
              pe.2 = OPPOSITE_DIRECTION eo
          · rw [if_pos c2]
          · rw [if_neg c2]
            exact hwall
  · intro hmem
    unfold openPassagePairs at hmem
    rw [Finset.mem_filter] at hmem
    rw [hmem.2.1] at hw
    exact Bool.noConfusion hw

/-- Carving the wall between the visited `cur` and the unvisited `next`
increments the open-passage count by exactly one. -/
theorem carve_count (b : MazeBoard) (cur next : Position) (d : Direction)
    (hincur : b.inBounds cur = true) (hnb : b.neighbor cur d = some next)
    (hw1 : b.hasWall cur d = true)
    (hw2 : b.hasWall next (OPPOSITE_DIRECTION d) = true) :
    openPassageCount (b.removeWall cur d) = openPassageCount b + 1 := by
  have hinN := neighbor_inBounds hnb
  have hadd := neighbor_eq_add hnb
  subst hadd
  have hfr := removeWall_fields b cur d
  have hself := removeWall_hasWall_self b cur _ d hincur hnb
  have hmirror := removeWall_hasWall_mirror b cur _ d hincur hnb
  have hframe := removeWall_hasWall_frame b cur _ d hincur hnb
  have hback : (cur.add (DIRECTION_OFFSETS d)).add
      (DIRECTION_OFFSETS (OPPOSITE_DIRECTION d)) = cur := add_off_cancel cur d
  have key : ∀ (a : Position) (eo : Direction),
      eo = Direction.south ∨ eo = Direction.east →
      ((a = cur ∧ eo = d) ∨
        (a = cur.add (DIRECTION_OFFSETS d) ∧ eo = OPPOSITE_DIRECTION d)) →
      openPassageCount (b.removeWall cur d) = openPassageCount b + 1 := by
    intro a eo heo hcase
    have hwalls : ∀ q e2, (b.removeWall cur d).hasWall q e2 =
        if q = a ∧ e2 = eo then false
        else if q = a.add (DIRECTION_OFFSETS eo) ∧
            e2 = OPPOSITE_DIRECTION eo then false
        else b.hasWall q e2 := by
      intro q e2
      rcases hcase with ⟨ha, he⟩ | ⟨ha, he⟩
      · rw [ha, he]
        by_cases c1 : q = cur ∧ e2 = d
        · rw [if_pos c1]
          obtain ⟨rfl, rfl⟩ := c1
          exact hself
        · rw [if_neg c1]
          by_cases c2 : q = cur.add (DIRECTION_OFFSETS d) ∧
              e2 = OPPOSITE_DIRECTION d
          · rw [if_pos c2]
            obtain ⟨rfl, rfl⟩ := c2
            exact hmirror
          · rw [if_neg c2]
            exact hframe q e2 c1 c2
      · rw [ha, he]
        rw [opp_opp]
        rw [hback]
        by_cases c1 : q = cur.add (DIRECTION_OFFSETS d) ∧
            e2 = OPPOSITE_DIRECTION d
        · rw [if_pos c1]
          obtain ⟨rfl, rfl⟩ := c1
          exact hmirror
        · rw [if_neg c1]
          by_cases c2 : q = cur ∧ e2 = d
          · rw [if_pos c2]
            obtain ⟨rfl, rfl⟩ := c2
            exact hself
          · rw [if_neg c2]
            exact hframe q e2 c2 c1
    have hina : b.inBounds a = true := by
      rcases hcase with ⟨ha, _⟩ | ⟨ha, _⟩
      · rw [ha]
        exact hincur
      · rw [ha]
        exact hinN
    have hinn : b.inBounds (a.add (DIRECTION_OFFSETS eo)) = true := by
      rcases hcase with ⟨ha, he⟩ | ⟨ha, he⟩
      · rw [ha, he]
        exact hinN
      · rw [ha, he, hback]
        exact hincur
    have hwa : b.hasWall a eo = true := by
      rcases hcase with ⟨ha, he⟩ | ⟨ha, he⟩
      · rw [ha, he]
        exact hw1
      · rw [ha, he]
        exact hw2
    have hmain := openPassagePairs_carve b a eo heo hina hinn hwa
      (b.removeWall cur d) hfr.1 hfr.2.1 hwalls
    unfold openPassageCount
    rw [hmain.1, Finset.card_insert_of_not_mem hmain.2]
  cases d with
  | north =>
    exact key (cur.add (DIRECTION_OFFSETS Direction.north)) Direction.south
      (Or.inl rfl) (Or.inr ⟨rfl, rfl⟩)
  | south =>
    exact key cur Direction.south (Or.inl rfl) (Or.inl ⟨rfl, rfl⟩)
  | east =>
    exact key cur Direction.east (Or.inr rfl) (Or.inl ⟨rfl, rfl⟩)
  | west =>
    exact key (cur.add (DIRECTION_OFFSETS Direction.west)) Direction.east
      (Or.inr rfl) (Or.inr ⟨rfl, rfl⟩)

theorem inBounds_iff (b : MazeBoard) (p : Position) :
    b.inBounds p = true ↔
      0 ≤ p.row ∧ p.row < b.rows ∧ 0 ≤ p.col ∧ p.col < b.cols := by
  unfold MazeBoard.inBounds
  simp only [Bool.and_eq_true, decide_eq_true_eq]
  tauto

theorem hasWall_create (R C : Int) (p : Position) (d : Direction) :
    (MazeBoard.create R C).hasWall p d = true := by
  unfold MazeBoard.hasWall MazeBoard.create
  split <;> rfl

theorem openPassagePairs_create (R C : Int) :
    openPassagePairs (MazeBoard.create R C) = ∅ := by
  apply Finset.eq_empty_of_forall_not_mem
  intro pe hmem
  unfold openPassagePairs at hmem
  rw [Finset.mem_filter] at hmem
  have := hmem.2.1
  rw [hasWall_create] at this
  exact Bool.noConfusion this

theorem add_off_right_cancel {p q : Position} {d : Direction}
    (h : p.add (DIRECTION_OFFSETS d) = q.add (DIRECTION_OFFSETS d)) :
    p = q := by
  cases p
  cases q
  simp only [Position.add, Position.mk.injEq] at h ⊢
  omega

theorem getD_mem {α : Type} :
    ∀ (l : List α) (j : Nat) (dflt : α), j < l.length → l.getD j dflt ∈ l := by
  intro l
  induction l with
  | nil =>
    intro j dflt h
    simp at h
  | cons a t ih =>
    intro j dflt h
    cases j with
    | zero => exact List.mem_cons_self a t
    | succ k =>
      have : (a :: t).getD (k + 1) dflt = t.getD k dflt := rfl
      rw [this]
      exact List.mem_cons_of_mem a (ih k dflt (by simpa using h))

theorem mem_unvisitedNeighbors {pos : Position} {b : MazeBoard}
    {visited : List Position} {d : Direction} {next : Position}
    (h : (d, next) ∈ unvisitedNeighbors pos b visited) :
    next = pos.add (DIRECTION_OFFSETS d) ∧ b.inBounds next = true ∧
      next ∉ visited := by
  unfold unvisitedNeighbors at h
  rw [List.mem_filterMap] at h
  obtain ⟨e, -, he⟩ := h
  by_cases hc : b.inBounds (pos.add (DIRECTION_OFFSETS e)) = true ∧
      pos.add (DIRECTION_OFFSETS e) ∉ visited
  · rw [if_pos hc] at he
    obtain ⟨rfl, rfl⟩ : e = d ∧ pos.add (DIRECTION_OFFSETS e) = next := by
      have h1 := congrArg Prod.fst (Option.some.injEq _ _ ▸ he : _)
      cases he
      exact ⟨rfl, rfl⟩
    exact ⟨rfl, hc.1, hc.2⟩
  · rw [if_neg hc] at he
    exact Option.noConfusion he

theorem unvisitedNeighbors_nil {pos : Position} {b : MazeBoard}
    {visited : List Position}
    (h : unvisitedNeighbors pos b visited = []) :
    ∀ d : Direction, b.inBounds (pos.add (DIRECTION_OFFSETS d)) = true →
      pos.add (DIRECTION_OFFSETS d) ∈ visited := by
  intro d hin
  unfold unvisitedNeighbors at h
  rw [List.filterMap_eq_nil_iff] at h
  have hd := h d (mem_allDirections d)
  by_cases hc : b.inBounds (pos.add (DIRECTION_OFFSETS d)) = true ∧
      pos.add (DIRECTION_OFFSETS d) ∉ visited
  · rw [if_pos hc] at hd
    exact Option.noConfusion hd
  · push_neg at hc
    exact hc hin

/-- Loop invariant of the recursive-backtracker: the carved board is a tree
on the visited set, the stack is a subset of it, popped cells have all
neighbors visited, walls are mirrored, and unvisited or boundary walls are
intact. -/
structure CarveInv (R C : Int) (b : MazeBoard) (vis stack : List Position) :
    Prop where
  rows_eq : b.rows = R
  cols_eq : b.cols = C
  stack_sub : ∀ p ∈ stack, p ∈ vis
  stack_nodup : stack.Nodup
  vis_nodup : vis.Nodup
  vis_inb : ∀ p ∈ vis, b.inBounds p = true
  start_vis : (⟨0, 0⟩ : Position) ∈ vis
  closed : ∀ p ∈ vis, p ∉ stack → ∀ d : Direction,
    b.inBounds (p.add (DIRECTION_OFFSETS d)) = true →
    p.add (DIRECTION_OFFSETS d) ∈ vis
  reach : ∀ p ∈ vis, Reaches b ⟨0, 0⟩ p
  count : openPassageCount b + 1 = vis.length
  sym : ∀ (p : Position) (d : Direction),
    b.inBounds p = true → b.inBounds (p.add (DIRECTION_OFFSETS d)) = true →
    b.hasWall p d =
      b.hasWall (p.add (DIRECTION_OFFSETS d)) (OPPOSITE_DIRECTION d)
  unvisited_walled : ∀ p, p ∉ vis → ∀ d, b.hasWall p d = true
  boundary_walled : ∀ (p : Position) (d : Direction),
    b.inBounds (p.add (DIRECTION_OFFSETS d)) = false → b.hasWall p d = true

theorem vis_length_le (b : MazeBoard) (vis : List Position)
    (hnd : vis.Nodup) (hinb : ∀ p ∈ vis, b.inBounds p = true) :
    vis.length ≤ (gridFinset b).card := by
  have hsub : vis.toFinset ⊆ gridFinset b := by
    intro p hp
    rw [List.mem_toFinset] at hp
    exact (mem_gridFinset b p).mpr (hinb p hp)
  calc vis.length = vis.toFinset.card := (List.toFinset_card_of_nodup hnd).symm
    _ ≤ (gridFinset b).card := Finset.card_le_card hsub

theorem carveLoop_spec (R C : Int) (hR : 1 ≤ R) (hC : 1 ≤ C) :
    ∀ (f : Nat) (b : MazeBoard) (vis stack : List Position) (r : RNG),
      CarveInv R C b vis stack →
      2 * ((R * C).toNat - vis.length) + stack.length < f →
      CarveInv R C (carveLoop f b vis stack r).1
        (carveLoop f b vis stack r).2.1 [] := by
  intro f
  induction f with
  | zero =>
    intro b vis stack r _ hfuel
    exact absurd hfuel (Nat.not_lt_zero _)
  | succ f ih =>
    intro b vis stack r inv hfuel
    cases stack with
    | nil => exact inv
    | cons cur rest =>
      by_cases hns : (unvisitedNeighbors cur b vis).length = 0
      · have hred : carveLoop (f + 1) b vis (cur :: rest) r =
            carveLoop f b vis rest r := by
          simp [carveLoop, hns]
        rw [hred]
        apply ih
        · refine ⟨inv.rows_eq, inv.cols_eq, ?_, ?_, inv.vis_nodup,
            inv.vis_inb, inv.start_vis, ?_, inv.reach, inv.count, inv.sym,
            inv.unvisited_walled, inv.boundary_walled⟩
          · intro p hp
            exact inv.stack_sub p (List.mem_cons_of_mem cur hp)
          · exact (List.nodup_cons.mp inv.stack_nodup).2
          · intro p hp hnr d hin
            by_cases hpc : p = cur
            · subst hpc
              exact unvisitedNeighbors_nil (List.length_eq_zero.mp hns) d hin
            · refine inv.closed p hp ?_ d hin
              intro hc
              rcases List.mem_cons.mp hc with h | h
              · exact hpc h
              · exact hnr h
        · simp only [List.length_cons] at hfuel ⊢
          omega
      · rcases hdn : (unvisitedNeighbors cur b vis).getD
            ((rngNat r (unvisitedNeighbors cur b vis).length).1)
            (Direction.north, cur) with ⟨d, next⟩
        have hjlt : (rngNat r (unvisitedNeighbors cur b vis).length).1 <
            (unvisitedNeighbors cur b vis).length :=
          Nat.mod_lt _ (Nat.pos_of_ne_zero hns)
        have hmem : (d, next) ∈ unvisitedNeighbors cur b vis := by
          rw [← hdn]
          exact getD_mem _ _ _ hjlt
        obtain ⟨hnexteq, hinnext, hnextnvis⟩ := mem_unvisitedNeighbors hmem
        have hcurvis : cur ∈ vis :=
          inv.stack_sub cur (List.mem_cons_self cur rest)
        have hincur : b.inBounds cur = true := inv.vis_inb cur hcurvis
        have hnb : b.neighbor cur d = some next := by
          show (if b.inBounds (cur.add (DIRECTION_OFFSETS d)) = true
            then some (cur.add (DIRECTION_OFFSETS d)) else none) = some next
          rw [← hnexteq]
          rw [if_pos hinnext]
        have hw2 : b.hasWall next (OPPOSITE_DIRECTION d) = true :=
          inv.unvisited_walled next hnextnvis _
        have hw1 : b.hasWall cur d = true := by
          rw [inv.sym cur d hincur (by rw [← hnexteq]; exact hinnext)]
          rw [← hnexteq]
          exact hw2
        have hdn2 : ((unvisitedNeighbors cur b
            vis)[(rngNat r (unvisitedNeighbors cur b vis).length).1]?).getD
            (Direction.north, cur) = (d, next) := by
          rw [← hdn]
          simp [List.getD]
        have hred : carveLoop (f + 1) b vis (cur :: rest) r =
            carveLoop f (b.removeWall cur d) (next :: vis)
              (next :: cur :: rest)
              (rngNat r (unvisitedNeighbors cur b vis).length).2 := by
          simp [carveLoop, hns, hdn2]
        rw [hred]
        have hfr := removeWall_fields b cur d
        have hinb2 := removeWall_inBounds b cur d
        have hself := removeWall_hasWall_self b cur next d hincur hnb
        have hmirror := removeWall_hasWall_mirror b cur next d hincur hnb
        have hframe := removeWall_hasWall_frame b cur next d hincur hnb
        have hmono : ∀ q e, b.hasWall q e = false →
            (b.removeWall cur d).hasWall q e = false :=
          fun q e h => removeWall_hasWall_mono b cur d q e h
        apply ih
        · refine ⟨hfr.1.trans inv.rows_eq, hfr.2.1.trans inv.cols_eq,
            ?_, ?_, ?_, ?_, ?_, ?_, ?_, ?_, ?_, ?_, ?_⟩
          · intro p hp
            rcases List.mem_cons.mp hp with h | h
            · rw [h]
              exact List.mem_cons_self next vis
            · exact List.mem_cons_of_mem next (inv.stack_sub p h)
          · refine List.nodup_cons.mpr ⟨?_, inv.stack_nodup⟩
            intro hmem2
            exact hnextnvis (inv.stack_sub next hmem2)
          · exact List.nodup_cons.mpr ⟨hnextnvis, inv.vis_nodup⟩
          · intro p hp
            rw [hinb2]
            rcases List.mem_cons.mp hp with h | h
            · rw [h]
              exact hinnext
            · exact inv.vis_inb p h
          · exact List.mem_cons_of_mem next inv.start_vis
          · intro p hp hstk d2 hin2
            have hpnotnext : p ≠ next := fun hc =>
              hstk (hc ▸ List.mem_cons_self next (cur :: rest))
            have hpvis : p ∈ vis := by
              rcases List.mem_cons.mp hp with h | h
              · exact absurd h hpnotnext
              · exact h
            have hpnotstack : p ∉ cur :: rest := fun hc =>
              hstk (List.mem_cons_of_mem next hc)
            rw [hinb2] at hin2
            exact List.mem_cons_of_mem next
              (inv.closed p hpvis hpnotstack d2 hin2)
          · intro p hp
            rcases List.mem_cons.mp hp with h | h
            · rw [h, hnexteq]
              exact Reaches.step d
                (Reaches.mono hmono (inv.reach cur hcurvis)) hself
            · exact Reaches.mono hmono (inv.reach p h)
          · rw [carve_count b cur next d hincur hnb hw1 hw2]
            have hcount := inv.count
            simp only [List.length_cons]
            omega
          · intro p e hp hpe
            rw [hinb2] at hp hpe
            by_cases c1 : p = cur ∧ e = d
            · obtain ⟨rfl, rfl⟩ := c1
              rw [hself, ← hnexteq, hmirror]
            · by_cases c2 : p = next ∧ e = OPPOSITE_DIRECTION d
              · obtain ⟨rfl, rfl⟩ := c2
                rw [hmirror, hnexteq, add_off_cancel, opp_opp, hself]
              · have hm1 : ¬(p.add (DIRECTION_OFFSETS e) = cur ∧
                    OPPOSITE_DIRECTION e = d) := by
                  intro ⟨h1, h2⟩
                  apply c2
                  have he2 : e = OPPOSITE_DIRECTION d := by
                    have h3 := congrArg OPPOSITE_DIRECTION h2
                    rwa [opp_opp] at h3
                  refine ⟨?_, he2⟩
                  rw [hnexteq]
                  have hcalc := add_off_cancel p e
                  rw [h1] at hcalc
                  rw [he2, opp_opp] at hcalc
                  exact hcalc.symm
                have hm2 : ¬(p.add (DIRECTION_OFFSETS e) = next ∧
                    OPPOSITE_DIRECTION e = OPPOSITE_DIRECTION d) := by
                  intro ⟨h1, h2⟩
                  apply c1
                  have he : e = d := by
                    have h3 := congrArg OPPOSITE_DIRECTION h2
                    rwa [opp_opp, opp_opp] at h3
                  refine ⟨?_, he⟩
                  rw [he] at h1
                  rw [hnexteq] at h1
                  exact add_off_right_cancel h1
                rw [hframe p e c1 c2, hframe _ _ hm1 hm2]
                exact inv.sym p e hp hpe
          · intro p hp e
            have hpnext : p ≠ next := fun hc =>
              hp (hc ▸ List.mem_cons_self next vis)
            have hpvis : p ∉ vis := fun hc =>
              hp (List.mem_cons_of_mem next hc)
            have hc1 : ¬(p = cur ∧ e = d) := fun hand =>
              hpvis (hand.1 ▸ hcurvis)
            have hc2 : ¬(p = next ∧ e = OPPOSITE_DIRECTION d) := fun hand =>
              hpnext hand.1
            rw [hframe p e hc1 hc2]
            exact inv.unvisited_walled p hpvis e
          · intro p e hout
            rw [hinb2] at hout
            have hc1 : ¬(p = cur ∧ e = d) := by
              intro ⟨h1, h2⟩
              rw [h1, h2, ← hnexteq] at hout
              rw [hout] at hinnext
              exact Bool.noConfusion hinnext
            have hc2 : ¬(p = next ∧ e = OPPOSITE_DIRECTION d) := by
              intro ⟨h1, h2⟩
              rw [h1, h2, hnexteq, add_off_cancel] at hout
              rw [hout] at hincur
              exact Bool.noConfusion hincur
            rw [hframe p e hc1 hc2]
            exact inv.boundary_walled p e hout
        · have hcard : (gridFinset b).card = (R * C).toNat := by
            have hcg := card_gridFinset b
              (by rw [inv.rows_eq]; exact hR) (by rw [inv.cols_eq]; exact hC)
            rw [inv.rows_eq, inv.cols_eq] at hcg
            exact hcg
          have hlen : (next :: vis).length ≤ (R * C).toNat := by
            rw [← hcard]
            apply vis_length_le b (next :: vis)
              (List.nodup_cons.mpr ⟨hnextnvis, inv.vis_nodup⟩)
            intro p hp
            rcases List.mem_cons.mp hp with h | h
            · rw [h]
              exact hinnext
            · exact inv.vis_inb p h
          simp only [List.length_cons] at hfuel hlen ⊢
          omega

theorem all_cells_visited (b : MazeBoard) (vis : List Position)
    (hstart : (⟨0, 0⟩ : Position) ∈ vis)
    (hclosed : ∀ p ∈ vis, ∀ d : Direction,
      b.inBounds (p.add (DIRECTION_OFFSETS d)) = true →
      p.add (DIRECTION_OFFSETS d) ∈ vis) :
    ∀ p : Position, b.inBounds p = true → p ∈ vis := by
  suffices H : ∀ n : Nat, ∀ q : Position, (q.row + q.col).toNat ≤ n →
      b.inBounds q = true → q ∈ vis by
    intro p hp
    exact H (p.row + p.col).toNat p le_rfl hp
  intro n
  induction n with
  | zero =>
    intro q hn hq
    rw [inBounds_iff] at hq
    have hq0 : q = ⟨0, 0⟩ := by
      cases q
      simp only [Position.mk.injEq]
      simp only at hn hq
      constructor <;> omega
    rw [hq0]
    exact hstart
  | succ n ih =>
    intro q hn hq
    have hb := (inBounds_iff b q).mp hq
    by_cases hrow : 0 < q.row
    · have hprev : b.inBounds ⟨q.row - 1, q.col⟩ = true := by
        rw [inBounds_iff]
        show 0 ≤ q.row - 1 ∧ q.row - 1 < b.rows ∧ 0 ≤ q.col ∧ q.col < b.cols
        omega
      have hprevvis : (⟨q.row - 1, q.col⟩ : Position) ∈ vis := by
        apply ih
        · show (q.row - 1 + q.col).toNat ≤ n
          omega
        · exact hprev
      have heq : (⟨q.row - 1, q.col⟩ : Position).add
          (DIRECTION_OFFSETS Direction.south) = q := by
        cases q
        simp only [Position.add, DIRECTION_OFFSETS, Position.mk.injEq]
        omega
      have hres := hclosed _ hprevvis Direction.south (by rw [heq]; exact hq)
      rwa [heq] at hres
    · by_cases hcol : 0 < q.col
      · have hprev : b.inBounds ⟨q.row, q.col - 1⟩ = true := by
          rw [inBounds_iff]
          show 0 ≤ q.row ∧ q.row < b.rows ∧ 0 ≤ q.col - 1 ∧ q.col - 1 < b.cols
          omega
        have hprevvis : (⟨q.row, q.col - 1⟩ : Position) ∈ vis := by
          apply ih
          · show (q.row + (q.col - 1)).toNat ≤ n
            omega
          · exact hprev
        have heq : (⟨q.row, q.col - 1⟩ : Position).add
            (DIRECTION_OFFSETS Direction.east) = q := by
          cases q
          simp only [Position.add, DIRECTION_OFFSETS, Position.mk.injEq]
          omega
        have hres := hclosed _ hprevvis Direction.east (by rw [heq]; exact hq)
        rwa [heq] at hres
      · have hq0 : q = ⟨0, 0⟩ := by
          cases q
          simp only [Position.mk.injEq]
          simp only at hb hrow hcol
          constructor <;> omega
        rw [hq0]
        exact hstart

/-- Claim C2: for all R,C ≥ 1 and every random sequence,
`RecursiveBacktracker.generate` on a fresh fully-walled board makes every
cell reachable from (0,0) through wall-free passages, opens exactly
`R*C - 1` passages, and on a 1×1 board leaves all four walls intact. -/
theorem generate_spanning_tree (R C : Int) (r : RNG) (hR : 1 ≤ R)
    (hC : 1 ≤ C) :
    (∀ p : Position,
      (generate (MazeBoard.create R C) r).1.inBounds p = true →
      Reaches (generate (MazeBoard.create R C) r).1 ⟨0, 0⟩ p) ∧
    ((openPassageCount (generate (MazeBoard.create R C) r).1 : Int) =
      R * C - 1) ∧
    (R = 1 → C = 1 →
      ∀ d : Direction,
        (generate (MazeBoard.create R C) r).1.hasWall ⟨0, 0⟩ d = true) := by
  have hstartin : (MazeBoard.create R C).inBounds ⟨0, 0⟩ = true := by
    rw [inBounds_iff]
    refine ⟨le_rfl, ?_, le_rfl, ?_⟩
    · show (0 : Int) < R
      omega
    · show (0 : Int) < C
      omega
  have hinv0 : CarveInv R C (MazeBoard.create R C) [⟨0, 0⟩] [⟨0, 0⟩] := by
    refine ⟨rfl, rfl, ?_, List.nodup_singleton _, List.nodup_singleton _,
      ?_, ?_, ?_, ?_, ?_, ?_, ?_, ?_⟩
    · intro p hp
      exact hp
    · intro p hp
      rw [List.mem_singleton] at hp
      rw [hp]
      exact hstartin
    · exact List.mem_singleton_self _
    · intro p hp hnp d hin
      exact absurd hp hnp
    · intro p hp
      rw [List.mem_singleton] at hp
      rw [hp]
      exact Reaches.refl
    · unfold openPassageCount
      rw [openPassagePairs_create]
      rfl
    · intro p d _ _
      rw [hasWall_create, hasWall_create]
    · intro p _ d
      exact hasWall_create R C p d
    · intro p d _
      exact hasWall_create R C p d
  have hfuel0 : 2 * ((R * C).toNat - ([(⟨0, 0⟩ : Position)]).length) +
      ([(⟨0, 0⟩ : Position)]).length <
      2 * ((MazeBoard.create R C).rows * (MazeBoard.create R C).cols).toNat
        + 2 := by
    show 2 * ((R * C).toNat - 1) + 1 < 2 * (R * C).toNat + 2
    omega
  have hmain := carveLoop_spec R C hR hC
    (2 * ((MazeBoard.create R C).rows * (MazeBoard.create R C).cols).toNat + 2)
    (MazeBoard.create R C) [⟨0, 0⟩] [⟨0, 0⟩] r hinv0 hfuel0
  have hall := all_cells_visited _ _ hmain.start_vis
    (fun q hq d hd => hmain.closed q hq (List.not_mem_nil q) d hd)
  refine ⟨?_, ?_, ?_⟩
  · intro p hp
    exact hmain.reach p (hall p hp)
  · have hsetq : ((carveLoop
        (2 * ((MazeBoard.create R C).rows *
          (MazeBoard.create R C).cols).toNat + 2)
        (MazeBoard.create R C) [⟨0, 0⟩] [⟨0, 0⟩] r).2.1).toFinset =
        gridFinset (carveLoop
          (2 * ((MazeBoard.create R C).rows *
            (MazeBoard.create R C).cols).toNat + 2)
          (MazeBoard.create R C) [⟨0, 0⟩] [⟨0, 0⟩] r).1 := by
      apply Finset.ext
      intro q
      rw [List.mem_toFinset, mem_gridFinset]
      constructor
      · exact fun h => hmain.vis_inb q h
      · exact fun h => hall q h
    have hlen := List.toFinset_card_of_nodup hmain.vis_nodup
    rw [hsetq] at hlen
    have hcardg : (gridFinset (carveLoop
        (2 * ((MazeBoard.create R C).rows *
          (MazeBoard.create R C).cols).toNat + 2)
        (MazeBoard.create R C) [⟨0, 0⟩] [⟨0, 0⟩] r).1).card =
        (R * C).toNat := by
      have hcg := card_gridFinset _
        (by rw [hmain.rows_eq]; exact hR) (by rw [hmain.cols_eq]; exact hC)
      rw [hmain.rows_eq, hmain.cols_eq] at hcg
      exact hcg
    have hcount := hmain.count
    rw [← hlen, hcardg] at hcount
    have hpos : (0 : Int) < R * C := mul_pos (by omega) (by omega)
    have hTC : ((R * C).toNat : Int) = R * C := Int.toNat_of_nonneg (by omega)
    have hgen : openPassageCount (generate (MazeBoard.create R C) r).1 =
        openPassageCount (carveLoop
          (2 * ((MazeBoard.create R C).rows *
            (MazeBoard.create R C).cols).toNat + 2)
          (MazeBoard.create R C) [⟨0, 0⟩] [⟨0, 0⟩] r).1 := rfl
    rw [hgen]
    omega
  · intro h1 h2 d
    subst h1
    subst h2
    cases d <;> rfl

/-- Claim C2 witness. -/
theorem generate_spanning_tree_witness :
    (1 : Int) ≤ 1 ∧
    ((openPassageCount (generate (MazeBoard.create 1 1) ⟨fun _ => 0, 0⟩).1 :
      Int) = 1 * 1 - 1) ∧
    (generate (MazeBoard.create 1 1) ⟨fun _ => 0, 0⟩).1.hasWall ⟨0, 0⟩
      Direction.north = true := by
  have h := generate_spanning_tree 1 1 ⟨fun _ => 0, 0⟩ (by decide) (by decide)
  exact ⟨le_rfl, h.2.1, h.2.2 rfl rfl Direction.north⟩

/-! ### The item placer (`ItemPlacer`)

The `distances` map is kept in insertion order (appends), because
`findCollectiblePosition` iterates it.  The `parent` map of the shortest-path
BFS is consulted only through `get`/`has`, never iterated, so it is kept
newest-first; its string keys are in bijection with positions and the stored
`key` field always equals the key of the stored `pos`, so walking parents by
position is exactly the source's walk by key. -/

/-- A `BLOCKER_PAIRS` entry. -/
structure BlockerPair where
  blockerType : BlockerType
  collectibleType : CollectibleType
deriving DecidableEq, Repr

/-- All blocker/collectible pairings, in declaration order. -/
def BLOCKER_PAIRS : List BlockerPair :=
  [⟨BlockerType.doorRed, CollectibleType.keyRed⟩,
    ⟨BlockerType.doorBlue, CollectibleType.keyBlue⟩,
    ⟨BlockerType.doorGreen, CollectibleType.keyGreen⟩,
    ⟨BlockerType.rock, CollectibleType.dynamite⟩]

/-- Maximum placement attempts before falling back to no items. -/
def MAX_ATTEMPTS : Nat := 20

/-- A passage between two cells (`Passage`). -/
structure Passage where
  pos : Position
  dir : Direction
deriving DecidableEq, Repr

/-- One BFS dequeue of `bfsDistances`: fold the four directions, enqueuing
wall-free in-bounds neighbors that have no distance yet. -/
def bfsStep (b : MazeBoard) (cur : Position) (cd : Nat)
    (acc : List Position × List (Position × Nat)) (d : Direction) :
    List Position × List (Position × Nat) :=
  if b.hasWall cur d then acc
  else
    match b.neighbor cur d with
    | none => acc
    | some next =>
      if (jsGet acc.2 next).isSome then acc
      else (acc.1 ++ [next], acc.2 ++ [(next, cd + 1)])

/-- The queue loop of `bfsDistances`.  Each dequeue burns one fuel unit;
every enqueue adds a fresh key among the at most `cells + 1` possible ones,
so the fuel passed by `bfsDistances` cannot run out. -/
def bfsLoop (b : MazeBoard) : Nat → List Position → List (Position × Nat) →
    List (Position × Nat)
  | 0, _, dist => dist
  | _ + 1, [], dist => dist
  | f + 1, cur :: queue, dist =>
    let cd := (jsGet dist cur).getD 0
    let res := allDirections.foldl (bfsStep b cur cd) (queue, dist)
    bfsLoop b f res.1 res.2

/-- `bfsDistances(board, start)`: walls-only BFS distance map. -/
def bfsDistances (b : MazeBoard) (start : Position) :
    List (Position × Nat) :=
  bfsLoop b ((b.rows * b.cols).toNat + 2) [start] [(start, 0)]

/-- Path reconstruction of `findShortestPath`: walk parents from a key,
prepending each parent, and prepend `start` when the entry is null or
missing.  Fuel exceeds the parent-chain length, which strictly descends
through the insertion order. -/
def rebuildPath (parent : List (Position × Option Position))
    (start : Position) : Nat → Position → List Position →
    Option (List Position)
  | 0, _, _ => none
  | f + 1, key, acc =>
    match jsGet parent key with
    | some (some p) => rebuildPath parent start f p (p :: acc)
    | _ => some (start :: acc)

/-- One BFS dequeue of `findShortestPath`. -/
def pathStep (b : MazeBoard) (cur : Position)
    (acc : List Position × List (Position × Option Position))
    (d : Direction) :
    List Position × List (Position × Option Position) :=
  if b.hasWall cur d then acc
  else
    match b.neighbor cur d with
    | none => acc
    | some next =>
      if (jsGet acc.2 next).isSome then acc
      else (acc.1 ++ [next], (next, some cur) :: acc.2)

/-- The queue loop of `findShortestPath`: on dequeuing the end cell the path
is reconstructed (`push(end)` then dropping a duplicated head). -/
def bfsPathLoop (b : MazeBoard) (start endPos : Position) :
    Nat → List Position → List (Position × Option Position) →
    Option (List Position)
  | 0, _, _ => none
  | _ + 1, [], _ => none
  | f + 1, cur :: queue, parent =>
    if cur = endPos then
      match rebuildPath parent start (parent.length + 1) endPos [] with
      | none => none
      | some path0 =>
        let path1 := path0 ++ [endPos]
        some (match path1 with
          | p0 :: p1 :: rest => if p0 = p1 then p1 :: rest else path1
          | _ => path1)
    else
      let res := allDirections.foldl (pathStep b cur) (queue, parent)
      bfsPathLoop b start endPos f res.1 res.2

/-- `findShortestPath(board, start, end)`: BFS over walls only. -/
def findShortestPath (b : MazeBoard) (start endPos : Position) :
    Option (List Position) :=
  bfsPathLoop b start endPos ((b.rows * b.cols).toNat + 2) [start]
    [(start, none)]

/-- `directionBetween(from, to)`. -/
def directionBetween (src dst : Position) : Option Direction :=
  allDirections.find? (fun d => decide (src.add (DIRECTION_OFFSETS d) = dst))

/-- `pathToPassages(path)`: passages between consecutive cells. -/
def pathToPassages : List Position → List Passage
  | p :: q :: rest =>
    (match directionBetween p q with
      | some d => [({ pos := p, dir := d } : Passage)]
      | none => []) ++ pathToPassages (q :: rest)
  | _ => []

/-- The fill loop of `assignBlockerTypes`: `count` uniformly random pairs. -/
def randPairs : Nat → RNG → List BlockerPair × RNG
  | 0, r => ([], r)
  | n + 1, r =>
    let jr := rngNat r BLOCKER_PAIRS.length
    let rest := randPairs n jr.2
    (BLOCKER_PAIRS.getD jr.1 ⟨BlockerType.rock, CollectibleType.dynamite⟩ ::
      rest.1, rest.2)

/-- `assignBlockerTypes(count)`: one guaranteed rock, one guaranteed door of
random color, random fill, then a shuffle. -/
def assignBlockerTypes (count : Nat) (r : RNG) : List BlockerPair × RNG :=
  if count = 0 then ([], r)
  else if count = 1 then
    let jr := rngNat r BLOCKER_PAIRS.length
    ([BLOCKER_PAIRS.getD jr.1 ⟨BlockerType.rock, CollectibleType.dynamite⟩],
      jr.2)
  else
    let jr1 := rngNat r 3
    let fill := randPairs (count - 2) jr1.2
    shuffle
      (⟨BlockerType.rock, CollectibleType.dynamite⟩ ::
        BLOCKER_PAIRS.getD jr1.1 ⟨BlockerType.rock, CollectibleType.dynamite⟩
          :: fill.1)
      fill.2

/-- `findCollectiblePosition(board, distances, blockerPos)`: random cell
strictly closer to start than the blocker, not start/exit, not occupied. -/
def findCollectiblePosition (b : MazeBoard)
    (distances : List (Position × Nat)) (blockerPos : Position) (r : RNG) :
    Option Position × RNG :=
  match jsGet distances blockerPos with
  | none => (none, r)
  | some blockerDist =>
    let candidates := distances.filterMap (fun e =>
      if e.2 ≥ blockerDist then none
      else if e.2 = 0 then none
      else if b.isExit e.1 then none
      else if (b.getCollectible e.1).isSome then none
      else some e.1)
    if candidates = [] then (none, r)
    else
      let sr := shuffle candidates r
      (some (sr.1.headD blockerPos), sr.2)

/-- The per-passage placement loop inside `tryPlace`: place the blocker on
both sides, then the matching collectible; abort (returning the partially
mutated board) when no collectible cell exists. -/
def placeLoop (dists : List (Position × Nat)) :
    List (Passage × BlockerPair) → MazeBoard → RNG → Bool × MazeBoard × RNG
  | [], b, r => (true, b, r)
  | (psg, pair) :: rest, b, r =>
    match b.neighbor psg.pos psg.dir with
    | none => placeLoop dists rest b r
    | some neighborPos =>
      let b2 := (b.addBlocker ⟨pair.blockerType, psg.pos, psg.dir⟩).addBlocker
        ⟨pair.blockerType, neighborPos, OPPOSITE_DIRECTION psg.dir⟩
      match findCollectiblePosition b2 dists psg.pos r with
      | (none, r2) => (false, b2, r2)
      | (some cpos, r2) =>
        placeLoop dists rest
          (b2.addCollectible ⟨pair.collectibleType, cpos⟩) r2

/-- State of the solvability search: position, inventory, and the per-branch
set of consumed pickup cells. -/
structure QEntry where
  pos : Position
  inv : Option CollectibleType
  pickedUp : List Position
deriving DecidableEq, Repr

/-- One move transition of `isSolvable`'s dequeue. -/
def solvStep (b : MazeBoard) (e : QEntry)
    (acc : List QEntry × List (Position × Option CollectibleType))
    (d : Direction) :
    List QEntry × List (Position × Option CollectibleType) :=
  if b.hasWall e.pos d then acc
  else
    match b.neighbor e.pos d with
    | none => acc
    | some next =>
      match b.getBlocker e.pos d with
      | some blk =>
        match e.inv with
        | some item =>
          if canUnlock item blk then
            if (next, (none : Option CollectibleType)) ∈ acc.2 then acc
            else (acc.1 ++ [⟨next, none, e.pickedUp⟩], (next, none) :: acc.2)
          else acc
        | none => acc
      | none =>
        if (next, e.inv) ∈ acc.2 then acc
        else (acc.1 ++ [⟨next, e.inv, e.pickedUp⟩], (next, e.inv) :: acc.2)

/-- The pickup transition of `isSolvable`'s dequeue. -/
def solvPickup (b : MazeBoard) (e : QEntry)
    (queue : List QEntry)
    (vis : List (Position × Option CollectibleType)) :
    List QEntry × List (Position × Option CollectibleType) :=
  match b.getCollectible e.pos with
  | some c =>
    if e.inv = none ∧ e.pos ∉ e.pickedUp then
      if (e.pos, some c) ∈ vis then (queue, vis)
      else (queue ++ [⟨e.pos, some c, e.pos :: e.pickedUp⟩],
        (e.pos, some c) :: vis)
    else (queue, vis)
  | none => (queue, vis)

/-- The queue loop of `isSolvable`.  Returns `none` on fuel exhaustion,
which `isSolvable`'s fuel (proved sufficient in the termination claim)
never triggers. -/
def solvLoop (b : MazeBoard) :
    Nat → List QEntry → List (Position × Option CollectibleType) →
    Option (Bool × List (Position × Option CollectibleType))
  | 0, _, _ => none
  | _ + 1, [], vis => some (false, vis)
  | f + 1, e :: queue, vis =>
    if e.pos = b.exit then some (true, vis)
    else
      let qv1 := solvPickup b e queue vis
      let res := allDirections.foldl (solvStep b e) qv1
      solvLoop b f res.1 res.2

/-- `isSolvable(board)`: BFS over (position, inventory) states with a
per-branch consumed-pickup set. -/
def isSolvable (b : MazeBoard) : Bool :=
  match solvLoop b (5 * (b.rows * b.cols).toNat + 10)
    [⟨⟨0, 0⟩, none, []⟩] [(⟨0, 0⟩, none)] with
  | some res => res.1
  | none => false

/-- `tryPlace(board, blockerCount)`: one placement attempt. -/
def tryPlace (b : MazeBoard) (blockerCount : Nat) (r : RNG) :
    Bool × MazeBoard × RNG :=
  let distances := bfsDistances b ⟨0, 0⟩
  match findShortestPath b ⟨0, 0⟩ b.exit with
  | none => (false, b, r)
  | some shortestPath =>
    let pathPassages := pathToPassages shortestPath
    let candidates :=
      if pathPassages.length > 2 then (pathPassages.drop 1).dropLast
      else pathPassages
    if candidates = [] then (false, b, r)
    else
      let sr := shuffle candidates r
      let selected := sr.1.take (min blockerCount candidates.length)
      let ar := assignBlockerTypes selected.length sr.2
      let res := placeLoop distances (selected.zip ar.1) b ar.2
      match res with
      | (false, b2, r2) => (false, b2, r2)
      | (true, b2, r2) => (isSolvable b2, b2, r2)

/-- `clearItems(board)`: remove every collectible and blocker (iterating a
snapshot of each registry, as `getAllCollectibles`/`getAllBlockers` do). -/
def clearItems (b : MazeBoard) : MazeBoard :=
  let b1 := b.collectibles.foldl (fun acc c => (acc.removeCollectible c.1).2) b
  b1.blockers.foldl (fun acc bl => (acc.removeBlocker bl.1.1 bl.1.2).2) b1

/-- The blocker count used by `place`:
`Math.min(4, Math.max(2, Math.floor(totalCells / 30)))`. -/
def blockerCountOf (b : MazeBoard) : Int :=
  min 4 (max 2 (Int.fdiv (b.rows * b.cols) 30))

/-- The attempt loop of `place`: clear, try, return on success; fall back to
an item-free board when the attempt budget is exhausted. -/
def placeAttempts (blockerCount : Nat) :
    Nat → MazeBoard → RNG → MazeBoard × RNG
  | 0, b, r => (clearItems b, r)
  | n + 1, b, r =>
    match tryPlace (clearItems b) blockerCount r with
    | (true, b2, r2) => (b2, r2)
    | (false, b2, r2) => placeAttempts blockerCount n b2 r2

/-- `ItemPlacer.place(board)`. -/
def place (b : MazeBoard) (r : RNG) : MazeBoard × RNG :=
  placeAttempts (blockerCountOf b).toNat MAX_ATTEMPTS b r

/-! ### Claim C1: place commits only solvable boards, or falls back to an
item-free board -/

theorem removeColl_fold :
    ∀ (l : List (Position × CollectibleType)) (acc : MazeBoard),
      l.foldl (fun a c => (a.removeCollectible c.1).2) acc =
        { acc with
          collectibles := l.foldl (fun m c => jsDelete m c.1)
            acc.collectibles } := by
  intro l
  induction l with
  | nil =>
    intro acc
    rfl
  | cons c l ih =>
    intro acc
    rw [List.foldl_cons, List.foldl_cons, ih]
    rfl

theorem removeBlk_fold :
    ∀ (l : List ((Position × Direction) × BlockerType)) (acc : MazeBoard),
      l.foldl (fun a bl => (a.removeBlocker bl.1.1 bl.1.2).2) acc =
        { acc with
          blockers := l.foldl (fun m bl => jsDelete m (bl.1.1, bl.1.2))
            acc.blockers } := by
  intro l
  induction l with
  | nil =>
    intro acc
    rfl
  | cons c l ih =>
    intro acc
    rw [List.foldl_cons, List.foldl_cons, ih]
    rfl

theorem foldl_jsDelete {K V : Type} [DecidableEq K] :
    ∀ (l m : List (K × V)),
      l.foldl (fun acc e => jsDelete acc e.1) m =
        m.filter (fun e => !decide (e.1 ∈ l.map Prod.fst)) := by
  intro l
  induction l with
  | nil =>
    intro m
    simp
  | cons c l ih =>
    intro m
    rw [List.foldl_cons, ih]
    unfold jsDelete
    rw [List.filter_filter]
    apply List.filter_congr
    intro e _
    simp only [List.map_cons, List.mem_cons]
    by_cases h : e.1 = c.1
    · simp [h]
    · have h2 : ¬ c.1 = e.1 := fun hc => h hc.symm
      simp [h, h2]

theorem foldl_jsDelete_self {K V : Type} [DecidableEq K] (l : List (K × V)) :
    l.foldl (fun acc e => jsDelete acc e.1) l = [] := by
  rw [foldl_jsDelete]
  apply List.filter_eq_nil_iff.mpr
  intro e he
  simp only [Bool.not_eq_eq_eq_not, Bool.not_true, decide_eq_false_iff_not,
    Decidable.not_not]
  exact List.mem_map_of_mem Prod.fst he

theorem clearItems_spec (b : MazeBoard) :
    (clearItems b).collectibles = [] ∧ (clearItems b).blockers = [] ∧
    (clearItems b).rows = b.rows ∧ (clearItems b).cols = b.cols ∧
    (clearItems b).walls = b.walls := by
  unfold clearItems
  rw [removeColl_fold]
  rw [removeBlk_fold]
  refine ⟨?_, ?_, rfl, rfl, rfl⟩
  · show b.collectibles.foldl (fun m c => jsDelete m c.1) b.collectibles = []
    exact foldl_jsDelete_self b.collectibles
  · show b.blockers.foldl (fun m bl => jsDelete m (bl.1.1, bl.1.2))
      b.blockers = []
    exact foldl_jsDelete_self b.blockers

theorem tryPlace_true_isSolvable (b : MazeBoard) (k : Nat) (r : RNG)
    (b2 : MazeBoard) (r2 : RNG) (h : tryPlace b k r = (true, b2, r2)) :
    isSolvable b2 = true := by
  unfold tryPlace at h
  split at h
  · simp at h
  · simp only [] at h
    split at h <;> split at h
    · simp at h
    · split at h
      · simp at h
      · simp only [Prod.mk.injEq] at h
        rw [← h.2.1]
        exact h.1
    · simp at h
    · split at h
      · simp at h
      · simp only [Prod.mk.injEq] at h
        rw [← h.2.1]
        exact h.1

theorem placeAttempts_spec (k : Nat) :
    ∀ (n : Nat) (b : MazeBoard) (r : RNG),
      isSolvable (placeAttempts k n b r).1 = true ∨
      ((placeAttempts k n b r).1.collectibles = [] ∧
        (placeAttempts k n b r).1.blockers = []) := by
  intro n
  induction n with
  | zero =>
    intro b r
    exact Or.inr ⟨(clearItems_spec b).1, (clearItems_spec b).2.1⟩
  | succ n ih =>
    intro b r
    unfold placeAttempts
    rcases hres : tryPlace (clearItems b) k r with ⟨flag, b2, r2⟩
    cases flag
    · exact ih b2 r2
    · exact Or.inl (tryPlace_true_isSolvable _ k r b2 r2 hres)

/-- Claim C1: for every board and random sequence, after `ItemPlacer.place`
the committed configuration passes the augmented solvability search, or —
when every attempt failed — the board holds no collectibles and no blockers
at all. -/
theorem place_solvable_or_itemFree (b : MazeBoard) (r : RNG) :
    isSolvable (place b r).1 = true ∨
    ((place b r).1.collectibles = [] ∧ (place b r).1.blockers = []) :=
  placeAttempts_spec (blockerCountOf b).toNat MAX_ATTEMPTS b r

/-! ### Claim C8: collectibles never sit on start/exit and are strictly
closer to start than their gate -/

theorem foldl_preserve {α β : Type} (P : β → Prop) (f : β → α → β)
    (l : List α) (init : β) (h0 : P init)
    (hstep : ∀ acc a, P acc → P (f acc a)) : P (l.foldl f init) := by
  induction l generalizing init with
  | nil => exact h0
  | cons a l ih => exact ih (f init a) (hstep init a h0)

theorem keysNodup_append_fresh {K V : Type} [DecidableEq K]
    (m : List (K × V)) (k : K) (v : V) (hnd : keysNodup m)
    (h : jsGet m k = none) : keysNodup (m ++ [(k, v)]) := by
  rw [← jsSet_of_get_none m k v h]
  exact keysNodup_set m k v hnd

theorem jsGet_of_mem_nodup {K V : Type} [DecidableEq K] {m : List (K × V)}
    {k : K} {v : V} (hmem : (k, v) ∈ m) (hnd : keysNodup m) :
    jsGet m k = some v := by
  induction m with
  | nil => exact absurd hmem (List.not_mem_nil _)
  | cons e m ih =>
    rw [jsGet_cons]
    rcases List.mem_cons.mp hmem with h | h
    · rw [← h]
      simp
    · by_cases he : e.1 = k
      · exfalso
        unfold keysNodup at hnd
        rw [List.map_cons, List.nodup_cons] at hnd
        apply hnd.1
        rw [he]
        exact List.mem_map_of_mem Prod.fst h
      · rw [if_neg he]
        unfold keysNodup at hnd
        rw [List.map_cons, List.nodup_cons] at hnd
        exact ih h hnd.2

theorem headD_mem {α : Type} (l : List α) (d : α) (h : l ≠ []) :
    l.headD d ∈ l := by
  cases l with
  | nil => exact absurd rfl h
  | cons a t => exact List.mem_cons_self a t

theorem jsSet_mem {K V : Type} [DecidableEq K] {m : List (K × V)} {k : K}
    {v : V} {e : K × V} (h : e ∈ jsSet m k v) : e ∈ m ∨ e = (k, v) := by
  unfold jsSet at h
  by_cases hany : (m.any fun x => decide (x.1 = k)) = true
  · rw [if_pos hany] at h
    rcases List.mem_map.mp h with ⟨x, hx, hxe⟩
    by_cases hxk : x.1 = k
    · rw [if_pos hxk] at hxe
      exact Or.inr hxe.symm
    · rw [if_neg hxk] at hxe
      exact Or.inl (hxe ▸ hx)
  · rw [if_neg hany] at h
    rcases List.mem_append.mp h with h2 | h2
    · exact Or.inl h2
    · exact Or.inr (List.mem_singleton.mp h2)

theorem bfsLoop_inv (b : MazeBoard) (s : Position) :
    ∀ (f : Nat) (queue : List Position) (dist : List (Position × Nat)),
      keysNodup dist → (s, 0) ∈ dist →
      keysNodup (bfsLoop b f queue dist) ∧
        (s, 0) ∈ bfsLoop b f queue dist := by
  intro f
  induction f with
  | zero =>
    intro queue dist h1 h2
    exact ⟨h1, h2⟩
  | succ f ih =>
    intro queue dist h1 h2
    cases queue with
    | nil => exact ⟨h1, h2⟩
    | cons cur q =>
      have hfold := foldl_preserve
        (fun acc : List Position × List (Position × Nat) =>
          keysNodup acc.2 ∧ (s, 0) ∈ acc.2)
        (bfsStep b cur ((jsGet dist cur).getD 0)) allDirections (q, dist)
        ⟨h1, h2⟩ ?_
      · simpa only [bfsLoop] using ih _ _ hfold.1 hfold.2
      · intro acc d hP
        unfold bfsStep
        split
        · exact hP
        · split
          · exact hP
          · split
            · exact hP
            · rename_i next hnb hnew
              refine ⟨?_, List.mem_append_left _ hP.2⟩
              apply keysNodup_append_fresh _ _ _ hP.1
              exact isSome_false_eq_none (by
                rw [Bool.not_eq_true] at hnew
                exact hnew)

theorem bfsDistances_facts (b : MazeBoard) (s : Position) :
    keysNodup (bfsDistances b s) ∧ (s, 0) ∈ bfsDistances b s ∧
      jsGet (bfsDistances b s) s = some 0 := by
  have h := bfsLoop_inv b s ((b.rows * b.cols).toNat + 2) [s] [(s, 0)]
    (by unfold keysNodup; simp) (List.mem_singleton_self _)
  exact ⟨h.1, h.2, jsGet_of_mem_nodup h.2 h.1⟩

theorem findCollectiblePosition_spec (b : MazeBoard)
    (dists : List (Position × Nat)) (bp : Position) (r : RNG) (p : Position)
    (r2 : RNG) (h : findCollectiblePosition b dists bp r = (some p, r2))
    (hnd : keysNodup dists) (hs : ((⟨0, 0⟩ : Position), 0) ∈ dists) :
    p ≠ ⟨0, 0⟩ ∧ b.isExit p = false ∧ b.getCollectible p = none ∧
      ∃ gd pd : Nat, jsGet dists bp = some gd ∧ jsGet dists p = some pd ∧
        pd < gd := by
  unfold findCollectiblePosition at h
  split at h
  · simp at h
  · rename_i gd hgd
    simp only [] at h
    split at h
    · simp at h
    · rename_i hcne
      simp only [Prod.mk.injEq, Option.some.injEq] at h
      have hperm := shuffle_perm (dists.filterMap (fun e =>
        if e.2 ≥ gd then none
        else if e.2 = 0 then none
        else if b.isExit e.1 then none
        else if (b.getCollectible e.1).isSome then none
        else some e.1)) r
      have hne : (shuffle (dists.filterMap (fun e =>
          if e.2 ≥ gd then none
          else if e.2 = 0 then none
          else if b.isExit e.1 then none
          else if (b.getCollectible e.1).isSome then none
          else some e.1)) r).1 ≠ [] := by
        intro hc
        rw [hc] at hperm
        exact hcne hperm.symm.eq_nil
      have hp : p ∈ (shuffle (dists.filterMap (fun e =>
          if e.2 ≥ gd then none
          else if e.2 = 0 then none
          else if b.isExit e.1 then none
          else if (b.getCollectible e.1).isSome then none
          else some e.1)) r).1 := by
        rw [← h.1]
        exact headD_mem _ _ hne
      have hpc := hperm.mem_iff.mp hp
      rcases List.mem_filterMap.mp hpc with ⟨e, he, hcond⟩
      by_cases c1 : e.2 ≥ gd
      · rw [if_pos c1] at hcond
        exact Option.noConfusion hcond
      · rw [if_neg c1] at hcond
        by_cases c2 : e.2 = 0
        · rw [if_pos c2] at hcond
          exact Option.noConfusion hcond
        · rw [if_neg c2] at hcond
          by_cases c3 : b.isExit e.1 = true
          · rw [if_pos c3] at hcond
            exact Option.noConfusion hcond
          · rw [if_neg c3] at hcond
            by_cases c4 : (b.getCollectible e.1).isSome = true
            · rw [if_pos c4] at hcond
              exact Option.noConfusion hcond
            · rw [if_neg c4] at hcond
              have hep : e.1 = p := by
                injection hcond
              have hget : jsGet dists p = some e.2 := by
                rw [← hep]
                exact jsGet_of_mem_nodup (by
                  have : (e.1, e.2) = e := rfl
                  rw [this]
                  exact he) hnd
              have hpne : p ≠ ⟨0, 0⟩ := by
                intro hc
                rw [hc, jsGet_of_mem_nodup hs hnd] at hget
                have he2 : (0 : Nat) = e.2 := by
                  injection hget
                exact c2 he2.symm
              rw [Bool.not_eq_true] at c3 c4
              refine ⟨hpne, ?_, ?_, gd, e.2, hgd, hget, by omega⟩
              · rw [← hep]
                exact c3
              · rw [← hep]
                exact isSome_false_eq_none c4

theorem addBlocker_fields (b : MazeBoard) (blk : Blocker) :
    (b.addBlocker blk).rows = b.rows ∧ (b.addBlocker blk).cols = b.cols ∧
    (b.addBlocker blk).walls = b.walls ∧
    (b.addBlocker blk).collectibles = b.collectibles :=
  ⟨rfl, rfl, rfl, rfl⟩

theorem addCollectible_fields (b : MazeBoard) (c : Collectible) :
    (b.addCollectible c).rows = b.rows ∧
    (b.addCollectible c).cols = b.cols ∧
    (b.addCollectible c).walls = b.walls ∧
    (b.addCollectible c).blockers = b.blockers :=
  ⟨rfl, rfl, rfl, rfl⟩

theorem isExit_congr (b1 b : MazeBoard) (hr : b1.rows = b.rows)
    (hc : b1.cols = b.cols) (p : Position) : b1.isExit p = b.isExit p := by
  unfold MazeBoard.isExit MazeBoard.exit
  rw [hr, hc]

theorem placeLoop_fields (dists : List (Position × Nat)) :
    ∀ (items : List (Passage × BlockerPair)) (b : MazeBoard) (r : RNG),
      (placeLoop dists items b r).2.1.rows = b.rows ∧
      (placeLoop dists items b r).2.1.cols = b.cols ∧
      (placeLoop dists items b r).2.1.walls = b.walls := by
  intro items
  induction items with
  | nil =>
    intro b r
    exact ⟨rfl, rfl, rfl⟩
  | cons it rest ih =>
    intro b r
    rcases it with ⟨psg, pair⟩
    rcases hnb : b.neighbor psg.pos psg.dir with _ | npos
    · have hred : placeLoop dists ((psg, pair) :: rest) b r =
          placeLoop dists rest b r := by
        simp [placeLoop, hnb]
      rw [hred]
      exact ih b r
    · rcases hf : findCollectiblePosition
          ((b.addBlocker ⟨pair.blockerType, psg.pos, psg.dir⟩).addBlocker
            ⟨pair.blockerType, npos, OPPOSITE_DIRECTION psg.dir⟩)
          dists psg.pos r with ⟨copt, r2⟩
      cases copt with
      | none =>
        have hred : placeLoop dists ((psg, pair) :: rest) b r =
            (false, (b.addBlocker ⟨pair.blockerType, psg.pos,
              psg.dir⟩).addBlocker
              ⟨pair.blockerType, npos, OPPOSITE_DIRECTION psg.dir⟩, r2) := by
          simp [placeLoop, hnb, hf]
        rw [hred]
        exact ⟨rfl, rfl, rfl⟩
      | some cpos =>
        have hred : placeLoop dists ((psg, pair) :: rest) b r =
            placeLoop dists rest
              (((b.addBlocker ⟨pair.blockerType, psg.pos,
                psg.dir⟩).addBlocker
                ⟨pair.blockerType, npos,
                  OPPOSITE_DIRECTION psg.dir⟩).addCollectible
                ⟨pair.collectibleType, cpos⟩) r2 := by
          simp [placeLoop, hnb, hf]
        rw [hred]
        exact ih _ r2

theorem placeLoop_fields_eq (dists : List (Position × Nat))
    (items : List (Passage × BlockerPair)) (b : MazeBoard) (r : RNG)
    (flag : Bool) (b2 : MazeBoard) (r2 : RNG)
    (h : placeLoop dists items b r = (flag, b2, r2)) :
    b2.rows = b.rows ∧ b2.cols = b.cols ∧ b2.walls = b.walls := by
  have hpf := placeLoop_fields dists items b r
  rw [h] at hpf
  exact hpf

theorem tryPlace_fields (b : MazeBoard) (k : Nat) (r : RNG) :
    (tryPlace b k r).2.1.rows = b.rows ∧
    (tryPlace b k r).2.1.cols = b.cols ∧
    (tryPlace b k r).2.1.walls = b.walls := by
  unfold tryPlace
  split
  · exact ⟨rfl, rfl, rfl⟩
  · simp only []
    split <;> split
    · exact ⟨rfl, rfl, rfl⟩
    · split
      · rename_i hres
        exact placeLoop_fields_eq _ _ _ _ _ _ _ hres
      · rename_i hres
        exact placeLoop_fields_eq _ _ _ _ _ _ _ hres
    · exact ⟨rfl, rfl, rfl⟩
    · split
      · rename_i hres
        exact placeLoop_fields_eq _ _ _ _ _ _ _ hres
      · rename_i hres
        exact placeLoop_fields_eq _ _ _ _ _ _ _ hres

/-- A collectible entry is safely placed: off the start and exit cells and
strictly closer to the start (in the walls-only distance map) than one of
the gate positions. -/
def collectibleOK (b : MazeBoard) (dists : List (Position × Nat))
    (gates : List Position) (pc : Position × CollectibleType) : Prop :=
  pc.1 ≠ ⟨0, 0⟩ ∧ b.isExit pc.1 = false ∧
  ∃ g ∈ gates, ∃ gd pd : Nat,
    jsGet dists g = some gd ∧ jsGet dists pc.1 = some pd ∧ pd < gd

theorem collectibleOK_mono {b : MazeBoard} {dists : List (Position × Nat)}
    {gs1 gs2 : List Position} {pc : Position × CollectibleType}
    (hsub : ∀ g ∈ gs1, g ∈ gs2) (h : collectibleOK b dists gs1 pc) :
    collectibleOK b dists gs2 pc := by
  obtain ⟨h1, h2, g, hg, rest⟩ := h
  exact ⟨h1, h2, g, hsub g hg, rest⟩

theorem placeLoop_collectibles (b0 : MazeBoard)
    (dists : List (Position × Nat)) (hnd : keysNodup dists)
    (hs : ((⟨0, 0⟩ : Position), 0) ∈ dists) :
    ∀ (items : List (Passage × BlockerPair)) (gates : List Position)
      (b : MazeBoard) (r : RNG),
      b.rows = b0.rows → b.cols = b0.cols →
      (∀ pc ∈ b.collectibles, collectibleOK b0 dists gates pc) →
      ∀ pc ∈ (placeLoop dists items b r).2.1.collectibles,
        collectibleOK b0 dists
          (gates ++ items.map (fun it => it.1.pos)) pc := by
  intro items
  induction items with
  | nil =>
    intro gates b r _ _ hok pc hpc
    rw [List.map_nil, List.append_nil]
    exact hok pc hpc
  | cons it rest ih =>
    intro gates b r hrows hcols hok pc hpc
    rcases it with ⟨psg, pair⟩
    have hmono : ∀ g ∈ (gates ++ [psg.pos]) ++
        rest.map (fun it => it.1.pos),
        g ∈ gates ++ ((psg, pair) :: rest).map (fun it => it.1.pos) := by
      intro g hg
      simp only [List.map_cons, List.mem_append, List.mem_singleton,
        List.mem_cons] at hg ⊢
      tauto
    have hmono0 : ∀ g ∈ gates,
        g ∈ gates ++ ((psg, pair) :: rest).map (fun it => it.1.pos) := by
      intro g hg
      exact List.mem_append_left _ hg
    rcases hnb : b.neighbor psg.pos psg.dir with _ | npos
    · have hred : placeLoop dists ((psg, pair) :: rest) b r =
          placeLoop dists rest b r := by
        simp [placeLoop, hnb]
      rw [hred] at hpc
      have hres := ih gates b r hrows hcols hok pc hpc
      refine collectibleOK_mono ?_ hres
      intro g hg
      simp only [List.map_cons, List.mem_append, List.mem_cons] at hg ⊢
      tauto
    · rcases hf : findCollectiblePosition
          ((b.addBlocker ⟨pair.blockerType, psg.pos, psg.dir⟩).addBlocker
            ⟨pair.blockerType, npos, OPPOSITE_DIRECTION psg.dir⟩)
          dists psg.pos r with ⟨copt, r2⟩
      cases copt with
      | none =>
        have hred : placeLoop dists ((psg, pair) :: rest) b r =
            (false, (b.addBlocker ⟨pair.blockerType, psg.pos,
              psg.dir⟩).addBlocker
              ⟨pair.blockerType, npos, OPPOSITE_DIRECTION psg.dir⟩, r2) := by
          simp [placeLoop, hnb, hf]
        rw [hred] at hpc
        exact collectibleOK_mono hmono0 (hok pc hpc)
      | some cpos =>
        have hspec := findCollectiblePosition_spec _ dists psg.pos r cpos r2
          hf hnd hs
        have hred : placeLoop dists ((psg, pair) :: rest) b r =
            placeLoop dists rest
              (((b.addBlocker ⟨pair.blockerType, psg.pos,
                psg.dir⟩).addBlocker
                ⟨pair.blockerType, npos,
                  OPPOSITE_DIRECTION psg.dir⟩).addCollectible
                ⟨pair.collectibleType, cpos⟩) r2 := by
          simp [placeLoop, hnb, hf]
        rw [hred] at hpc
        have hok3 : ∀ qc ∈ (((b.addBlocker ⟨pair.blockerType, psg.pos,
            psg.dir⟩).addBlocker
            ⟨pair.blockerType, npos,
              OPPOSITE_DIRECTION psg.dir⟩).addCollectible
            ⟨pair.collectibleType, cpos⟩).collectibles,
            collectibleOK b0 dists (gates ++ [psg.pos]) qc := by
          intro qc hqc
          have hqc2 := jsSet_mem hqc
          rcases hqc2 with hold | hnew
          · refine collectibleOK_mono ?_ (hok qc hold)
            intro g hg
            exact List.mem_append_left _ hg
          · rw [hnew]
            refine ⟨hspec.1, ?_, psg.pos,
              List.mem_append_right _ (List.mem_singleton_self _), ?_⟩
            · rw [← isExit_congr _ b0 hrows hcols cpos]
              exact hspec.2.1
            · obtain ⟨gd, pd, hgd, hpd, hlt⟩ := hspec.2.2.2
              exact ⟨gd, pd, hgd, hpd, hlt⟩
        have hres := ih (gates ++ [psg.pos])
          (((b.addBlocker ⟨pair.blockerType, psg.pos, psg.dir⟩).addBlocker
            ⟨pair.blockerType, npos,
              OPPOSITE_DIRECTION psg.dir⟩).addCollectible
            ⟨pair.collectibleType, cpos⟩) r2 hrows hcols hok3 pc hpc
        exact collectibleOK_mono hmono hres

theorem tryPlace_collectibles (b : MazeBoard) (k : Nat) (r : RNG)
    (hempty : b.collectibles = []) :
    ∀ pc ∈ (tryPlace b k r).2.1.collectibles,
      pc.1 ≠ ⟨0, 0⟩ ∧ b.isExit pc.1 = false ∧
      ∃ (gp : Position) (gd pd : Nat),
        jsGet (bfsDistances b ⟨0, 0⟩) gp = some gd ∧
        jsGet (bfsDistances b ⟨0, 0⟩) pc.1 = some pd ∧ pd < gd := by
  have hfacts := bfsDistances_facts b ⟨0, 0⟩
  have hcore : ∀ (items : List (Passage × BlockerPair)) (r2 : RNG)
      (flag : Bool) (b2 : MazeBoard) (r3 : RNG),
      placeLoop (bfsDistances b ⟨0, 0⟩) items b r2 = (flag, b2, r3) →
      ∀ pc ∈ b2.collectibles,
      pc.1 ≠ ⟨0, 0⟩ ∧ b.isExit pc.1 = false ∧
      ∃ (gp : Position) (gd pd : Nat),
        jsGet (bfsDistances b ⟨0, 0⟩) gp = some gd ∧
        jsGet (bfsDistances b ⟨0, 0⟩) pc.1 = some pd ∧ pd < gd := by
    intro items r2 flag b2 r3 heq pc hpc
    have hok := placeLoop_collectibles b (bfsDistances b ⟨0, 0⟩) hfacts.1
      hfacts.2.1 items [] b r2 rfl rfl
      (by
        rw [hempty]
        intro qc hqc
        exact absurd hqc (List.not_mem_nil qc)) pc
      (by
        rw [heq]
        exact hpc)
    obtain ⟨h1, h2, g, hg, gd, pd, hgd, hpd, hlt⟩ := hok
    exact ⟨h1, h2, g, gd, pd, hgd, hpd, hlt⟩
  intro pc hpc
  unfold tryPlace at hpc
  split at hpc
  · rw [hempty] at hpc
    exact absurd hpc (List.not_mem_nil pc)
  · simp only [] at hpc
    split at hpc <;> split at hpc
    · rw [hempty] at hpc
      exact absurd hpc (List.not_mem_nil pc)
    · split at hpc
      · rename_i hres
        exact hcore _ _ _ _ _ hres pc hpc
      · rename_i hres
        exact hcore _ _ _ _ _ hres pc hpc
    · rw [hempty] at hpc
      exact absurd hpc (List.not_mem_nil pc)
    · split at hpc
      · rename_i hres
        exact hcore _ _ _ _ _ hres pc hpc
      · rename_i hres
        exact hcore _ _ _ _ _ hres pc hpc

theorem placeAttempts_collectibles (k : Nat) :
    ∀ (n : Nat) (b : MazeBoard) (r : RNG),
      ∀ pc ∈ (placeAttempts k n b r).1.collectibles,
        pc.1 ≠ ⟨0, 0⟩ ∧ b.isExit pc.1 = false := by
  intro n
  induction n with
  | zero =>
    intro b r pc hpc
    simp only [placeAttempts] at hpc
    rw [(clearItems_spec b).1] at hpc
    exact absurd hpc (List.not_mem_nil pc)
  | succ n ih =>
    intro b r pc hpc
    unfold placeAttempts at hpc
    rcases hres : tryPlace (clearItems b) k r with ⟨flag, b2, r2⟩
    rw [hres] at hpc
    have hdims := tryPlace_fields (clearItems b) k r
    rw [hres] at hdims
    have hcl := clearItems_spec b
    cases flag
    · simp only [] at hpc
      have hr := ih b2 r2 pc hpc
      refine ⟨hr.1, ?_⟩
      rw [← isExit_congr b2 b (by rw [hdims.1, hcl.2.2.1])
        (by rw [hdims.2.1, hcl.2.2.2.1]) pc.1]
      exact hr.2
    · simp only [] at hpc
      have hr := tryPlace_collectibles (clearItems b) k r hcl.1 pc (by
        rw [hres]
        exact hpc)
      refine ⟨hr.1, ?_⟩
      rw [← isExit_congr (clearItems b) b hcl.2.2.1 hcl.2.2.2.1 pc.1]
      exact hr.2.1

/-! ### Claim C3: the solvability search terminates within the
`cells × (itemTypes + 1)` state bound -/

/-- All five inventory values of the augmented state. -/
def invUniv : Finset (Option CollectibleType) :=
  {none, some CollectibleType.keyRed, some CollectibleType.keyBlue,
    some CollectibleType.keyGreen, some CollectibleType.dynamite}

theorem mem_invUniv (o : Option CollectibleType) : o ∈ invUniv := by
  rcases o with _ | c
  · decide
  · cases c <;> decide

theorem card_invUniv : invUniv.card = 5 := by decide

/-- The augmented state space `(position, inventory)`. -/
def stateSpace (b : MazeBoard) :
    Finset (Position × Option CollectibleType) :=
  gridFinset b ×ˢ invUniv

theorem nodup_length_le {α : Type} [DecidableEq α] (l : List α)
    (s : Finset α) (hnd : l.Nodup) (hsub : ∀ x ∈ l, x ∈ s) :
    l.length ≤ s.card := by
  have hsub2 : l.toFinset ⊆ s := by
    intro x hx
    exact hsub x (List.mem_toFinset.mp hx)
  calc l.length = l.toFinset.card := (List.toFinset_card_of_nodup hnd).symm
    _ ≤ s.card := Finset.card_le_card hsub2

theorem skey_mem_stateSpace (b : MazeBoard)
    (k : Position × Option CollectibleType) (h : k.1 ∈ gridFinset b) :
    k ∈ stateSpace b := by
  unfold stateSpace
  rw [Finset.mem_product]
  exact ⟨h, mem_invUniv k.2⟩

theorem solvLoop_term (b : MazeBoard) :
    ∀ (f : Nat) (queue : List QEntry)
      (vis : List (Position × Option CollectibleType)),
      vis.Nodup → (∀ k ∈ vis, k.1 ∈ gridFinset b) →
      (∀ e ∈ queue, e.pos ∈ gridFinset b) →
      ((stateSpace b).card - vis.length) + queue.length < f →
      ∃ res vis2, solvLoop b f queue vis = some (res, vis2) ∧
        vis2.Nodup ∧ ∀ k ∈ vis2, k.1 ∈ gridFinset b := by
  intro f
  induction f with
  | zero =>
    intro queue vis _ _ _ hfuel
    exact absurd hfuel (Nat.not_lt_zero _)
  | succ f ih =>
    intro queue vis hnd hvis hq hfuel
    cases queue with
    | nil => exact ⟨false, vis, rfl, hnd, hvis⟩
    | cons e queue =>
      by_cases hexit : e.pos = b.exit
      · refine ⟨true, vis, ?_, hnd, hvis⟩
        simp [solvLoop, hexit]
      · have hQ := foldl_preserve
          (fun acc : List QEntry ×
              List (Position × Option CollectibleType) =>
            acc.2.Nodup ∧ (∀ k ∈ acc.2, k.1 ∈ gridFinset b) ∧
            (∀ x ∈ acc.1, x.pos ∈ gridFinset b) ∧
            acc.1.length + vis.length = acc.2.length + queue.length)
          (solvStep b e) allDirections (solvPickup b e queue vis) ?_ ?_
        · have hred : solvLoop b (f + 1) (e :: queue) vis =
              solvLoop b f
                (allDirections.foldl (solvStep b e)
                  (solvPickup b e queue vis)).1
                (allDirections.foldl (solvStep b e)
                  (solvPickup b e queue vis)).2 := by
            simp [solvLoop, hexit]
          rw [hred]
          apply ih _ _ hQ.1 hQ.2.1 hQ.2.2.1
          have hv1le : (allDirections.foldl (solvStep b e)
              (solvPickup b e queue vis)).2.length ≤
              (stateSpace b).card :=
            nodup_length_le _ _ hQ.1
              (fun k hk => skey_mem_stateSpace b k (hQ.2.1 k hk))
          have hvle : vis.length ≤ (stateSpace b).card :=
            nodup_length_le _ _ hnd
              (fun k hk => skey_mem_stateSpace b k (hvis k hk))
          have hbal := hQ.2.2.2
          simp only [List.length_cons] at hfuel
          omega
        · -- the pickup transition preserves the fold invariant
          have hqe : e.pos ∈ gridFinset b :=
            hq e (List.mem_cons_self e queue)
          have hqrest : ∀ x ∈ queue, x.pos ∈ gridFinset b :=
            fun x hx => hq x (List.mem_cons_of_mem e hx)
          unfold solvPickup
          split
          · split
            · split
              · exact ⟨hnd, hvis, hqrest, Nat.add_comm _ _⟩
              · rename_i c _ _ hnew
                refine ⟨List.nodup_cons.mpr ⟨hnew, hnd⟩, ?_, ?_, ?_⟩
                · intro k hk
                  rcases List.mem_cons.mp hk with h2 | h2
                  · rw [h2]
                    exact hqe
                  · exact hvis k h2
                · intro x hx
                  rcases List.mem_append.mp hx with h2 | h2
                  · exact hqrest x h2
                  · rw [List.mem_singleton.mp h2]
                    exact hqe
                · simp only [List.length_append, List.length_cons,
                    List.length_singleton, List.length_nil]
                  omega
            · exact ⟨hnd, hvis, hqrest, Nat.add_comm _ _⟩
          · exact ⟨hnd, hvis, hqrest, Nat.add_comm _ _⟩
        · -- each move transition preserves the fold invariant
          intro acc d hP
          unfold solvStep
          split
          · exact hP
          · split
            · exact hP
            · rename_i next hnb
              have hnextg : next ∈ gridFinset b :=
                (mem_gridFinset b next).mpr (neighbor_inBounds hnb)
              split
              · split
                · split
                  · split
                    · exact hP
                    · rename_i hnew
                      refine ⟨List.nodup_cons.mpr ⟨hnew, hP.1⟩, ?_, ?_, ?_⟩
                      · intro k hk
                        rcases List.mem_cons.mp hk with h2 | h2
                        · rw [h2]
                          exact hnextg
                        · exact hP.2.1 k h2
                      · intro x hx
                        rcases List.mem_append.mp hx with h2 | h2
                        · exact hP.2.2.1 x h2
                        · rw [List.mem_singleton.mp h2]
                          exact hnextg
                      · simp only [List.length_append, List.length_cons,
                          List.length_singleton, List.length_nil]
                        have := hP.2.2.2
                        omega
                  · exact hP
                · exact hP
              · split
                · exact hP
                · rename_i hnew
                  refine ⟨List.nodup_cons.mpr ⟨hnew, hP.1⟩, ?_, ?_, ?_⟩
                  · intro k hk
                    rcases List.mem_cons.mp hk with h2 | h2
                    · rw [h2]
                      exact hnextg
                    · exact hP.2.1 k h2
                  · intro x hx
                    rcases List.mem_append.mp hx with h2 | h2
                    · exact hP.2.2.1 x h2
                    · rw [List.mem_singleton.mp h2]
                      exact hnextg
                  · simp only [List.length_append, List.length_cons,
                      List.length_singleton, List.length_nil]
                    have := hP.2.2.2
                    omega

/-- Claim C3: for every board (grid dimensions are positive by the stated
construction precondition) and any placement of items and blockers,
`isSolvable` terminates — its queue loop provably finishes within its fuel —
and the visited-state set, which counts every state ever enqueued (each
enqueue inserts exactly one fresh `(position, inventory)` key), never
exceeds `rows*cols × (itemTypes + 1) = rows*cols × 5` entries. -/
theorem isSolvable_terminates_bounded (b : MazeBoard) (hR : 1 ≤ b.rows)
    (hC : 1 ≤ b.cols) :
    ∃ (res : Bool) (vis : List (Position × Option CollectibleType)),
      solvLoop b (5 * (b.rows * b.cols).toNat + 10)
        [⟨⟨0, 0⟩, none, []⟩] [(⟨0, 0⟩, none)] = some (res, vis) ∧
      isSolvable b = res ∧
      vis.length ≤ (b.rows * b.cols).toNat * 5 := by
  have hstart : (⟨0, 0⟩ : Position) ∈ gridFinset b := by
    rw [mem_gridFinset, inBounds_iff]
    refine ⟨le_rfl, ?_, le_rfl, ?_⟩
    · show (0 : Int) < b.rows
      omega
    · show (0 : Int) < b.cols
      omega
  have hcardss : (stateSpace b).card = (b.rows * b.cols).toNat * 5 := by
    unfold stateSpace
    rw [Finset.card_product, card_invUniv, card_gridFinset b hR hC]
  have hterm := solvLoop_term b (5 * (b.rows * b.cols).toNat + 10)
    [⟨⟨0, 0⟩, none, []⟩] [(⟨0, 0⟩, none)]
    (List.nodup_singleton _)
    (by
      intro k hk
      rw [List.mem_singleton.mp hk]
      exact hstart)
    (by
      intro x hx
      rw [List.mem_singleton.mp hx]
      exact hstart)
    (by
      rw [hcardss]
      simp only [List.length_singleton, List.length_nil]
      omega)
  obtain ⟨res, vis2, heq, hnd2, hsub2⟩ := hterm
  refine ⟨res, vis2, heq, ?_, ?_⟩
  · unfold isSolvable
    rw [heq]
  · rw [← hcardss]
    exact nodup_length_le _ _ hnd2
      (fun k hk => skey_mem_stateSpace b k (hsub2 k hk))

/-- Claim C3 witness. -/
theorem isSolvable_terminates_bounded_witness :
    (1 : Int) ≤ (MazeBoard.create 2 2).rows ∧
    ∃ (res : Bool) (vis : List (Position × Option CollectibleType)),
      solvLoop (MazeBoard.create 2 2)
        (5 * ((MazeBoard.create 2 2).rows *
          (MazeBoard.create 2 2).cols).toNat + 10)
        [⟨⟨0, 0⟩, none, []⟩] [(⟨0, 0⟩, none)] = some (res, vis) ∧
      isSolvable (MazeBoard.create 2 2) = res ∧
      vis.length ≤ ((MazeBoard.create 2 2).rows *
        (MazeBoard.create 2 2).cols).toNat * 5 :=
  ⟨by decide, isSolvable_terminates_bounded (MazeBoard.create 2 2)
    (by decide) (by decide)⟩

/-! ### Claim C7: blocker count formula and the parity/range of committed
blocker entries -/

/-- The specification's formula `clamp(floor(totalCells / 30), 2, 4)`,
written from the spec's words for comparison with the source expression. -/
def clampSpec (x lo hi : Int) : Int :=
  if x < lo then lo else if hi < x then hi else x

theorem blockerCountOf_eq_clamp (b : MazeBoard) :
    blockerCountOf b = clampSpec (Int.fdiv (b.rows * b.cols) 30) 2 4 := by
  unfold blockerCountOf clampSpec
  rcases le_or_lt 2 (Int.fdiv (b.rows * b.cols) 30) with h2 | h2
  · rcases le_or_lt (Int.fdiv (b.rows * b.cols) 30) 4 with h4 | h4
    · rw [if_neg (by omega), if_neg (by omega)]
      omega
    · rw [if_neg (by omega), if_pos (by omega)]
      omega
  · rw [if_pos (by omega)]
    omega

theorem jsGet_isSome_iff {K V : Type} [DecidableEq K] (m : List (K × V))
    (k : K) : (jsGet m k).isSome = true ↔ k ∈ m.map Prod.fst := by
  constructor
  · intro h
    rcases ho : jsGet m k with _ | v
    · rw [ho] at h
      simp at h
    · have hany := jsAny_of_get_some m k v ho
      rw [List.any_eq_true] at hany
      rcases hany with ⟨e, he, hk⟩
      rw [decide_eq_true_eq] at hk
      rw [← hk]
      exact List.mem_map_of_mem Prod.fst he
  · intro h
    rcases List.mem_map.mp h with ⟨e, he, hk⟩
    rcases ho : jsGet m k with _ | v
    · rw [jsGet_eq_none_iff] at ho
      exact absurd hk (ho e he)
    · simp

theorem mem_keys_split {K V : Type} [DecidableEq K] {m : List (K × V)}
    {k : K} (h : k ∈ m.map Prod.fst) :
    ∃ (L : List (K × V)) (o : V) (R : List (K × V)),
      m = L ++ (k, o) :: R := by
  rcases List.mem_map.mp h with ⟨e, he, hk⟩
  rcases List.append_of_mem he with ⟨s, t, hst⟩
  exact ⟨s, e.2, t, by rw [hst, ← hk]⟩

theorem keysNodup_split_not_mem {K V : Type} [DecidableEq K]
    {L R : List (K × V)} {k : K} {o : V}
    (h : keysNodup (L ++ (k, o) :: R)) : k ∉ R.map Prod.fst := by
  unfold keysNodup at h
  rw [List.map_append, List.map_cons] at h
  have h2 := h.of_append_right
  exact (List.nodup_cons.mp h2).1

theorem jsGet_split_nodup {K V : Type} [DecidableEq K]
    {L R : List (K × V)} {k : K} {o : V}
    (h : keysNodup (L ++ (k, o) :: R)) :
    jsGet (L ++ (k, o) :: R) k = some o :=
  jsGet_of_mem_nodup (by simp) h

/-- Well-formedness of the `findShortestPath` parent map (newest entry
first): every recorded parent is adjacent to its child and appears as a key
strictly deeper (older) in the map. -/
def ParentChain (b : MazeBoard) : List (Position × Option Position) → Prop
  | [] => True
  | e :: rest =>
      (∀ q, e.2 = some q → (∃ d, b.neighbor q d = some e.1) ∧
        q ∈ rest.map Prod.fst) ∧ ParentChain b rest

theorem parentChain_suffix (b : MazeBoard) :
    ∀ (L R : List (Position × Option Position)),
      ParentChain b (L ++ R) → ParentChain b R := by
  intro L
  induction L with
  | nil =>
    intro R h
    exact h
  | cons e L ih =>
    intro R h
    exact ih R h.2

theorem parentChain_entry (b : MazeBoard)
    (L R : List (Position × Option Position))
    (e : Position × Option Position)
    (h : ParentChain b (L ++ e :: R)) (q : Position) (hq : e.2 = some q) :
    (∃ d, b.neighbor q d = some e.1) ∧ q ∈ R.map Prod.fst :=
  (parentChain_suffix b L (e :: R) h).1 q hq

theorem rebuildPath_go (b : MazeBoard) (start : Position)
    (parent : List (Position × Option Position))
    (hkn : keysNodup parent) (hpc : ParentChain b parent)
    (hsn : ∀ e ∈ parent, e.2 = none → e.1 = start) :
    ∀ (n : Nat) (L : List (Position × Option Position))
      (o : Option Position) (m₂ : List (Position × Option Position))
      (key : Position) (f : Nat) (acc : List Position),
      parent = L ++ (key, o) :: m₂ → m₂.length ≤ n → m₂.length < f →
      ∃ w, rebuildPath parent start f key acc =
          some ((start :: w) ++ acc) ∧
        List.Chain' (fun a c => ∃ d, b.neighbor a d = some c) (w ++ [key]) ∧
        (w ++ [key]).Nodup ∧
        (∀ x ∈ w, x ∈ m₂.map Prod.fst) ∧
        (w ≠ [] → w.head? = some start) ∧
        (w = [] → o = none) := by
  intro n
  induction n with
  | zero =>
    intro L o m₂ key f acc hsplit hlen hf
    have hget : jsGet parent key = some o := by
      rw [hsplit]
      exact jsGet_split_nodup (hsplit ▸ hkn)
    cases f with
    | zero => omega
    | succ f2 =>
      cases o with
      | none =>
        refine ⟨[], ?_, ?_, ?_, ?_, ?_, ?_⟩
        · simp [rebuildPath, hget]
        · exact List.chain'_singleton key
        · simp
        · intro x hx
          exact absurd hx (List.not_mem_nil x)
        · intro h
          exact absurd rfl h
        · intro _
          rfl
      | some p =>
        have hpm := parentChain_entry b L m₂ (key, some p)
          (hsplit ▸ hpc) p rfl
        have hm2 : m₂ = [] := List.length_eq_zero.mp (Nat.le_zero.mp hlen)
        rw [hm2] at hpm
        simp at hpm
  | succ n ih =>
    intro L o m₂ key f acc hsplit hlen hf
    have hget : jsGet parent key = some o := by
      rw [hsplit]
      exact jsGet_split_nodup (hsplit ▸ hkn)
    cases f with
    | zero => omega
    | succ f2 =>
      cases o with
      | none =>
        refine ⟨[], ?_, ?_, ?_, ?_, ?_, ?_⟩
        · simp [rebuildPath, hget]
        · exact List.chain'_singleton key
        · simp
        · intro x hx
          exact absurd hx (List.not_mem_nil x)
        · intro h
          exact absurd rfl h
        · intro _
          rfl
      | some p =>
        have hpm := parentChain_entry b L m₂ (key, some p)
          (hsplit ▸ hpc) p rfl
        rcases hpm with ⟨hadj, hpmem⟩
        rcases mem_keys_split hpmem with ⟨u, o2, v, hm2⟩
        have hsplit2 : parent = (L ++ (key, some p) :: u) ++ (p, o2) :: v := by
          rw [hsplit, hm2]
          simp
        have hlenv : v.length ≤ n := by
          rw [hm2] at hlen
          simp only [List.length_append, List.length_cons] at hlen
          omega
        have hfv : v.length < f2 := by
          rw [hm2] at hf
          simp only [List.length_append, List.length_cons] at hf
          omega
        obtain ⟨w2, heq2, hch2, hnd2, hmem2, hhd2, ho2⟩ :=
          ih (L ++ (key, some p) :: u) o2 v p f2 (p :: acc) hsplit2 hlenv hfv
        have hknot : key ∉ m₂.map Prod.fst :=
          keysNodup_split_not_mem (hsplit ▸ hkn)
        have hsubm : ∀ x, x ∈ v.map Prod.fst → x ∈ m₂.map Prod.fst := by
          intro x hx
          rw [hm2]
          simp only [List.map_append, List.map_cons, List.mem_append,
            List.mem_cons]
          exact Or.inr (Or.inr hx)
        refine ⟨w2 ++ [p], ?_, ?_, ?_, ?_, ?_, ?_⟩
        · have hred : rebuildPath parent start (f2 + 1) key acc =
              rebuildPath parent start f2 p (p :: acc) := by
            simp [rebuildPath, hget]
          rw [hred, heq2]
          simp
        · rw [List.chain'_append]
          refine ⟨hch2, List.chain'_singleton key, ?_⟩
          intro x hx y hy
          rw [List.getLast?_concat, Option.mem_def, Option.some_inj] at hx
          simp only [List.head?_cons, Option.mem_def, Option.some_inj] at hy
          rw [← hx, ← hy]
          exact hadj
        · rw [List.nodup_append]
          refine ⟨hnd2, List.nodup_singleton key, ?_⟩
          intro a ha hak
          have hak2 : a = key := List.mem_singleton.mp hak
          subst hak2
          rcases List.mem_append.mp ha with h2 | h2
          · exact hknot (hsubm a (hmem2 a h2))
          · have hap : a = p := List.mem_singleton.mp h2
            rw [← hap] at hpmem
            exact hknot hpmem
        · intro x hx
          rcases List.mem_append.mp hx with h2 | h2
          · exact hsubm x (hmem2 x h2)
          · rw [List.mem_singleton.mp h2]
            exact hpmem
        · intro _
          cases w2 with
          | nil =>
            have hnone := ho2 rfl
            have hpe : (p, o2) ∈ parent := by
              rw [hsplit2]
              simp
            have hps : p = start := hsn (p, o2) hpe hnone
            simp only [List.nil_append, List.head?_cons]
            rw [hps]
          | cons a t =>
            have hh := hhd2 (List.cons_ne_nil a t)
            simp only [List.head?_cons, Option.some_inj] at hh
            simp only [List.cons_append, List.head?_cons]
            rw [hh]
        · intro hcontra
          exact absurd hcontra (by simp)

/-- Invariant of the `findShortestPath` queue loop: the parent map is
key-unique, chain-well-formed, rooted at `start`, in-bounds, and every
queued cell is a key of the map. -/
def PPInv (b : MazeBoard) (start : Position) (queue : List Position)
    (parent : List (Position × Option Position)) : Prop :=
  keysNodup parent ∧ ParentChain b parent ∧
  (∀ e ∈ parent, e.2 = none → e.1 = start) ∧
  (∀ e ∈ parent, b.inBounds e.1 = true) ∧
  (∀ x ∈ queue, x ∈ parent.map Prod.fst)

theorem pathStep_preserve (b : MazeBoard) (start cur : Position)
    (acc : List Position × List (Position × Option Position))
    (d : Direction)
    (hP : PPInv b start acc.1 acc.2 ∧ cur ∈ acc.2.map Prod.fst) :
    PPInv b start (pathStep b cur acc d).1 (pathStep b cur acc d).2 ∧
      cur ∈ (pathStep b cur acc d).2.map Prod.fst := by
  rcases hP with ⟨⟨hkn, hpc, hsn, hbd, hq⟩, hcur⟩
  unfold pathStep
  split
  · exact ⟨⟨hkn, hpc, hsn, hbd, hq⟩, hcur⟩
  · split
    · exact ⟨⟨hkn, hpc, hsn, hbd, hq⟩, hcur⟩
    · rename_i next hnb
      split
      · exact ⟨⟨hkn, hpc, hsn, hbd, hq⟩, hcur⟩
      · rename_i hfresh
        have hnotmem : next ∉ acc.2.map Prod.fst := by
          intro hmem
          rw [← jsGet_isSome_iff] at hmem
          rw [hmem] at hfresh
          exact hfresh rfl
        refine ⟨⟨?_, ?_, ?_, ?_, ?_⟩, ?_⟩
        · unfold keysNodup
          rw [List.map_cons, List.nodup_cons]
          exact ⟨hnotmem, hkn⟩
        · exact ⟨fun q hq2 => by
            rw [Option.some_inj] at hq2
            rw [← hq2]
            exact ⟨⟨d, hnb⟩, hcur⟩, hpc⟩
        · intro e he
          rcases List.mem_cons.mp he with h2 | h2
          · rw [h2]
            intro hcontra
            exact Option.noConfusion hcontra
          · exact hsn e h2
        · intro e he
          rcases List.mem_cons.mp he with h2 | h2
          · rw [h2]
            exact neighbor_inBounds hnb
          · exact hbd e h2
        · intro x hx
          rw [List.map_cons]
          rcases List.mem_append.mp hx with h2 | h2
          · exact List.mem_cons_of_mem _ (hq x h2)
          · rw [List.mem_singleton.mp h2]
            exact List.mem_cons_self _ _
        · rw [List.map_cons]
          exact List.mem_cons_of_mem _ hcur

theorem bfsPathLoop_spec (b : MazeBoard) (start endPos : Position)
    (hne : start ≠ endPos) :
    ∀ (f : Nat) (queue : List Position)
      (parent : List (Position × Option Position)) (path : List Position),
      PPInv b start queue parent →
      bfsPathLoop b start endPos f queue parent = some path →
      List.Chain' (fun a c => ∃ d, b.neighbor a d = some c) path ∧
        path.Nodup ∧ path.head? = some start ∧
        path.getLast? = some endPos ∧
        (∀ x ∈ path, b.inBounds x = true) := by
  intro f
  induction f with
  | zero =>
    intro queue parent path _ heq
    exact absurd heq (by simp [bfsPathLoop])
  | succ f ih =>
    intro queue parent path hI heq
    cases queue with
    | nil => exact absurd heq (by simp [bfsPathLoop])
    | cons cur queue =>
      rcases hI with ⟨hkn, hpc, hsn, hbd, hq⟩
      by_cases hc : cur = endPos
      · have hend : endPos ∈ parent.map Prod.fst := by
          rw [← hc]
          exact hq cur (List.mem_cons_self cur queue)
        rcases mem_keys_split hend with ⟨L, o, m₂, hsplit⟩
        have hm2lt : m₂.length < parent.length + 1 := by
          rw [hsplit]
          simp only [List.length_append, List.length_cons]
          omega
        obtain ⟨w, heqr, hch, hnd, hmem, hhd, ho⟩ :=
          rebuildPath_go b start parent hkn hpc hsn m₂.length L o m₂
            endPos (parent.length + 1) [] hsplit le_rfl hm2lt
        have hwne : w ≠ [] := by
          intro hwnil
          have hoe := ho hwnil
          rw [hoe] at hsplit
          have hmem2 : ((endPos, none) :
              Position × Option Position) ∈ parent := by
            rw [hsplit]
            simp
          exact hne ((hsn (endPos, none) hmem2 rfl).symm)
        cases w with
        | nil => exact absurd rfl hwne
        | cons a t =>
          have ha : a = start := by
            have hx := hhd (List.cons_ne_nil a t)
            simp only [List.head?_cons, Option.some_inj] at hx
            exact hx
          have hred : bfsPathLoop b start endPos (f + 1)
              (cur :: queue) parent = some ((a :: t) ++ [endPos]) := by
            simp only [bfsPathLoop, if_pos hc, heqr, List.append_nil,
              List.cons_append]
            rw [if_pos ha.symm]
          rw [hred] at heq
          rw [Option.some_inj] at heq
          subst heq
          refine ⟨hch, hnd, ?_, ?_, ?_⟩
          · simp [ha]
          · rw [List.getLast?_concat]
          · intro x hx
            rcases List.mem_append.mp hx with h2 | h2
            · have hxm := hmem x h2
              rcases List.mem_map.mp hxm with ⟨e, he, hex⟩
              have hep : e ∈ parent := by
                rw [hsplit]
                simp only [List.mem_append, List.mem_cons]
                exact Or.inr (Or.inr he)
              rw [← hex]
              exact hbd e hep
            · rw [List.mem_singleton.mp h2]
              have hep : ((endPos, o) :
                  Position × Option Position) ∈ parent := by
                rw [hsplit]
                simp
              exact hbd (endPos, o) hep
      · have hJ := foldl_preserve
          (fun acc : List Position × List (Position × Option Position) =>
            PPInv b start acc.1 acc.2 ∧ cur ∈ acc.2.map Prod.fst)
          (pathStep b cur) allDirections (queue, parent)
          ⟨⟨hkn, hpc, hsn, hbd, fun x hx =>
            hq x (List.mem_cons_of_mem cur hx)⟩,
            hq cur (List.mem_cons_self cur queue)⟩
          (fun acc d hP => pathStep_preserve b start cur acc d hP)
        have hred : bfsPathLoop b start endPos (f + 1)
            (cur :: queue) parent =
            bfsPathLoop b start endPos f
              (allDirections.foldl (pathStep b cur) (queue, parent)).1
              (allDirections.foldl (pathStep b cur) (queue, parent)).2 := by
          simp [bfsPathLoop, hc]
        rw [hred] at heq
        exact ih _ _ path hJ.1 heq

theorem findShortestPath_spec (b : MazeBoard) (start endPos : Position)
    (hne : start ≠ endPos) (hin : b.inBounds start = true)
    (path : List Position)
    (h : findShortestPath b start endPos = some path) :
    List.Chain' (fun a c => ∃ d, b.neighbor a d = some c) path ∧
      path.Nodup ∧ path.head? = some start ∧
      path.getLast? = some endPos ∧
      (∀ x ∈ path, b.inBounds x = true) := by
  apply bfsPathLoop_spec b start endPos hne _ [start] [(start, none)] path
    ?_ h
  refine ⟨?_, ?_, ?_, ?_, ?_⟩
  · unfold keysNodup
    simp
  · exact ⟨fun q hq => Option.noConfusion hq, trivial⟩
  · intro e he
    rw [List.mem_singleton.mp he]
    intro _
    rfl
  · intro e he
    rw [List.mem_singleton.mp he]
    exact hin
  · intro x hx
    rw [List.mem_singleton.mp hx]
    simp

/-- The two registry keys `tryPlace` writes for one gated passage: the near
side and the far side of the passage. -/
def passageKeys (psg : Passage) : List (Position × Direction) :=
  [(psg.pos, psg.dir),
    (psg.pos.add (DIRECTION_OFFSETS psg.dir), OPPOSITE_DIRECTION psg.dir)]

theorem position_add_right_inj {p a c : Position} (h : p.add a = p.add c) :
    a = c := by
  cases p
  cases a
  cases c
  simp only [Position.add, Position.mk.injEq] at h ⊢
  omega

theorem off_inj {d d2 : Direction}
    (h : DIRECTION_OFFSETS d = DIRECTION_OFFSETS d2) : d = d2 := by
  cases d <;> cases d2 <;>
    simp [DIRECTION_OFFSETS, Position.mk.injEq] at h ⊢

theorem directionBetween_of_adj (p q : Position) (d : Direction)
    (h : p.add (DIRECTION_OFFSETS d) = q) :
    directionBetween p q = some d := by
  have hfalse : ∀ d2, d2 ≠ d →
      (decide (p.add (DIRECTION_OFFSETS d2) = q)) = false := by
    intro d2 hdd
    rw [decide_eq_false_iff_not]
    intro h2
    exact hdd (off_inj (position_add_right_inj (h2.trans h.symm)))
  have htrue : (decide (p.add (DIRECTION_OFFSETS d) = q)) = true := by
    rw [decide_eq_true_eq]
    exact h
  unfold directionBetween
  simp only [allDirections, List.find?]
  cases d
  · rw [htrue]
  · rw [hfalse Direction.north (by decide), htrue]
  · rw [hfalse Direction.north (by decide),
      hfalse Direction.south (by decide), htrue]
  · rw [hfalse Direction.north (by decide),
      hfalse Direction.south (by decide),
      hfalse Direction.east (by decide), htrue]

theorem pathToPassages_spec (b : MazeBoard) :
    ∀ (path : List Position),
      List.Chain' (fun a c => ∃ d, b.neighbor a d = some c) path →
      path.Nodup →
      (∀ x ∈ path, b.inBounds x = true) →
      (pathToPassages path).length + 1 = max path.length 1 ∧
      (∀ psg ∈ pathToPassages path,
        b.neighbor psg.pos psg.dir =
          some (psg.pos.add (DIRECTION_OFFSETS psg.dir))) ∧
      ((pathToPassages path).map passageKeys).flatten.Nodup ∧
      (∀ k ∈ ((pathToPassages path).map passageKeys).flatten,
        k.1 ∈ path ∧ k.1.add (DIRECTION_OFFSETS k.2) ∈ path) := by
  intro path
  induction path with
  | nil =>
    intro _ _ _
    refine ⟨by simp [pathToPassages], ?_, ?_, ?_⟩
    · intro psg hpsg
      simp [pathToPassages] at hpsg
    · simp [pathToPassages]
    · intro k hk
      simp [pathToPassages] at hk
  | cons p rest ih =>
    intro hch hnd hbd
    cases rest with
    | nil =>
      refine ⟨by simp [pathToPassages], ?_, ?_, ?_⟩
      · intro psg hpsg
        simp [pathToPassages] at hpsg
      · simp [pathToPassages]
      · intro k hk
        simp [pathToPassages] at hk
    | cons q rest =>
      rw [List.chain'_cons] at hch
      rcases hch with ⟨⟨d, hd⟩, hch2⟩
      have hq : p.add (DIRECTION_OFFSETS d) = q := (neighbor_eq_add hd).symm
      have hdb : directionBetween p q = some d :=
        directionBetween_of_adj p q d hq
      have hred : pathToPassages (p :: q :: rest) =
          ⟨p, d⟩ :: pathToPassages (q :: rest) := by
        simp [pathToPassages, hdb]
      rw [List.nodup_cons] at hnd
      rcases hnd with ⟨hpnot, hnd2⟩
      obtain ⟨ih1, ih2, ih3, ih4⟩ := ih hch2 hnd2
        (fun x hx => hbd x (List.mem_cons_of_mem p hx))
      have hnbq : b.neighbor p d = some (p.add (DIRECTION_OFFSETS d)) := by
        rw [hq]
        exact hd
      refine ⟨?_, ?_, ?_, ?_⟩
      · rw [hred]
        simp only [List.length_cons] at ih1 ⊢
        omega
      · intro psg hpsg
        rw [hred] at hpsg
        rcases List.mem_cons.mp hpsg with h2 | h2
        · rw [h2]
          exact hnbq
        · exact ih2 psg h2
      · rw [hred]
        simp only [List.map_cons, List.flatten_cons]
        unfold passageKeys
        simp only [List.cons_append, List.nil_append]
        rw [List.nodup_cons, List.nodup_cons]
        refine ⟨?_, ?_, ih3⟩
        · intro hcontra
          rcases List.mem_cons.mp hcontra with h2 | h2
          · have : p = p.add (DIRECTION_OFFSETS d) :=
              congrArg Prod.fst h2
            exact add_offset_ne p d this.symm
          · have hp1 := (ih4 _ h2).1
            exact hpnot (by
              have : (((p : Position), d).1 : Position) = p := rfl
              rw [this] at hp1
              exact hp1)
        · intro hcontra
          have hfar := (ih4 _ hcontra).2
          have hfar2 : ((p.add (DIRECTION_OFFSETS d)).add
              (DIRECTION_OFFSETS (OPPOSITE_DIRECTION d))) = p :=
            add_off_cancel p d
          rw [hfar2] at hfar
          exact hpnot hfar
      · intro k hk
        rw [hred] at hk
        simp only [List.map_cons, List.flatten_cons] at hk
        unfold passageKeys at hk
        simp only [List.cons_append, List.nil_append] at hk
        rcases List.mem_cons.mp hk with h2 | h2
        · rw [h2]
          refine ⟨List.mem_cons_self p (q :: rest), ?_⟩
          rw [hq]
          exact List.mem_cons_of_mem p (List.mem_cons_self q rest)
        · rcases List.mem_cons.mp h2 with h3 | h3
          · rw [h3]
            constructor
            · rw [hq]
              exact List.mem_cons_of_mem p (List.mem_cons_self q rest)
            · rw [add_off_cancel p d]
              exact List.mem_cons_self p (q :: rest)
          · obtain ⟨hk1, hk2⟩ := ih4 k h3
            exact ⟨List.mem_cons_of_mem p hk1,
              List.mem_cons_of_mem p hk2⟩

theorem chain_manhattan (b : MazeBoard) :
    ∀ (path : List Position) (s t : Position),
      List.Chain' (fun a c => ∃ d, b.neighbor a d = some c) path →
      path.head? = some s → path.getLast? = some t →
      (t.row - s.row).natAbs + (t.col - s.col).natAbs + 1 ≤ path.length := by
  intro path
  induction path with
  | nil =>
    intro s t _ hh _
    exact absurd hh (by simp)
  | cons x rest ih =>
    intro s t hch hh hl
    simp only [List.head?_cons, Option.some_inj] at hh
    subst hh
    cases rest with
    | nil =>
      simp only [List.getLast?_singleton, Option.some_inj] at hl
      subst hl
      simp
    | cons y rest2 =>
      rw [List.chain'_cons] at hch
      rcases hch with ⟨⟨d, hd⟩, hch2⟩
      have hy := neighbor_eq_add hd
      have hrec := ih y t hch2 (by simp) (by
        rw [← hl]
        exact List.getLast?_cons_cons.symm)
      have hr := congrArg Position.row hy
      have hc := congrArg Position.col hy
      simp only [List.length_cons] at hrec ⊢
      cases d <;>
        simp only [Position.add, DIRECTION_OFFSETS] at hr hc <;>
        omega

theorem neighbor_congr (b1 b : MazeBoard) (hr : b1.rows = b.rows)
    (hc : b1.cols = b.cols) (p : Position) (d : Direction) :
    b1.neighbor p d = b.neighbor p d := by
  unfold MazeBoard.neighbor
  simp only []
  rw [inBounds_congr b1 b hr hc]

theorem sublist_map_flatten {α β : Type} (f : α → List β)
    {l₁ l₂ : List α} (h : l₁.Sublist l₂) :
    ((l₁.map f).flatten).Sublist ((l₂.map f).flatten) := by
  induction h with
  | slnil => exact List.Sublist.refl _
  | cons a h2 ih =>
    simp only [List.map_cons, List.flatten_cons]
    exact ih.trans (List.sublist_append_right _ _)
  | cons₂ a h2 ih =>
    simp only [List.map_cons, List.flatten_cons]
    exact ih.append_left _

theorem perm_map_flatten {α β : Type} (f : α → List β)
    {l₁ l₂ : List α} (h : l₁.Perm l₂) :
    ((l₁.map f).flatten).Perm ((l₂.map f).flatten) :=
  (h.map f).flatten

theorem randPairs_length : ∀ (n : Nat) (r : RNG),
    (randPairs n r).1.length = n := by
  intro n
  induction n with
  | zero =>
    intro r
    rfl
  | succ n ih =>
    intro r
    unfold randPairs
    simp only [List.length_cons]
    rw [ih]

theorem shuffle_length {α : Type} (l : List α) (r : RNG) :
    (shuffle l r).1.length = l.length :=
  (shuffle_perm l r).length_eq

theorem assignBlockerTypes_length (n : Nat) (r : RNG) :
    (assignBlockerTypes n r).1.length = n := by
  unfold assignBlockerTypes
  by_cases h0 : n = 0
  · rw [if_pos h0]
    rw [h0]
    rfl
  · rw [if_neg h0]
    by_cases h1 : n = 1
    · rw [if_pos h1, h1]
      rfl
    · rw [if_neg h1]
      rw [shuffle_length]
      simp only [List.length_cons]
      rw [randPairs_length]
      omega

theorem placeLoop_blockers (dists : List (Position × Nat)) :
    ∀ (items : List (Passage × BlockerPair)) (b : MazeBoard) (r : RNG)
      (b2 : MazeBoard) (r2 : RNG),
      placeLoop dists items b r = (true, b2, r2) →
      (∀ pr ∈ items, b.neighbor pr.1.pos pr.1.dir =
        some (pr.1.pos.add (DIRECTION_OFFSETS pr.1.dir))) →
      ((items.map (fun pr => passageKeys pr.1)).flatten).Nodup →
      (∀ k ∈ (items.map (fun pr => passageKeys pr.1)).flatten,
        jsGet b.blockers k = none) →
      b2.blockers.length = b.blockers.length + 2 * items.length := by
  intro items
  induction items with
  | nil =>
    intro b r b2 r2 heq _ _ _
    unfold placeLoop at heq
    rw [Prod.mk.injEq, Prod.mk.injEq] at heq
    rw [← heq.2.1]
    simp
  | cons it rest ih =>
    intro b r b2 r2 heq hnbs hflat hfresh
    rcases it with ⟨psg, pair⟩
    have hnb : b.neighbor psg.pos psg.dir =
        some (psg.pos.add (DIRECTION_OFFSETS psg.dir)) :=
      hnbs (psg, pair) (List.mem_cons_self _ _)
    have hk12 : passageKeys psg ++
        ((rest.map (fun pr => passageKeys pr.1)).flatten) =
        ((((psg, pair) :: rest).map
          (fun pr => passageKeys pr.1)).flatten) := by
      simp
    rw [← hk12] at hflat hfresh
    unfold passageKeys at hflat hfresh
    simp only [List.cons_append, List.nil_append] at hflat hfresh
    rw [List.nodup_cons, List.nodup_cons] at hflat
    have hk1 : jsGet b.blockers (psg.pos, psg.dir) = none :=
      hfresh _ (List.mem_cons_self _ _)
    have hk2 : jsGet b.blockers
        (psg.pos.add (DIRECTION_OFFSETS psg.dir),
          OPPOSITE_DIRECTION psg.dir) = none :=
      hfresh _ (List.mem_cons_of_mem _ (List.mem_cons_self _ _))
    have hne12 : ((psg.pos.add (DIRECTION_OFFSETS psg.dir),
        OPPOSITE_DIRECTION psg.dir) : Position × Direction) ≠
        (psg.pos, psg.dir) := by
      intro hcontra
      have := congrArg Prod.fst hcontra
      exact add_offset_ne psg.pos psg.dir this
    set b2' := (b.addBlocker ⟨pair.blockerType, psg.pos,
      psg.dir⟩).addBlocker ⟨pair.blockerType,
        psg.pos.add (DIRECTION_OFFSETS psg.dir),
        OPPOSITE_DIRECTION psg.dir⟩ with hb2'
    have hlen2 : b2'.blockers.length = b.blockers.length + 2 := by
      show (jsSet (jsSet b.blockers (psg.pos, psg.dir) pair.blockerType)
        (psg.pos.add (DIRECTION_OFFSETS psg.dir),
          OPPOSITE_DIRECTION psg.dir) pair.blockerType).length =
        b.blockers.length + 2
      rw [jsSet_length_of_get_none _ _ _ (by
        rw [jsGet_set_other _ _ _ _ hne12]
        exact hk2)]
      rw [jsSet_length_of_get_none _ _ _ hk1]
    have hred : placeLoop dists ((psg, pair) :: rest) b r =
        match findCollectiblePosition b2' dists psg.pos r with
        | (none, r3) => (false, b2', r3)
        | (some cpos, r3) =>
          placeLoop dists rest
            (b2'.addCollectible ⟨pair.collectibleType, cpos⟩) r3 := by
      simp [placeLoop, hnb, hb2']
    rw [hred] at heq
    rcases hfc : findCollectiblePosition b2' dists psg.pos r with
      ⟨copt, r3⟩
    rw [hfc] at heq
    cases copt with
    | none =>
      rw [Prod.mk.injEq] at heq
      exact absurd heq.1 (by simp)
    | some cpos =>
      have hb3b : (b2'.addCollectible
          ⟨pair.collectibleType, cpos⟩).blockers = b2'.blockers := rfl
      have hrows : (b2'.addCollectible
          ⟨pair.collectibleType, cpos⟩).rows = b.rows := rfl
      have hcols : (b2'.addCollectible
          ⟨pair.collectibleType, cpos⟩).cols = b.cols := rfl
      have hrec := ih (b2'.addCollectible ⟨pair.collectibleType, cpos⟩)
        r3 b2 r2 heq
        (fun pr hpr => by
          rw [neighbor_congr _ b hrows hcols]
          exact hnbs pr (List.mem_cons_of_mem _ hpr))
        hflat.2.2
        (fun kk hkk => by
          rw [hb3b]
          show jsGet (jsSet (jsSet b.blockers (psg.pos, psg.dir)
            pair.blockerType)
            (psg.pos.add (DIRECTION_OFFSETS psg.dir),
              OPPOSITE_DIRECTION psg.dir) pair.blockerType) kk = none
          rw [jsGet_set_other _ _ _ _ (by
            intro hcontra
            rw [hcontra] at hkk
            exact hflat.2.1 hkk)]
          rw [jsGet_set_other _ _ _ _ (by
            intro hcontra
            rw [hcontra] at hkk
            exact hflat.1 (List.mem_cons_of_mem _ hkk))]
          exact hfresh kk (List.mem_cons_of_mem _
            (List.mem_cons_of_mem _ hkk)))
      rw [hrec, hb3b, hlen2]
      simp only [List.length_cons]
      omega

theorem rowsAddCols_ge (b : MazeBoard) (hR : 1 ≤ b.rows) (hC : 1 ≤ b.cols)
    (h30 : 30 ≤ b.rows * b.cols) : 11 ≤ b.rows + b.cols := by
  by_contra hlt
  push_neg at hlt
  nlinarith [sq_nonneg (b.rows - b.cols)]

theorem tryPlace_blockers (b : MazeBoard) (k : Nat) (r : RNG)
    (b2 : MazeBoard) (r2 : RNG) (hbe : b.blockers = [])
    (hR : 1 ≤ b.rows) (hC : 1 ≤ b.cols) (h30 : 30 ≤ b.rows * b.cols)
    (hk2 : 2 ≤ k) (hk4 : k ≤ 4)
    (h : tryPlace b k r = (true, b2, r2)) :
    b2.blockers.length = 2 * k := by
  have hsum : 11 ≤ b.rows + b.cols := rowsAddCols_ge b hR hC h30
  have hne : (⟨0, 0⟩ : Position) ≠ b.exit := by
    intro hcontra
    have h1 : (0 : Int) = b.rows - 1 := congrArg Position.row hcontra
    have h2 : (0 : Int) = b.cols - 1 := congrArg Position.col hcontra
    omega
  have hin : b.inBounds ⟨0, 0⟩ = true := by
    rw [inBounds_iff]
    refine ⟨le_rfl, ?_, le_rfl, ?_⟩
    · show (0 : Int) < b.rows
      omega
    · show (0 : Int) < b.cols
      omega
  unfold tryPlace at h
  simp only [] at h
  split at h
  · rw [Prod.mk.injEq] at h
    exact absurd h.1 (by simp)
  · rename_i path hsp
    obtain ⟨hch, hnd, hhd, hlst, hbdall⟩ :=
      findShortestPath_spec b ⟨0, 0⟩ b.exit hne hin path hsp
    have hman := chain_manhattan b path ⟨0, 0⟩ b.exit hch hhd hlst
    have hlen10 : 10 ≤ path.length := by
      have he1 : (b.exit.row : Int) = b.rows - 1 := rfl
      have he2 : (b.exit.col : Int) = b.cols - 1 := rfl
      have hz1 : ((⟨0, 0⟩ : Position)).row = (0 : Int) := rfl
      have hz2 : ((⟨0, 0⟩ : Position)).col = (0 : Int) := rfl
      rw [he1, he2, hz1, hz2] at hman
      omega
    obtain ⟨plen, pnbs, pflatnd, pkeys⟩ :=
      pathToPassages_spec b path hch hnd hbdall
    rw [max_eq_left (by omega : (1 : Nat) ≤ path.length)] at plen
    have hgt : (pathToPassages path).length > 2 := by omega
    rw [if_pos hgt] at h
    set C := ((pathToPassages path).drop 1).dropLast with hCdef
    have hCsub : C.Sublist (pathToPassages path) :=
      (List.dropLast_sublist _).trans (List.drop_sublist 1 _)
    have hClen : C.length = (pathToPassages path).length - 2 := by
      rw [hCdef]
      simp only [List.length_dropLast, List.length_drop]
      omega
    have hCne : C ≠ [] := by
      have hpos : 0 < C.length := by omega
      exact List.length_pos.mp hpos
    rw [if_neg hCne] at h
    set S := (shuffle C r).1.take (min k C.length) with hSdef
    have hkC : k ≤ C.length := by omega
    have hSlen : S.length = k := by
      rw [hSdef, List.length_take, shuffle_length]
      omega
    set A := assignBlockerTypes S.length (shuffle C r).2 with hAdef
    have hAlen : A.1.length = k := by
      rw [hAdef, assignBlockerTypes_length, hSlen]
    set items := S.zip A.1 with hIdef
    have hIlen : items.length = k := by
      rw [hIdef, List.length_zip, hSlen, hAlen]
      omega
    have hmemP : ∀ psg ∈ S, psg ∈ pathToPassages path := by
      intro psg hpsg
      have h1 : psg ∈ (shuffle C r).1 :=
        (List.take_sublist _ _).subset (hSdef ▸ hpsg)
      have h2 : psg ∈ C := ((shuffle_perm C r).mem_iff).mp h1
      exact hCsub.subset h2
    rcases hpl : placeLoop (bfsDistances b ⟨0, 0⟩) items b A.2 with
      ⟨flag, b2x, r2x⟩
    rw [hpl] at h
    cases flag with
    | false =>
      rw [Prod.mk.injEq] at h
      exact absurd h.1 (by simp)
    | true =>
      rw [Prod.mk.injEq, Prod.mk.injEq] at h
      have hb2 : b2 = b2x := h.2.1.symm
      have hmapeq : items.map (fun pr => passageKeys pr.1) =
          S.map passageKeys := by
        rw [hIdef]
        rw [show (fun pr : Passage × BlockerPair => passageKeys pr.1) =
          (passageKeys ∘ Prod.fst) from rfl]
        rw [← List.map_map]
        rw [List.map_fst_zip]
        exact le_of_eq (hSlen.trans hAlen.symm)
      have hndS : ((S.map passageKeys).flatten).Nodup := by
        have hnC : ((C.map passageKeys).flatten).Nodup :=
          pflatnd.sublist (sublist_map_flatten passageKeys hCsub)
        have hnSh : (((shuffle C r).1.map passageKeys).flatten).Nodup :=
          ((perm_map_flatten passageKeys (shuffle_perm C r)).nodup_iff).mpr
            hnC
        exact hnSh.sublist
          (sublist_map_flatten passageKeys (hSdef ▸ List.take_sublist _ _))
      have hcount := placeLoop_blockers (bfsDistances b ⟨0, 0⟩) items b
        A.2 b2x r2x hpl
        (fun pr hpr => by
          rcases pr with ⟨psg, pairc⟩
          have hpsgS : psg ∈ S := (List.of_mem_zip (hIdef ▸ hpr)).1
          exact pnbs psg (hmemP psg hpsgS))
        (by
          rw [hmapeq]
          exact hndS)
        (fun kk _ => by
          rw [hbe]
          rfl)
      rw [hb2, hcount, hbe, hIlen]
      simp

theorem placeAttempts_blockers (b0 : MazeBoard) (k : Nat) :
    ∀ (n : Nat) (b : MazeBoard) (r : RNG),
      b.rows = b0.rows → b.cols = b0.cols →
      1 ≤ b0.rows → 1 ≤ b0.cols → 30 ≤ b0.rows * b0.cols →
      2 ≤ k → k ≤ 4 →
      (placeAttempts k n b r).1.blockers = [] ∨
        (placeAttempts k n b r).1.blockers.length = 2 * k := by
  intro n
  induction n with
  | zero =>
    intro b r _ _ _ _ _ _ _
    exact Or.inl (clearItems_spec b).2.1
  | succ n ih =>
    intro b r hrows hcols hR0 hC0 h300 hk2 hk4
    unfold placeAttempts
    rcases hres : tryPlace (clearItems b) k r with ⟨flag, b2, r2⟩
    cases flag with
    | false =>
      have hf := tryPlace_fields (clearItems b) k r
      rw [hres] at hf
      exact ih b2 r2
        (by rw [hf.1, (clearItems_spec b).2.2.1, hrows])
        (by rw [hf.2.1, (clearItems_spec b).2.2.2.1, hcols])
        hR0 hC0 h300 hk2 hk4
    | true =>
      refine Or.inr ?_
      exact tryPlace_blockers (clearItems b) k r b2 r2
        (clearItems_spec b).2.1
        (by rw [(clearItems_spec b).2.2.1, hrows]; exact hR0)
        (by rw [(clearItems_spec b).2.2.2.1, hcols]; exact hC0)
        (by rw [(clearItems_spec b).2.2.1, (clearItems_spec b).2.2.2.1,
              hrows, hcols]
            exact h300)
        hk2 hk4 hres

/-- Claim C7: the blocker count committed by `ItemPlacer.place` is exactly
`clamp(floor(rows*cols / 30), 2, 4)` (so it always lies in `[2, 4]`), and
for boards with at least 30 cells every successful placement attempt stores
an even number of blocker entries — two registry entries per gated
passage — lying between `2×2` and `4×2` inclusive, while `place` itself
ends with either such a board or a blocker-free fallback. -/
theorem blocker_count_spec (b : MazeBoard) (r : RNG)
    (hR : 1 ≤ b.rows) (hC : 1 ≤ b.cols) :
    blockerCountOf b = clampSpec (Int.fdiv (b.rows * b.cols) 30) 2 4 ∧
    2 ≤ (blockerCountOf b).toNat ∧ (blockerCountOf b).toNat ≤ 4 ∧
    (30 ≤ b.rows * b.cols →
      (∀ (r1 : RNG) (b2 : MazeBoard) (r2 : RNG),
        tryPlace (clearItems b) (blockerCountOf b).toNat r1 =
          (true, b2, r2) →
        b2.blockers.length % 2 = 0 ∧ 4 ≤ b2.blockers.length ∧
          b2.blockers.length ≤ 8) ∧
      ((place b r).1.blockers = [] ∨
        ((place b r).1.blockers.length % 2 = 0 ∧
          4 ≤ (place b r).1.blockers.length ∧
          (place b r).1.blockers.length ≤ 8))) := by
  have hk2 : 2 ≤ (blockerCountOf b).toNat := by
    unfold blockerCountOf
    omega
  have hk4 : (blockerCountOf b).toNat ≤ 4 := by
    unfold blockerCountOf
    omega
  refine ⟨blockerCountOf_eq_clamp b, hk2, hk4, ?_⟩
  intro h30
  constructor
  · intro r1 b2 r2 htp
    have hcount := tryPlace_blockers (clearItems b)
      (blockerCountOf b).toNat r1 b2 r2 (clearItems_spec b).2.1
      (by rw [(clearItems_spec b).2.2.1]; exact hR)
      (by rw [(clearItems_spec b).2.2.2.1]; exact hC)
      (by rw [(clearItems_spec b).2.2.1, (clearItems_spec b).2.2.2.1]
          exact h30)
      hk2 hk4 htp
    omega
  · have hplace := placeAttempts_blockers b (blockerCountOf b).toNat
      MAX_ATTEMPTS b r rfl rfl hR hC h30 hk2 hk4
    unfold place
    rcases hplace with h1 | h1
    · exact Or.inl h1
    · refine Or.inr ?_
      omega

/-- Claim C7 witness. -/
theorem blocker_count_spec_witness :
    (1 : Int) ≤ (MazeBoard.create 1 30).rows ∧
    (1 : Int) ≤ (MazeBoard.create 1 30).cols ∧
    blockerCountOf (MazeBoard.create 1 30) =
      clampSpec (Int.fdiv ((MazeBoard.create 1 30).rows *
        (MazeBoard.create 1 30).cols) 30) 2 4 :=
  ⟨by decide, by decide,
    (blocker_count_spec (MazeBoard.create 1 30) ⟨fun i => i, 0⟩
      (by decide) (by decide)).1⟩

/-! ### Claim C8 (revised): per-gate pairing of placed collectibles -/

theorem hasWall_congr (b1 b : MazeBoard) (hr : b1.rows = b.rows)
    (hc : b1.cols = b.cols) (hw : b1.walls = b.walls) (p : Position)
    (d : Direction) : b1.hasWall p d = b.hasWall p d := by
  unfold MazeBoard.hasWall
  rw [inBounds_congr b1 b hr hc, hw]

theorem bfsStep_congr (b1 b : MazeBoard) (hr : b1.rows = b.rows)
    (hc : b1.cols = b.cols) (hw : b1.walls = b.walls) (cur : Position)
    (cd : Nat) (acc : List Position × List (Position × Nat))
    (d : Direction) : bfsStep b1 cur cd acc d = bfsStep b cur cd acc d := by
  unfold bfsStep
  rw [hasWall_congr b1 b hr hc hw, neighbor_congr b1 b hr hc]

theorem bfsLoop_congr (b1 b : MazeBoard) (hr : b1.rows = b.rows)
    (hc : b1.cols = b.cols) (hw : b1.walls = b.walls) :
    ∀ (f : Nat) (q : List Position) (dist : List (Position × Nat)),
      bfsLoop b1 f q dist = bfsLoop b f q dist := by
  intro f
  induction f with
  | zero =>
    intro q dist
    rfl
  | succ f ih =>
    intro q dist
    cases q with
    | nil => rfl
    | cons cur queue =>
      have hstep : bfsStep b1 cur ((jsGet dist cur).getD 0) =
          bfsStep b cur ((jsGet dist cur).getD 0) :=
        funext (fun acc => funext (fun d =>
          bfsStep_congr b1 b hr hc hw cur ((jsGet dist cur).getD 0) acc d))
      simp only [bfsLoop]
      rw [hstep, ih]

theorem bfsDistances_congr (b1 b : MazeBoard) (hr : b1.rows = b.rows)
    (hc : b1.cols = b.cols) (hw : b1.walls = b.walls) (s : Position) :
    bfsDistances b1 s = bfsDistances b s := by
  unfold bfsDistances
  rw [hr, hc, bfsLoop_congr b1 b hr hc hw]

theorem forall₂_and_right {α β : Type} {P : α → β → Prop} {Q : α → Prop} :
    ∀ {l₁ : List α} {l₂ : List β}, List.Forall₂ P l₁ l₂ →
      (∀ a ∈ l₁, Q a) →
      List.Forall₂ (fun a c => P a c ∧ Q a) l₁ l₂ := by
  intro l₁ l₂ h
  induction h with
  | nil =>
    intro _
    exact List.Forall₂.nil
  | cons hab htail ih =>
    intro hq
    exact List.Forall₂.cons ⟨hab, hq _ (List.mem_cons_self _ _)⟩
      (ih (fun a ha => hq a (List.mem_cons_of_mem _ ha)))

/-- The pairing between one selected gate passage and the collectible placed
for it: matching type, collectible off the start and exit cells, the gate's
blocker stored on both sides of the passage, and the collectible's walls-only
BFS distance from start strictly below the distance of the gate's near-side
cell.  `b` is the board whose exit and blocker registry are referenced and
`dists` the walls-only distance map. -/
def placedPairOK (b : MazeBoard) (dists : List (Position × Nat))
    (it : Passage × BlockerPair) (pc : Position × CollectibleType) : Prop :=
  pc.2 = it.2.collectibleType ∧
  pc.1 ≠ ⟨0, 0⟩ ∧ b.isExit pc.1 = false ∧
  jsGet b.blockers (it.1.pos, it.1.dir) = some it.2.blockerType ∧
  jsGet b.blockers (it.1.pos.add (DIRECTION_OFFSETS it.1.dir),
    OPPOSITE_DIRECTION it.1.dir) = some it.2.blockerType ∧
  ∃ gd pd : Nat, jsGet dists it.1.pos = some gd ∧
    jsGet dists pc.1 = some pd ∧ pd < gd

theorem placeLoop_pairing (b0 : MazeBoard) (dists : List (Position × Nat))
    (hnd : keysNodup dists) (hs : ((⟨0, 0⟩ : Position), 0) ∈ dists) :
    ∀ (items : List (Passage × BlockerPair)) (b : MazeBoard) (r : RNG)
      (b2 : MazeBoard) (r2 : RNG),
      placeLoop dists items b r = (true, b2, r2) →
      b.rows = b0.rows → b.cols = b0.cols →
      (∀ pr ∈ items, b.neighbor pr.1.pos pr.1.dir =
        some (pr.1.pos.add (DIRECTION_OFFSETS pr.1.dir))) →
      ((items.map (fun pr => passageKeys pr.1)).flatten).Nodup →
      ∃ placed : List (Position × CollectibleType),
        b2.collectibles = b.collectibles ++ placed ∧
        List.Forall₂ (fun (it : Passage × BlockerPair)
            (pc : Position × CollectibleType) =>
          pc.2 = it.2.collectibleType ∧ pc.1 ≠ ⟨0, 0⟩ ∧
          b0.isExit pc.1 = false ∧
          ∃ gd pd : Nat, jsGet dists it.1.pos = some gd ∧
            jsGet dists pc.1 = some pd ∧ pd < gd) items placed ∧
        (∀ kk, kk ∉ ((items.map (fun pr => passageKeys pr.1)).flatten) →
          jsGet b2.blockers kk = jsGet b.blockers kk) ∧
        (∀ pr ∈ items,
          jsGet b2.blockers (pr.1.pos, pr.1.dir) =
            some pr.2.blockerType ∧
          jsGet b2.blockers (pr.1.pos.add (DIRECTION_OFFSETS pr.1.dir),
            OPPOSITE_DIRECTION pr.1.dir) = some pr.2.blockerType) := by
  intro items
  induction items with
  | nil =>
    intro b r b2 r2 heq _ _ _ _
    unfold placeLoop at heq
    rw [Prod.mk.injEq, Prod.mk.injEq] at heq
    refine ⟨[], ?_, List.Forall₂.nil, ?_, ?_⟩
    · rw [← heq.2.1]
      simp
    · intro kk _
      rw [← heq.2.1]
    · intro pr hpr
      exact absurd hpr (List.not_mem_nil pr)
  | cons it rest ih =>
    intro b r b2 r2 heq hrows hcols hnbs hflat
    rcases it with ⟨psg, pair⟩
    have hnb : b.neighbor psg.pos psg.dir =
        some (psg.pos.add (DIRECTION_OFFSETS psg.dir)) :=
      hnbs (psg, pair) (List.mem_cons_self _ _)
    have hk12 : passageKeys psg ++
        ((rest.map (fun pr => passageKeys pr.1)).flatten) =
        ((((psg, pair) :: rest).map
          (fun pr => passageKeys pr.1)).flatten) := by
      simp
    rw [← hk12] at hflat
    unfold passageKeys at hflat
    simp only [List.cons_append, List.nil_append] at hflat
    rw [List.nodup_cons, List.nodup_cons] at hflat
    have hne12 : ((psg.pos.add (DIRECTION_OFFSETS psg.dir),
        OPPOSITE_DIRECTION psg.dir) : Position × Direction) ≠
        (psg.pos, psg.dir) := by
      intro hcontra
      have := congrArg Prod.fst hcontra
      exact add_offset_ne psg.pos psg.dir this
    set b2' := (b.addBlocker ⟨pair.blockerType, psg.pos,
      psg.dir⟩).addBlocker ⟨pair.blockerType,
        psg.pos.add (DIRECTION_OFFSETS psg.dir),
        OPPOSITE_DIRECTION psg.dir⟩ with hb2'
    have hred : placeLoop dists ((psg, pair) :: rest) b r =
        match findCollectiblePosition b2' dists psg.pos r with
        | (none, r3) => (false, b2', r3)
        | (some cpos, r3) =>
          placeLoop dists rest
            (b2'.addCollectible ⟨pair.collectibleType, cpos⟩) r3 := by
      simp [placeLoop, hnb, hb2']
    rw [hred] at heq
    rcases hfc : findCollectiblePosition b2' dists psg.pos r with
      ⟨copt, r3⟩
    rw [hfc] at heq
    cases copt with
    | none =>
      rw [Prod.mk.injEq] at heq
      exact absurd heq.1 (by simp)
    | some cpos =>
      obtain ⟨hcne0, hcexit, hcget, gd, pd, hgd, hpd, hlt⟩ :=
        findCollectiblePosition_spec b2' dists psg.pos r cpos r3 hfc
          hnd hs
      have hb3coll : (b2'.addCollectible
          ⟨pair.collectibleType, cpos⟩).collectibles =
          b.collectibles ++ [(cpos, pair.collectibleType)] := by
        show jsSet b2'.collectibles cpos pair.collectibleType =
          b.collectibles ++ [(cpos, pair.collectibleType)]
        rw [jsSet_of_get_none _ _ _ hcget]
        rfl
      obtain ⟨placed2, hcoll2, hfa2, hframe2, hpres2⟩ :=
        ih (b2'.addCollectible ⟨pair.collectibleType, cpos⟩) r3 b2 r2
          heq
          ((show ((b2'.addCollectible ⟨pair.collectibleType,
            cpos⟩)).rows = b.rows from rfl).trans hrows)
          ((show ((b2'.addCollectible ⟨pair.collectibleType,
            cpos⟩)).cols = b.cols from rfl).trans hcols)
          (fun pr hpr => by
            rw [neighbor_congr (b2'.addCollectible
              ⟨pair.collectibleType, cpos⟩) b rfl rfl]
            exact hnbs pr (List.mem_cons_of_mem _ hpr))
          hflat.2.2
      refine ⟨(cpos, pair.collectibleType) :: placed2, ?_, ?_, ?_, ?_⟩
      · rw [hcoll2, hb3coll]
        simp
      · refine List.Forall₂.cons ⟨rfl, hcne0, ?_, gd, pd, hgd, hpd,
          hlt⟩ hfa2
        rw [← isExit_congr b2' b0 (hb2' ▸ hrows) (hb2' ▸ hcols) cpos]
        exact hcexit
      · intro kk hkk
        rw [← hk12] at hkk
        unfold passageKeys at hkk
        simp only [List.cons_append, List.nil_append] at hkk
        have hk1 : kk ≠ ((psg.pos, psg.dir) : Position × Direction) := by
          intro hc
          rw [hc] at hkk
          exact hkk (List.mem_cons_self _ _)
        have hk2 : kk ≠ ((psg.pos.add (DIRECTION_OFFSETS psg.dir),
            OPPOSITE_DIRECTION psg.dir) : Position × Direction) := by
          intro hc
          rw [hc] at hkk
          exact hkk (List.mem_cons_of_mem _ (List.mem_cons_self _ _))
        have hkrest : kk ∉
            ((rest.map (fun pr => passageKeys pr.1)).flatten) := by
          intro hc
          exact hkk (List.mem_cons_of_mem _ (List.mem_cons_of_mem _ hc))
        rw [hframe2 kk hkrest]
        show jsGet (jsSet (jsSet b.blockers (psg.pos, psg.dir)
          pair.blockerType)
          (psg.pos.add (DIRECTION_OFFSETS psg.dir),
            OPPOSITE_DIRECTION psg.dir) pair.blockerType) kk =
          jsGet b.blockers kk
        rw [jsGet_set_other _ _ _ _ hk2, jsGet_set_other _ _ _ _ hk1]
      · intro pr hpr
        rcases List.mem_cons.mp hpr with h2 | h2
        · subst h2
          have hk1rest : ((psg.pos, psg.dir) : Position × Direction) ∉
              ((rest.map (fun pr => passageKeys pr.1)).flatten) := by
            intro hc
            exact hflat.1 (List.mem_cons_of_mem _ hc)
          have hk2rest : ((psg.pos.add (DIRECTION_OFFSETS psg.dir),
              OPPOSITE_DIRECTION psg.dir) : Position × Direction) ∉
              ((rest.map (fun pr => passageKeys pr.1)).flatten) :=
            hflat.2.1
          constructor
          · rw [hframe2 _ hk1rest]
            show jsGet (jsSet (jsSet b.blockers (psg.pos, psg.dir)
              pair.blockerType)
              (psg.pos.add (DIRECTION_OFFSETS psg.dir),
                OPPOSITE_DIRECTION psg.dir) pair.blockerType)
              (psg.pos, psg.dir) = some pair.blockerType
            rw [jsGet_set_other _ _ _ _ hne12.symm]
            exact jsGet_set_self _ _ _
          · rw [hframe2 _ hk2rest]
            show jsGet (jsSet (jsSet b.blockers (psg.pos, psg.dir)
              pair.blockerType)
              (psg.pos.add (DIRECTION_OFFSETS psg.dir),
                OPPOSITE_DIRECTION psg.dir) pair.blockerType)
              (psg.pos.add (DIRECTION_OFFSETS psg.dir),
                OPPOSITE_DIRECTION psg.dir) = some pair.blockerType
            exact jsGet_set_self _ _ _
        · exact hpres2 pr h2

theorem tryPlace_exit_ne (b : MazeBoard) (k : Nat) (r : RNG)
    (b2 : MazeBoard) (r2 : RNG) (h : tryPlace b k r = (true, b2, r2))
    (hex : (⟨0, 0⟩ : Position) = b.exit) : False := by
  have h1 : b.rows = 1 := by
    have h3 : (0 : Int) = b.rows - 1 := congrArg Position.row hex
    omega
  have h2 : b.cols = 1 := by
    have h3 : (0 : Int) = b.cols - 1 := congrArg Position.col hex
    omega
  have hfsp : findShortestPath b ⟨0, 0⟩ b.exit = some [⟨0, 0⟩] := by
    unfold findShortestPath
    rw [← hex, h1, h2]
    rfl
  have hred : tryPlace b k r = (false, b, r) := by
    unfold tryPlace
    rw [hfsp]
    rfl
  rw [hred] at h
  rw [Prod.mk.injEq] at h
  exact absurd h.1 (by simp)

theorem tryPlace_pairing (b : MazeBoard) (k : Nat) (r : RNG)
    (b2 : MazeBoard) (r2 : RNG) (hR : 1 ≤ b.rows) (hC : 1 ≤ b.cols)
    (hcoll : b.collectibles = []) (h : tryPlace b k r = (true, b2, r2)) :
    ∃ (gates : List (Passage × BlockerPair))
      (placed : List (Position × CollectibleType)),
      b2.collectibles = placed ∧
      List.Forall₂ (placedPairOK b2 (bfsDistances b ⟨0, 0⟩))
        gates placed := by
  by_cases hex : (⟨0, 0⟩ : Position) = b.exit
  · exact (tryPlace_exit_ne b k r b2 r2 h hex).elim
  · have hin : b.inBounds ⟨0, 0⟩ = true := by
      rw [inBounds_iff]
      refine ⟨le_rfl, ?_, le_rfl, ?_⟩
      · show (0 : Int) < b.rows
        omega
      · show (0 : Int) < b.cols
        omega
    have hfacts := bfsDistances_facts b ⟨0, 0⟩
    unfold tryPlace at h
    simp only [] at h
    split at h
    · rw [Prod.mk.injEq] at h
      exact absurd h.1 (by simp)
    · rename_i path hsp
      obtain ⟨hch, hnd, hhd, hlst, hbdall⟩ :=
        findShortestPath_spec b ⟨0, 0⟩ b.exit hex hin path hsp
      obtain ⟨plen, pnbs, pflatnd, pkeys⟩ :=
        pathToPassages_spec b path hch hnd hbdall
      set C := (if (pathToPassages path).length > 2 then
        ((pathToPassages path).drop 1).dropLast
        else pathToPassages path) with hCdef
      have hCsub : C.Sublist (pathToPassages path) := by
        rw [hCdef]
        split
        · exact (List.dropLast_sublist _).trans (List.drop_sublist 1 _)
        · exact List.Sublist.refl _
      by_cases hCe : C = []
      · rw [if_pos hCe] at h
        rw [Prod.mk.injEq] at h
        exact absurd h.1 (by simp)
      · rw [if_neg hCe] at h
        set S := (shuffle C r).1.take (min k C.length) with hSdef
        set A := assignBlockerTypes S.length (shuffle C r).2 with hAdef
        have hAlen : A.1.length = S.length := by
          rw [hAdef, assignBlockerTypes_length]
        set items := S.zip A.1 with hIdef
        rcases hpl : placeLoop (bfsDistances b ⟨0, 0⟩) items b A.2 with
          ⟨flag, b2x, r2x⟩
        rw [hpl] at h
        cases flag with
        | false =>
          rw [Prod.mk.injEq] at h
          exact absurd h.1 (by simp)
        | true =>
          rw [Prod.mk.injEq, Prod.mk.injEq] at h
          have hb2 : b2 = b2x := h.2.1.symm
          subst hb2
          have hmemP : ∀ psg ∈ S, psg ∈ pathToPassages path := by
            intro psg hpsg
            have h1 : psg ∈ (shuffle C r).1 :=
              (List.take_sublist _ _).subset (hSdef ▸ hpsg)
            have h2 : psg ∈ C := ((shuffle_perm C r).mem_iff).mp h1
            exact hCsub.subset h2
          have hmapeq : items.map (fun pr => passageKeys pr.1) =
              S.map passageKeys := by
            rw [hIdef]
            rw [show (fun pr : Passage × BlockerPair =>
              passageKeys pr.1) = (passageKeys ∘ Prod.fst) from rfl]
            rw [← List.map_map]
            rw [List.map_fst_zip]
            exact le_of_eq hAlen.symm
          have hndS : ((S.map passageKeys).flatten).Nodup := by
            have hnC : ((C.map passageKeys).flatten).Nodup :=
              pflatnd.sublist (sublist_map_flatten passageKeys hCsub)
            have hnSh :
                (((shuffle C r).1.map passageKeys).flatten).Nodup :=
              ((perm_map_flatten passageKeys
                (shuffle_perm C r)).nodup_iff).mpr hnC
            exact hnSh.sublist (sublist_map_flatten passageKeys
              (hSdef ▸ List.take_sublist _ _))
          obtain ⟨placed, hplc, hfa, hframe, hpres⟩ :=
            placeLoop_pairing b (bfsDistances b ⟨0, 0⟩) hfacts.1
              hfacts.2.1 items b A.2 b2 r2x hpl rfl rfl
              (fun pr hpr => by
                rcases pr with ⟨psg, pairc⟩
                have hpsgS : psg ∈ S := (List.of_mem_zip
                  (hIdef ▸ hpr)).1
                exact pnbs psg (hmemP psg hpsgS))
              (by
                rw [hmapeq]
                exact hndS)
          have hdims := placeLoop_fields_eq (bfsDistances b ⟨0, 0⟩)
            items b A.2 true b2 r2x hpl
          refine ⟨items, placed, ?_, ?_⟩
          · rw [hplc, hcoll]
            simp
          · refine (forall₂_and_right hfa hpres).imp ?_
            intro it pc hP
            obtain ⟨⟨ht, hne0, hex0, gd, pd, hgd, hpd, hlt⟩,
              hq1, hq2⟩ := hP
            refine ⟨ht, hne0, ?_, hq1, hq2, gd, pd, hgd, hpd, hlt⟩
            rw [isExit_congr b2 b hdims.1 hdims.2.1 pc.1]
            exact hex0

theorem placeAttempts_pairing (b0 : MazeBoard) (k : Nat) :
    ∀ (n : Nat) (b : MazeBoard) (r : RNG),
      b.rows = b0.rows → b.cols = b0.cols →
      1 ≤ b0.rows → 1 ≤ b0.cols →
      (placeAttempts k n b r).1.collectibles = [] ∨
      ∃ (gates : List (Passage × BlockerPair))
        (placed : List (Position × CollectibleType)),
        (placeAttempts k n b r).1.collectibles = placed ∧
        List.Forall₂ (placedPairOK (placeAttempts k n b r).1
          (bfsDistances (placeAttempts k n b r).1 ⟨0, 0⟩))
          gates placed := by
  intro n
  induction n with
  | zero =>
    intro b r _ _ _ _
    exact Or.inl (clearItems_spec b).1
  | succ n ih =>
    intro b r hrows hcols hR0 hC0
    rcases hres : tryPlace (clearItems b) k r with ⟨flag, b2, r2⟩
    have hf := tryPlace_fields (clearItems b) k r
    rw [hres] at hf
    cases flag with
    | false =>
      have hstep : placeAttempts k (n + 1) b r =
          placeAttempts k n b2 r2 := by
        simp only [placeAttempts]
        rw [hres]
      rw [hstep]
      exact ih b2 r2
        (by rw [hf.1, (clearItems_spec b).2.2.1, hrows])
        (by rw [hf.2.1, (clearItems_spec b).2.2.2.1, hcols])
        hR0 hC0
    | true =>
      have hstep : placeAttempts k (n + 1) b r = (b2, r2) := by
        simp only [placeAttempts]
        rw [hres]
      rw [hstep]
      obtain ⟨gates, placed, hc, hfa⟩ :=
        tryPlace_pairing (clearItems b) k r b2 r2
          (by rw [(clearItems_spec b).2.2.1, hrows]; exact hR0)
          (by rw [(clearItems_spec b).2.2.2.1, hcols]; exact hC0)
          (clearItems_spec b).1 hres
      have hdists : bfsDistances (clearItems b) ⟨0, 0⟩ =
          bfsDistances b2 ⟨0, 0⟩ :=
        (bfsDistances_congr b2 (clearItems b) hf.1 hf.2.1 hf.2.2
          ⟨0, 0⟩).symm
      rw [hdists] at hfa
      exact Or.inr ⟨gates, placed, hc, hfa⟩

/-- Claim C8: (1) throughout an attempt's placement loop (any processed
passage list, starting from a collectible-free board) no collectible is
ever stored on the start cell or the exit cell; (2) every successful
`tryPlace` attempt pairs its stored collectibles one-to-one, in placement
order, with the selected gate passages — the pair's blocker sits on both
sides of its passage and the collectible sits off start and exit at a
walls-only BFS distance from start strictly below that of its own gate's
near-side cell; (3) `place` ends with a board that keeps collectibles off
start and exit and is either collectible-free or paired gate-by-gate in
the same way, relative to its own walls-only distance map. -/
theorem collectible_placement_safe :
    (∀ (dists : List (Position × Nat)), keysNodup dists →
      ((⟨0, 0⟩ : Position), 0) ∈ dists →
      ∀ (items : List (Passage × BlockerPair)) (b : MazeBoard) (r : RNG),
        b.collectibles = [] →
        ∀ pc ∈ (placeLoop dists items b r).2.1.collectibles,
          pc.1 ≠ ⟨0, 0⟩ ∧ b.isExit pc.1 = false) ∧
    (∀ (b : MazeBoard) (k : Nat) (r : RNG) (b2 : MazeBoard) (r2 : RNG),
      1 ≤ b.rows → 1 ≤ b.cols → b.collectibles = [] →
      tryPlace b k r = (true, b2, r2) →
      ∃ (gates : List (Passage × BlockerPair))
        (placed : List (Position × CollectibleType)),
        b2.collectibles = placed ∧
        List.Forall₂ (placedPairOK b2 (bfsDistances b ⟨0, 0⟩))
          gates placed) ∧
    (∀ (b : MazeBoard) (r : RNG),
      (∀ pc ∈ (place b r).1.collectibles,
        pc.1 ≠ ⟨0, 0⟩ ∧ b.isExit pc.1 = false) ∧
      (1 ≤ b.rows → 1 ≤ b.cols →
        (place b r).1.collectibles = [] ∨
        ∃ (gates : List (Passage × BlockerPair))
          (placed : List (Position × CollectibleType)),
          (place b r).1.collectibles = placed ∧
          List.Forall₂ (placedPairOK (place b r).1
            (bfsDistances (place b r).1 ⟨0, 0⟩)) gates placed)) := by
  refine ⟨?_, ?_, ?_⟩
  · intro dists hnd hs items b r hempty pc hpc
    have hok := placeLoop_collectibles b dists hnd hs items [] b r rfl rfl
      (by
        rw [hempty]
        intro qc hqc
        exact absurd hqc (List.not_mem_nil qc)) pc hpc
    exact ⟨hok.1, hok.2.1⟩
  · intro b k r b2 r2 hR hC hcoll h
    exact tryPlace_pairing b k r b2 r2 hR hC hcoll h
  · intro b r
    constructor
    · intro pc hpc
      exact placeAttempts_collectibles (blockerCountOf b).toNat
        MAX_ATTEMPTS b r pc hpc
    · intro hR hC
      exact placeAttempts_pairing b (blockerCountOf b).toNat
        MAX_ATTEMPTS b r rfl rfl hR hC

/-- Claim C8 witness: a one-gate placement on a 1×3 corridor keeps the
placed collectible off the start and exit cells. -/
theorem collectible_placement_safe_witness :
    keysNodup ([((⟨0, 0⟩ : Position), 0), (⟨0, 1⟩, 1), (⟨0, 2⟩, 2)] :
      List (Position × Nat)) ∧
    ((⟨0, 0⟩ : Position), 0) ∈
      ([((⟨0, 0⟩ : Position), 0), (⟨0, 1⟩, 1), (⟨0, 2⟩, 2)] :
        List (Position × Nat)) ∧
    ((⟨0, 1⟩ : Position), CollectibleType.keyRed).1 ≠
      (⟨0, 0⟩ : Position) ∧
    (((MazeBoard.create 1 3).removeWall ⟨0, 0⟩ Direction.east).removeWall
      ⟨0, 1⟩ Direction.east).isExit
      ((⟨0, 1⟩ : Position), CollectibleType.keyRed).1 = false := by
  refine ⟨by unfold keysNodup; decide, by decide, ?_, ?_⟩
  · exact (collectible_placement_safe.1
      ([((⟨0, 0⟩ : Position), 0), (⟨0, 1⟩, 1), (⟨0, 2⟩, 2)])
      (by unfold keysNodup; decide) (by decide)
      ([(⟨⟨0, 2⟩, Direction.west⟩,
        ⟨BlockerType.doorRed, CollectibleType.keyRed⟩)])
      (((MazeBoard.create 1 3).removeWall ⟨0, 0⟩ Direction.east).removeWall
        ⟨0, 1⟩ Direction.east)
      ⟨fun _ => 0, 0⟩ rfl ((⟨0, 1⟩ : Position), CollectibleType.keyRed)
      (by decide)).1
  · exact (collectible_placement_safe.1
      ([((⟨0, 0⟩ : Position), 0), (⟨0, 1⟩, 1), (⟨0, 2⟩, 2)])
      (by unfold keysNodup; decide) (by decide)
      ([(⟨⟨0, 2⟩, Direction.west⟩,
        ⟨BlockerType.doorRed, CollectibleType.keyRed⟩)])
      (((MazeBoard.create 1 3).removeWall ⟨0, 0⟩ Direction.east).removeWall
        ⟨0, 1⟩ Direction.east)
      ⟨fun _ => 0, 0⟩ rfl ((⟨0, 1⟩ : Position), CollectibleType.keyRed)
      (by decide)).2
